import Mathlib

/-!
# Edgar: table walker, link resolver, index page and statement parsers

A shallow embedding of `parser.go` and of `getPage` of `page.go` of the edgar
package, and theorems about it.

Go strings are modelled as Lean strings (sequences of characters).  The HTML
tokenizer of `golang.org/x/net/html` is a library the package only calls; it is
modelled as a cursor over the finite list of tokens of the page, after whose
end `Next` yields the error token forever.

A loop of the source is a function that is recursive on a fuel argument, one
unit of fuel per iteration; `Run.fuelOut` says that the fuel did not suffice.
A call that has the result `Run.fuelOut` for every amount of fuel does not
return.
-/

namespace Edgar

/-! ## Strings -/

/-- The characters `unicode.IsSpace` of Go accepts. -/
def isSpace (c : Char) : Bool :=
  c = '\t' || c = '\n' || c.toNat = 0x0B || c.toNat = 0x0C || c = '\r' || c = ' ' ||
  c.toNat = 0x85 || c.toNat = 0xA0 || c.toNat = 0x1680 ||
  (0x2000 ≤ c.toNat && c.toNat ≤ 0x200A) ||
  c.toNat = 0x2028 || c.toNat = 0x2029 || c.toNat = 0x202F || c.toNat = 0x205F ||
  c.toNat = 0x3000

/-- The function `strings.TrimSpace` on a list of characters: leading and
trailing white space removed. -/
def trimSpaceChars (s : List Char) : List Char :=
  ((s.dropWhile isSpace).reverse.dropWhile isSpace).reverse

/-- The function `strings.TrimSpace`. -/
def TrimSpace (s : String) : String :=
  String.mk (trimSpaceChars s.data)

/-- One character as `html.EscapeString` writes it. -/
def escapeChar (c : Char) : List Char :=
  if c = '&' then "&amp;".data
  else if c = '\'' then "&#39;".data
  else if c = '<' then "&lt;".data
  else if c = '>' then "&gt;".data
  else if c = '"' then "&#34;".data
  else if c = '\r' then "&#13;".data
  else [c]

/-- The function `html.EscapeString`: the five special characters and the
carriage return are written as character references. -/
def EscapeString (s : String) : String :=
  String.mk (s.data.flatMap escapeChar)

/-! ## Tokens and the tokenizer -/

/-- The type `html.TokenType`. -/
inductive TokenType where
  | ErrorToken
  | TextToken
  | StartTagToken
  | EndTagToken
  | SelfClosingTagToken
  | CommentToken
  | DoctypeToken
  deriving DecidableEq, Repr

/-- The type `html.Attribute` (its namespace field is not read by the package). -/
structure Attribute where
  Key : String
  Val : String
  deriving DecidableEq, Repr

/-- The type `html.Token`. -/
structure Token where
  Typ : TokenType
  Data : String
  Attr : List Attribute
  deriving DecidableEq, Repr

/-- The token the tokenizer holds before the first `Next` and after the end of
the input. -/
def errorToken : Token := ⟨TokenType.ErrorToken, "", []⟩

/-- The method `Token.String` on a text token, the only kind of token the
package calls it on: the text with its special characters escaped. -/
def Token.String (t : Token) :=
  EscapeString t.Data

/-- The state of an `html.Tokenizer`: the tokens not produced yet, the token
produced by the last `Next`, and whether `Token` has already handed out the
name, text and attributes of that token (a second `Token` call on the same
token gets its type only). -/
structure Tokenizer where
  rest : List Token
  cur : Token
  taken : Bool
  deriving DecidableEq, Repr

/-- The function `html.NewTokenizer` on a page with the given tokens. -/
def NewTokenizer (page : List Token) : Tokenizer :=
  ⟨page, errorToken, false⟩

/-- The method `Tokenizer.Next`: advance to the next token and return its
type; past the end of the input the token is the error token. -/
def Tokenizer.Next (z : Tokenizer) : TokenType × Tokenizer :=
  match z.rest with
  | [] => (TokenType.ErrorToken, ⟨[], errorToken, false⟩)
  | t :: ts => (t.Typ, ⟨ts, t, false⟩)

/-- The method `Tokenizer.Token`: the current token; its data is handed out
once. -/
def Tokenizer.Token (z : Tokenizer) : Edgar.Token × Tokenizer :=
  if z.taken then (⟨z.cur.Typ, "", []⟩, z)
  else (z.cur, { z with taken := true })

/-- The two statements `z.Next(); token = z.Token()` that end the body of
every scanning loop. -/
def Tokenizer.advance (z : Tokenizer) : Edgar.Token × Tokenizer :=
  (z.Next.2).Token

/-! ## Outcomes -/

/-- The outcome of running a function of the package with some fuel: the fuel
did not suffice, the process exited through `log.Fatal`, the function
panicked, or it returned a value. -/
inductive Run (α : Type) where
  | fuelOut : Run α
  | fatal : String → Run α
  | panic : String → Run α
  | ret : α → Run α
  deriving DecidableEq, Repr

/-- Sequencing: the second step runs on the value the first returned; a first
step that ran out of fuel, exited through `log.Fatal` or panicked ends the
run. -/
def Run.bind {α β : Type} : Run α → (α → Run β) → Run β
  | Run.fuelOut, _ => Run.fuelOut
  | Run.fatal m, _ => Run.fatal m
  | Run.panic m, _ => Run.panic m
  | Run.ret a, f => f a

/-- The message of the error that ends a table scan. -/
def doneParsing : String := "Done with parsing"

/-! ## The link resolver -/

/-- The whitelist `reqHyperLinks`. -/
def reqHyperLinks : List (String × Bool) :=
  [("interactiveDataBtn", true)]

/-- The attribute loop of `parseHyperLinkTag`, over the attributes that are
left, with the values of `id` and `href` so far: either the early result of an
accepted `onclick`, or the final `id` and `href`. -/
def hyperLinkAttrs (getFinDataXBRLTag : String → Option String) :
    List Attribute → String → String → Sum String (String × String)
  | [], id, href => Sum.inr (id, href)
  | a :: as, id, href =>
    if a.Key = "id" then hyperLinkAttrs getFinDataXBRLTag as a.Val href
    else if a.Key = "href" then hyperLinkAttrs getFinDataXBRLTag as id a.Val
    else if a.Key = "onclick" then
      match getFinDataXBRLTag a.Val with
      | some str => Sum.inl str
      | none => hyperLinkAttrs getFinDataXBRLTag as id href
    else hyperLinkAttrs getFinDataXBRLTag as id href

/-- The loop of `parseHyperLinkTag` that finishes up the hyperlink: it reads
tokens until the current one is an `a` end tag, and has no other exit. -/
def hyperLinkLoop : Nat → Tokenizer → Token → Run Tokenizer
  | 0, _, _ => Run.fuelOut
  | n + 1, z, token =>
    if token.Data = "a" ∧ token.Typ = TokenType.EndTagToken then Run.ret z
    else hyperLinkLoop n z.advance.2 z.advance.1

/-- The function `parseHyperLinkTag`.  The function `getFinDataXBRLTag` is not
part of the files at hand and is a parameter: `some str` is a nil error. -/
def parseHyperLinkTag (getFinDataXBRLTag : String → Option String)
    (fuel : Nat) (z : Tokenizer) (token : Token) : Run (String × Tokenizer) :=
  match hyperLinkAttrs getFinDataXBRLTag token.Attr "" "" with
  | Sum.inl str => Run.ret (str, z)
  | Sum.inr (id, href) =>
    let text := ""
    (hyperLinkLoop fuel z token).bind fun z =>
      if (reqHyperLinks.lookup id).isSome then Run.ret (href, z)
      else Run.ret (text, z)

/-! ## The table walker -/

/-- The loop of `parseTableData`. -/
def parseTableDataLoop (getFinDataXBRLTag : String → Option String) (parseHref : Bool) :
    Nat → Tokenizer → Token → Run (String × Tokenizer)
  | 0, _, _ => Run.fuelOut
  | n + 1, z, token =>
    if token.Data = "td" ∧ token.Typ = TokenType.EndTagToken then Run.ret ("", z)
    else if token.Typ = TokenType.ErrorToken then Run.ret ("", z)
    else if parseHref = true ∧ token.Data = "a" ∧ token.Typ = TokenType.StartTagToken then
      (parseHyperLinkTag getFinDataXBRLTag n z token).bind fun r =>
        if r.1.length > 0 then Run.ret (r.1, r.2)
        else parseTableDataLoop getFinDataXBRLTag parseHref n r.2.advance.2 r.2.advance.1
    else if token.Typ = TokenType.TextToken ∧ (TrimSpace token.String).length > 0 then
      Run.ret (TrimSpace token.String, z)
    else parseTableDataLoop getFinDataXBRLTag parseHref n z.advance.2 z.advance.1

/-- The function `parseTableData`. -/
def parseTableData (getFinDataXBRLTag : String → Option String)
    (fuel : Nat) (z : Tokenizer) (parseHref : Bool) : Run (String × Tokenizer) :=
  if z.Token.1.Typ ≠ TokenType.StartTagToken ∧ z.Token.1.Data ≠ "td" then
    Run.fatal "Tokenizer passed incorrectly to parseTableData"
  else parseTableDataLoop getFinDataXBRLTag parseHref fuel z.Token.2 z.Token.1

/-- The attribute loop of `parseTableRow`: the link policy of one cell, off
when a `class` attribute is `nump` or `num`. -/
def cellParseFlag : List Attribute → Bool → Bool
  | [], parseFlag => parseFlag
  | a :: as, parseFlag =>
    if a.Key = "class" ∧ (a.Val = "nump" ∨ a.Val = "num") then cellParseFlag as false
    else cellParseFlag as parseFlag

/-- The first loop of `parseTableRow` and of `parseTableHeading`: read on to
the next `tr` start tag; no token when the input ends first. -/
def seekRowLoop : Nat → Tokenizer → Token → Run (Option Token × Tokenizer)
  | 0, _, _ => Run.fuelOut
  | n + 1, z, token =>
    if token.Typ = TokenType.StartTagToken ∧ token.Data = "tr" then Run.ret (some token, z)
    else if z.Next.1 = TokenType.ErrorToken then Run.ret (none, z.Next.2)
    else seekRowLoop n z.advance.2 z.advance.1

/-- The second loop of `parseTableRow`: collect the cells up to the `tr` end
tag. -/
def parseTableRowLoop (getFinDataXBRLTag : String → Option String) (parseHref : Bool) :
    Nat → Tokenizer → Token → List String → Run (Except String (List String) × Tokenizer)
  | 0, _, _, _ => Run.fuelOut
  | n + 1, z, token, retData =>
    if token.Data = "tr" ∧ token.Typ = TokenType.EndTagToken then Run.ret (Except.ok retData, z)
    else if token.Typ = TokenType.ErrorToken then Run.ret (Except.error doneParsing, z)
    else if token.Data = "td" ∧ token.Typ = TokenType.StartTagToken then
      (parseTableData getFinDataXBRLTag n z (cellParseFlag token.Attr parseHref)).bind
        fun r =>
          parseTableRowLoop getFinDataXBRLTag parseHref n r.2.advance.2 r.2.advance.1
            (if r.1.length > 0 then retData ++ [r.1] else retData)
    else parseTableRowLoop getFinDataXBRLTag parseHref n z.advance.2 z.advance.1 retData

/-- The function `parseTableRow`: the cells of the next row, or the error
`Done with parsing`, and the tokenizer as the call leaves it. -/
def parseTableRow (getFinDataXBRLTag : String → Option String)
    (fuel : Nat) (z : Tokenizer) (parseHref : Bool) :
    Run (Except String (List String) × Tokenizer) :=
  (seekRowLoop fuel z.Token.2 z.Token.1).bind fun r =>
    match r.1 with
    | none => Run.ret (Except.error doneParsing, r.2)
    | some token => parseTableRowLoop getFinDataXBRLTag parseHref fuel r.2 token []

/-- Successive calls of `parseTableRow` on one tokenizer, `calls` of them: the
results in call order, and the tokenizer as the last call leaves it. -/
def parseTableRows (getFinDataXBRLTag : String → Option String) (fuel : Nat)
    (parseHref : Bool) : (calls : Nat) → Tokenizer →
    Run (List (Except String (List String)) × Tokenizer)
  | 0, z => Run.ret ([], z)
  | calls + 1, z =>
    (parseTableRow getFinDataXBRLTag fuel z parseHref).bind fun r =>
      (parseTableRows getFinDataXBRLTag fuel parseHref calls r.2).bind fun rs =>
        Run.ret (r.1 :: rs.1, rs.2)

/-! ## The heading walker -/

/-- The loop of `parseTableTitle`, with the texts `strs` collected so far. -/
def parseTableTitleLoop : Nat → Tokenizer → Token → List String →
    Run (List String × Tokenizer)
  | 0, _, _, _ => Run.fuelOut
  | n + 1, z, token, strs =>
    if token.Data = "th" ∧ token.Typ = TokenType.EndTagToken then Run.ret (strs, z)
    else if token.Typ = TokenType.ErrorToken then Run.ret (strs, z)
    else parseTableTitleLoop n z.advance.2 z.advance.1
      (if token.Typ = TokenType.TextToken ∧ (TrimSpace token.String).length > 0 then
        strs ++ [TrimSpace token.String]
      else strs)

/-- The function `parseTableTitle`. -/
def parseTableTitle (fuel : Nat) (z : Tokenizer) : Run (List String × Tokenizer) :=
  if z.Token.1.Typ ≠ TokenType.StartTagToken ∧ z.Token.1.Data ≠ "th" then
    Run.fatal "Tokenizer passed incorrectly to parseTableData"
  else parseTableTitleLoop fuel z.Token.2 z.Token.1 []

/-- The second loop of `parseTableHeading`: collect the texts of the `th`
cells up to the `tr` end tag. -/
def parseTableHeadingLoop : Nat → Tokenizer → Token → List String →
    Run (Except String (List String) × Tokenizer)
  | 0, _, _, _ => Run.fuelOut
  | n + 1, z, token, retData =>
    if token.Data = "tr" ∧ token.Typ = TokenType.EndTagToken then Run.ret (Except.ok retData, z)
    else if token.Typ = TokenType.ErrorToken then Run.ret (Except.error doneParsing, z)
    else if token.Data = "th" ∧ token.Typ = TokenType.StartTagToken then
      (parseTableTitle n z).bind fun r =>
        parseTableHeadingLoop n r.2.advance.2 r.2.advance.1
          (if r.1.length > 0 then retData ++ r.1 else retData)
    else parseTableHeadingLoop n z.advance.2 z.advance.1 retData

/-- The function `parseTableHeading`: the heading texts of the next row, or
the error `Done with parsing`, and the tokenizer as the call leaves it. -/
def parseTableHeading (fuel : Nat) (z : Tokenizer) :
    Run (Except String (List String) × Tokenizer) :=
  (seekRowLoop fuel z.Token.2 z.Token.1).bind fun r =>
    match r.1 with
    | none => Run.ret (Except.error doneParsing, r.2)
    | some token => parseTableHeadingLoop fuel r.2 token []

/-! ## The statement parser -/

/-- The record `financialReport`, as far as `finReportParser` reads and writes
it: the field `Scales`, a Go map written as the list of its entries, and the
other fields, which only `setData` writes. -/
structure financialReport (V E F : Type) where
  Values : V
  Scales : List (E × F)

/-- The functions and the constant that the statement parser calls and that
are not part of the files at hand.  The function `setData` returns the record
as it leaves it and its error, `none` for nil; it is taken not to write to the
map it is passed.  The type `FT` is that of the concepts, `DT` that of the
document types. -/
structure ReportFuncs (V E F FT DT : Type) where
  getFinDataTypeFromXBRLTag : String → FT
  finDataUnknown : FT
  setData : financialReport V E F → FT → String → List (E × F) → DT →
    financialReport V E F × Option String
  filingScale : List String → DT → List (E × F)

/-- The function `parseFilingScale`: the scale mapping and the tokenizer as the
call leaves it. -/
def parseFilingScale {V E F FT DT : Type} (R : ReportFuncs V E F FT DT) (fuel : Nat)
    (z : Tokenizer) (t : DT) : Run (List (E × F) × Tokenizer) :=
  (parseTableHeading fuel z).bind fun r =>
    match r.1 with
    | Except.ok data =>
      if data.length > 0 then Run.ret (R.filingScale data t, r.2) else Run.ret ([], r.2)
    | Except.error _ => Run.ret ([], r.2)

/-- The loop `for _, str := range data[1:]` of `finReportParser`, over the
cells that are left.  The second component is a record of the calls of
`setData` for the proofs: each cell it was applied to, in call order, with
whether the call returned nil. -/
def setDataLoop {V E F FT DT : Type} (R : ReportFuncs V E F FT DT) (finType : FT)
    (scales : List (E × F)) (t : DT) :
    List String → financialReport V E F → List (String × Bool) →
    financialReport V E F × List (String × Bool)
  | [], fr, calls => (fr, calls)
  | str :: strs, fr, calls =>
    if str.length > 0 then
      if (R.setData fr finType str scales t).2.isNone then
        ((R.setData fr finType str scales t).1, calls ++ [(str, true)])
      else
        setDataLoop R finType scales t strs (R.setData fr finType str scales t).1
          (calls ++ [(str, false)])
    else setDataLoop R finType scales t strs fr calls

/-- The body of the loop of `finReportParser` on a row `data` that
`parseTableRow` returned: the record after the row, and the calls of `setData`
for the row. -/
def finReportRow {V E F FT DT : Type} [DecidableEq FT] (R : ReportFuncs V E F FT DT)
    (scales : List (E × F)) (t : DT) (fr : financialReport V E F) (data : List String) :
    financialReport V E F × List (String × Bool) :=
  if data.length > 0 then
    if R.getFinDataTypeFromXBRLTag (data.getD 0 "") ≠ R.finDataUnknown then
      setDataLoop R (R.getFinDataTypeFromXBRLTag (data.getD 0 "")) scales t (data.drop 1) fr []
    else (fr, [])
  else (fr, [])

/-- The loop `for err == nil` of `finReportParser`, with the result of the
last call of `parseTableRow`. -/
def finReportLoop {V E F FT DT : Type} [DecidableEq FT]
    (getFinDataXBRLTag : String → Option String) (R : ReportFuncs V E F FT DT)
    (scales : List (E × F)) (t : DT) :
    Nat → Tokenizer → Except String (List String) → financialReport V E F →
    Run (financialReport V E F)
  | 0, _, _, _ => Run.fuelOut
  | _ + 1, _, Except.error _, fr => Run.ret fr
  | n + 1, z, Except.ok data, fr =>
    (parseTableRow getFinDataXBRLTag n z true).bind fun r =>
      finReportLoop getFinDataXBRLTag R scales t n r.2 r.1 (finReportRow R scales t fr data).1

/-- The function `finReportParser` on a page with the given tokens: the record
and the error, `none` for nil. -/
def finReportParser {V E F FT DT : Type} [DecidableEq FT]
    (getFinDataXBRLTag : String → Option String) (R : ReportFuncs V E F FT DT)
    (fuel : Nat) (page : List Token) (fr : financialReport V E F) (t : DT) :
    Run (financialReport V E F × Option String) :=
  (parseFilingScale R fuel (NewTokenizer page) t).bind fun s =>
    (parseTableRow getFinDataXBRLTag fuel s.2 true).bind fun r =>
      (finReportLoop getFinDataXBRLTag R s.1 t fuel r.2 r.1 fr).bind fun fr2 =>
        Run.ret ({ fr2 with Scales := s.1 }, none)

/-! ## The filings-list parser -/

/-- The loop of `queryPageParser`, with the result of the last call of
`parseTableRow` and the map `filingInfo` so far.  A Go map from strings to
strings is the list of its assignments, the latest first, read with
`List.lookup`.  The function `getYear` and the constant `thresholdYear` are
not part of the files at hand and are parameters. -/
def queryPageLoop (getFinDataXBRLTag : String → Option String) (getYear : String → Int)
    (thresholdYear : Int) (docType : String) :
    Nat → Tokenizer → Except String (List String) → List (String × String) →
    Run (List (String × String))
  | 0, _, _, _ => Run.fuelOut
  | _ + 1, _, Except.error _, filingInfo => Run.ret filingInfo
  | n + 1, z, Except.ok data, filingInfo =>
    let filingInfo :=
      if data.length = 5 ∧ data.getD 0 "" = docType then
        if getYear (data.getD 3 "") ≥ thresholdYear then
          (data.getD 3 "", data.getD 1 "") :: filingInfo
        else filingInfo
      else filingInfo
    (parseTableRow getFinDataXBRLTag n z true).bind fun r =>
      queryPageLoop getFinDataXBRLTag getYear thresholdYear docType n r.2 r.1 filingInfo

/-- The function `queryPageParser` on a page with the given tokens. -/
def queryPageParser (getFinDataXBRLTag : String → Option String) (getYear : String → Int)
    (thresholdYear : Int) (fuel : Nat) (page : List Token) (docType : String) :
    Run (List (String × String)) :=
  (parseTableRow getFinDataXBRLTag fuel (NewTokenizer page) true).bind fun r =>
    queryPageLoop getFinDataXBRLTag getYear thresholdYear docType fuel r.2 r.1 []

/-- A row that makes an entry for `date`, in the words of the claim about the
filings list: exactly 5 cells, none empty, the first the requested filing
type, the fourth the date, and the year of the date not below the threshold. -/
def isFilingRow (getYear : String → Int) (thresholdYear : Int) (docType date : String)
    (r : List String) : Bool :=
  decide (r.length = 5 ∧ (∀ s ∈ r, s.length > 0) ∧ r.getD 0 "" = docType ∧
    r.getD 3 "" = date ∧ getYear date ≥ thresholdYear)

/-! ## The document-manifest parser

The text of a page and the strings cut out of it are lists of characters. -/

/-- The function `strings.HasPrefix`. -/
def HasPrefix : List Char → List Char → Bool
  | _, [] => true
  | [], _ :: _ => false
  | c :: cs, p :: ps => c = p && HasPrefix cs ps

/-- The function `strings.Contains`. -/
def Contains : List Char → List Char → Bool
  | [], substr => HasPrefix [] substr
  | c :: cs, substr => HasPrefix (c :: cs) substr || Contains cs substr

/-- The scan of `strings.Split` for a separator that is not empty (the only
kind the package splits on): `skip` counts the characters of a separator just
found that are still to be passed over, `cur` is the piece read so far. -/
def splitLoop (sep : List Char) : List Char → Nat → List Char → List (List Char)
  | [], _, cur => [cur]
  | _ :: cs, skip + 1, cur => splitLoop sep cs skip cur
  | c :: cs, 0, cur =>
    if HasPrefix (c :: cs) sep then cur :: splitLoop sep cs (sep.length - 1) []
    else splitLoop sep cs 0 (cur ++ [c])

/-- The function `strings.Split`: the pieces of `s` between the occurrences of
`sep`, found from left to right. -/
def Split (s sep : List Char) : List (List Char) :=
  splitLoop sep s 0 []

/-- The function `strings.Trim`: the characters of `cutset` removed from both
ends. -/
def Trim (s cutset : List Char) : List Char :=
  ((s.dropWhile (fun c => decide (c ∈ cutset))).reverse.dropWhile
    (fun c => decide (c ∈ cutset))).reverse

/-- The digit loop of `strconv.Atoi`: the number so far, or nothing at a
character that is not a decimal digit. -/
def atoiDigits : List Char → Nat → Option Nat
  | [], n => some n
  | ch :: cs, n =>
    if '0' ≤ ch ∧ ch ≤ '9' then atoiDigits cs (n * 10 + (ch.toNat - '0'.toNat)) else none

/-- The function `strconv.Atoi` on a 64-bit platform, as the package uses it,
with the error dropped: the number a string of decimal digits with an optional
sign spells, 0 for any other string, and the nearest 64-bit integer for a
number out of range. -/
def Atoi (s : List Char) : Int :=
  let digits := match s with
    | '-' :: cs => cs
    | '+' :: cs => cs
    | cs => cs
  if digits.length < 1 then 0
  else
    match atoiDigits digits 0 with
    | none => 0
    | some n =>
      match s with
      | '-' :: _ => if n ≤ 2 ^ 63 then - (n : Int) else - (2 ^ 63 : Int)
      | _ => if n < 2 ^ 63 then (n : Int) else (2 ^ 63 - 1 : Int)

/-- A value of the type `int` after an addition or subtraction, on a 64-bit
platform: the result wraps around. -/
def wrapInt64 (x : Int) : Int :=
  (x + 9223372036854775808) % 18446744073709551616 - 9223372036854775808

/-- The cut that `ReadString` makes in a text: the text up to and with the
first `delim` and no error, or all of the text and the error `EOF` when it
holds no `delim`; and the text after the cut. -/
def readText : List Char → Char → (List Char × Bool) × List Char
  | [], _ => (([], true), [])
  | c :: cs, delim =>
    if c = delim then (([c], false), cs)
    else (((c :: (readText cs delim).1.1), (readText cs delim).1.2), (readText cs delim).2)

/-- The size of the buffer of `bufio.NewReader`, in bytes. -/
def defaultBufSize : Nat := 4096

/-- A `bufio.Reader` on the reader `page`; the characters stand for the bytes
of the page.  The bytes that were read from the page and are not yet returned,
the bytes that the page has left, and whether the end of the page was met and
is not yet reported. -/
structure BufReader where
  buf : List Char
  page : List Char
  eof : Bool
  deriving DecidableEq, Repr

/-- The function `bufio.NewReader`. -/
def NewReader (page : List Char) : BufReader :=
  ⟨[], page, false⟩

/-- The method `fill` of a `bufio.Reader`: one `Read` of the page into the
free part of the buffer.  How many bytes a `Read` delivers is up to the page,
a parameter: `chunk space left` for a buffer part of `space` bytes when the
page has the bytes `left`; a `Read` is taken to deliver at least one byte and
at most `space` bytes while the page has bytes left, and to fail only at the
end of the page, with `EOF`. -/
def BufReader.fill (chunk : Nat → List Char → Nat) (b : BufReader) : BufReader :=
  match b.page with
  | [] => ⟨b.buf, [], true⟩
  | c :: cs =>
    ⟨b.buf ++ (c :: cs).take
        (max 1 (min (chunk (defaultBufSize - b.buf.length) (c :: cs))
          (defaultBufSize - b.buf.length))),
      (c :: cs).drop
        (max 1 (min (chunk (defaultBufSize - b.buf.length) (c :: cs))
          (defaultBufSize - b.buf.length))),
      false⟩

/-- The loop of `bufio.Reader.ReadString`, with the full buffers `full`
collected so far: the bytes up to and with the first `delim`, taken from the
buffer, which is filled from the page while it holds no `delim`; at the end of
the page what is left, and the error `EOF`. -/
def BufReader.readStringLoop (chunk : Nat → List Char → Nat) (delim : Char) :
    Nat → BufReader → List Char → (List Char × Bool) × BufReader
  | 0, b, full => ((full ++ b.buf, true), ⟨[], b.page, false⟩)
  | n + 1, b, full =>
    if delim ∈ b.buf then
      ((full ++ (readText b.buf delim).1.1, false), ⟨(readText b.buf delim).2, b.page, b.eof⟩)
    else if b.eof then ((full ++ b.buf, true), ⟨[], b.page, false⟩)
    else if b.buf.length ≥ defaultBufSize then
      BufReader.readStringLoop chunk delim n ⟨[], b.page, b.eof⟩ (full ++ b.buf)
    else BufReader.readStringLoop chunk delim n (b.fill chunk) full

/-- The method `bufio.Reader.ReadString`: the line, whether the error is
`EOF`, and the reader after the call.  The loop runs at most twice for each
byte that the page has left, and three times more. -/
def BufReader.ReadString (chunk : Nat → List Char → Nat) (b : BufReader) (delim : Char) :
    (List Char × Bool) × BufReader :=
  BufReader.readStringLoop chunk delim (2 * b.page.length + 3) b []

/-- The inner loop of `filingPageParser`, `for i := 0; i < cnt-1; i++`, with
the number `count` of iterations still to run: each reads one line and adds
the file name it holds to `filingLinks`.  The call `r.ReadString('\n')` is the
argument `read`. -/
def filingLinksLoop {ρ : Type} (read : ρ → (List Char × Bool) × ρ) :
    Nat → ρ → List (List Char) → Run (List (List Char) × ρ)
  | 0, r, filingLinks => Run.ret (filingLinks, r)
  | count + 1, r, filingLinks =>
    let s := (read r).1.1
    let e := (read r).1.2
    let r := (read r).2
    if e then Run.panic "EOF"
    else
      let s1 := Split s " = ".toList
      match s1[1]? with
      | none => Run.panic "runtime error: index out of range [1] with length 1"
      | some s11 =>
        let s2 := Split s11 ";".toList
        let s3 := Trim (s2.headD []) "\"".toList
        let s4 := Split s3 ".".toList
        let s5 := s3
        match s4[1]? with
        | none => Run.panic "runtime error: index out of range [1] with length 1"
        | some s41 =>
          let s5 := if s41 = "xml".toList then s4.headD [] ++ ".htm".toList else s5
          if !Contains s5 "htm".toList then Run.panic "Dont know this type of report"
          else filingLinksLoop read count r (filingLinks ++ [s5])

/-- The outer loop of `filingPageParser`, with the line `s` and the error `e`
of the last `ReadString`: it looks for the first line that contains
`var reports` and collects the links there. -/
def filingPageLoop {ρ : Type} (read : ρ → (List Char × Bool) × ρ) :
    Nat → List Char → Bool → ρ → Run (List (List Char) × ρ)
  | 0, _, _, _ => Run.fuelOut
  | n + 1, s, e, r =>
    if e then Run.ret ([], r)
    else if Contains s "var reports".toList = true then
      let s1 := Split s "(".toList
      match s1[1]? with
      | none => Run.panic "runtime error: index out of range [1] with length 1"
      | some s11 =>
        let s2 := Split s11 ")".toList
        let cnt := Atoi (s2.headD [])
        filingLinksLoop read (wrapInt64 (cnt - 1)).toNat r []
    else filingPageLoop read n (read r).1.1 (read r).1.2 (read r).2

/-- The function `filingPageParser` on a page with the given bytes.  The lines
are read through a `bufio.Reader`, which reads ahead of the lines it returns.
The function `mapReports` is not part of the files at hand and is a parameter;
it is passed the reader `page` itself, that is the bytes that the reads of the
`bufio.Reader` have left to the page, and the links collected. -/
def filingPageParser {α : Type} (chunk : Nat → List Char → Nat)
    (mapReports : List Char → List (List Char) → α)
    (fuel : Nat) (page : List Char) (fileType : String) : Run α :=
  let _ := fileType
  (filingPageLoop (fun r => BufReader.ReadString chunk r '\n') fuel
    ((NewReader page).ReadString chunk '\n').1.1 ((NewReader page).ReadString chunk '\n').1.2
    ((NewReader page).ReadString chunk '\n').2).bind fun r => Run.ret (mapReports r.2.page r.1)

/-! ## Synthetic row markup -/

/-- A start tag. -/
def startTag (name : String) (attr : List Attribute) : Token :=
  ⟨TokenType.StartTagToken, name, attr⟩

/-- An end tag. -/
def endTag (name : String) : Token :=
  ⟨TokenType.EndTagToken, name, []⟩

/-- A text token. -/
def textToken (text : String) : Token :=
  ⟨TokenType.TextToken, text, []⟩

/-- The tokens of a cell `<td ...>text</td>`, given the attributes of the
start tag and the text. -/
def cellTokens (c : List Attribute × String) : List Token :=
  [startTag "td" c.1, textToken c.2, endTag "td"]

/-- The tokens of a row `<tr ...>`, cells, `</tr>`, given the attributes of the
row's start tag and the cells. -/
def rowTokens (r : List Attribute × List (List Attribute × String)) : List Token :=
  startTag "tr" r.1 :: (r.2.flatMap cellTokens ++ [endTag "tr"])

/-- The tokens of a table body of such rows. -/
def tableTokens (rows : List (List Attribute × List (List Attribute × String))) :
    List Token :=
  rows.flatMap rowTokens

/-- The text of a cell as `parseTableData` reads it: the rendering
`Token.String` of the text token, trimmed. -/
def cellText (c : List Attribute × String) : String :=
  TrimSpace (textToken c.2).String

/-- The trimmed texts of the cells of a row that are not blank, in column
order. -/
def rowTexts (r : List Attribute × List (List Attribute × String)) : List String :=
  (r.2.map cellText).filter (fun s => s.length > 0)

/-- The texts of the cells of a row as the claim about plain rows words them:
the text of each cell trimmed, the blank ones left out. -/
def rowPlainTexts (r : List Attribute × List (List Attribute × String)) : List String :=
  (r.2.map (fun c => TrimSpace c.2)).filter (fun s => s.length > 0)

/-- The value of the attribute `key` of a tag: that of the last attribute
with this key, and `dflt` when the tag has none. -/
def attrVal (key : String) : List Attribute → String → String
  | [], dflt => dflt
  | a :: as, dflt => attrVal key as (if a.Key = key then a.Val else dflt)

/-- An end tag `</a>`. -/
abbrev isAnchorEnd (t : Token) : Prop :=
  t.Data = "a" ∧ t.Typ = TokenType.EndTagToken

/-- Every anchor start tag of the list is followed, later in the list, by an
`a` end tag. -/
def anchorsClosed : List Token → Prop
  | [] => True
  | t :: ts =>
    ((t.Data = "a" ∧ t.Typ = TokenType.StartTagToken) → ∃ e ∈ ts, isAnchorEnd e) ∧
      anchorsClosed ts

/-- The first text of a cell, in the words of the claim about numeric cells:
of the tokens that follow the `td` start tag, up to the `td` end tag or the
end of the input, the first text token that is not blank, trimmed; the empty
string when there is none. -/
def cellFirstText : List Token → String
  | [] => ""
  | t :: ts =>
    if t.Data = "td" ∧ t.Typ = TokenType.EndTagToken then ""
    else if t.Typ = TokenType.ErrorToken then ""
    else if t.Typ = TokenType.TextToken ∧ (TrimSpace t.String).length > 0 then
      TrimSpace t.String
    else cellFirstText ts

/-- A tag has a `class` attribute that marks a numeric cell. -/
abbrev isNumericCell (attr : List Attribute) : Prop :=
  ∃ a ∈ attr, a.Key = "class" ∧ (a.Val = "num" ∨ a.Val = "nump")

/-- The tokens of a closed cell `<td ...>`, inner tokens, `</td>`, given the
attributes of the start tag and the inner tokens. -/
def closedCell (c : List Attribute × List Token) : List Token :=
  startTag "td" c.1 :: (c.2 ++ [endTag "td"])

/-- A token inside a closed cell: not a `td` start or end tag, not a `tr` end
tag and not the error token. -/
abbrev innerToken (t : Token) : Prop :=
  ¬ (t.Data = "td" ∧ t.Typ = TokenType.EndTagToken) ∧
  ¬ (t.Data = "td" ∧ t.Typ = TokenType.StartTagToken) ∧
  ¬ (t.Data = "tr" ∧ t.Typ = TokenType.EndTagToken) ∧ t.Typ ≠ TokenType.ErrorToken

/-- A piece of the inside of a heading row: a token outside the `th` cells, or
a cell `<th ...>`, inner tokens, `</th>`. -/
inductive HeadingItem where
  | other : Token → HeadingItem
  | cell : List Attribute → List Token → HeadingItem

/-- The tokens of a piece of a heading row. -/
def HeadingItem.tokens : HeadingItem → List Token
  | HeadingItem.other t => [t]
  | HeadingItem.cell attr inner => startTag "th" attr :: (inner ++ [endTag "th"])

/-- The text tokens of a list that are not blank, trimmed, in order. -/
def textsOf (inner : List Token) : List String :=
  inner.filterMap fun t =>
    if t.Typ = TokenType.TextToken ∧ (TrimSpace t.String).length > 0 then
      some (TrimSpace t.String)
    else none

/-- The heading texts of a piece of a heading row: the text tokens inside a
`th` cell that are not blank, trimmed; nothing for a token outside the cells. -/
def HeadingItem.texts : HeadingItem → List String
  | HeadingItem.other _ => []
  | HeadingItem.cell _ inner => textsOf inner

/-- A piece of a heading row is well formed: a token outside the cells is not
a `th` start tag, a `tr` end tag or the error token, and the inner tokens of a
cell hold no `th` end tag and no error token. -/
def HeadingItem.wellFormed : HeadingItem → Prop
  | HeadingItem.other t =>
    ¬ (t.Data = "th" ∧ t.Typ = TokenType.StartTagToken) ∧
    ¬ (t.Data = "tr" ∧ t.Typ = TokenType.EndTagToken) ∧ t.Typ ≠ TokenType.ErrorToken
  | HeadingItem.cell _ inner =>
    ∀ t ∈ inner, ¬ (t.Data = "th" ∧ t.Typ = TokenType.EndTagToken) ∧
      t.Typ ≠ TokenType.ErrorToken

/-- A token in front of a row: not a `tr` start tag and not the error token. -/
abbrev beforeRow (t : Token) : Prop :=
  ¬ (t.Typ = TokenType.StartTagToken ∧ t.Data = "tr") ∧ t.Typ ≠ TokenType.ErrorToken

/-- A start tag `<td ...>`. -/
abbrev isCellStart (t : Token) : Prop :=
  t.Data = "td" ∧ t.Typ = TokenType.StartTagToken

/-- A start tag `<tr ...>`. -/
abbrev isRowStart (t : Token) : Prop :=
  t.Typ = TokenType.StartTagToken ∧ t.Data = "tr"

/-- The number of `td` start tags of a list of tokens. -/
def countCells (l : List Token) : Nat :=
  l.countP fun t => decide (isCellStart t)

/-! ## Synthetic manifests -/

/-- The number that a string of decimal digits spells. -/
def decimalValue (ds : List Char) : Nat :=
  ds.foldl (fun n ch => n * 10 + (ch.toNat - '0'.toNat)) 0

/-- A line `... var reports = new Array(n); ...` of a page, with the text
before the statement, the digits of n and the text after the statement. -/
def headerLine (before ds after : List Char) : List Char :=
  before ++ "var reports = new Array".toList ++ '(' :: (ds ++ ')' :: ';' :: (after ++ ['\n']))

/-- A line `lhs = "NAME.EXT";` of a page, given `lhs` (such as `reports[1]`),
the name and the extension. -/
def entryLine (e : List Char × List Char × List Char) : List Char :=
  e.1 ++ " = ".toList ++ '"' :: (e.2.1 ++ '.' :: (e.2.2 ++ ['"', ';', '\n']))

/-- The link that the claim about the manifest gives for an entry: the name
with the extension `htm`. -/
def entryLink (e : List Char × List Char × List Char) : List Char :=
  e.2.1 ++ ".htm".toList

/-- An entry line that the scan of `filingPageParser` cuts at the intended
places: no `=` or line end before the ` = `, a name without the characters
`.`, `;`, `"`, `=` and line end, and the extension `xml` or `htm`. -/
abbrev plainEntry (e : List Char × List Char × List Char) : Prop :=
  ('=' ∉ e.1 ∧ '\n' ∉ e.1) ∧
  (∀ c ∈ e.2.1, c ≠ '.' ∧ c ≠ ';' ∧ c ≠ '"' ∧ c ≠ '=' ∧ c ≠ '\n') ∧
  (e.2.2 = "xml".toList ∨ e.2.2 = "htm".toList)

/-! ## Formatted input and output

The functions `fmt.Sscanf` and `fmt.Sprintf` are library functions; they are
modelled for the formats of the package, which hold literal characters other
than white space and the verbs `%d`, `%010d` and `%s`. -/

/-- An item of a format of `fmt.Sscanf`: a literal character, the verb `%d` or
the verb `%s`. -/
inductive ScanItem where
  | lit : Char → ScanItem
  | verbD : ScanItem
  | verbS : ScanItem
  deriving DecidableEq, Repr

/-- A value that `fmt.Sscanf` stores to an operand. -/
inductive ScanVal where
  | int : Int → ScanVal
  | str : List Char → ScanVal
  deriving DecidableEq, Repr

/-- The items of a format. -/
def scanItems : List Char → List ScanItem
  | [] => []
  | '%' :: 'd' :: rest => ScanItem.verbD :: scanItems rest
  | '%' :: 's' :: rest => ScanItem.verbS :: scanItems rest
  | c :: cs => ScanItem.lit c :: scanItems cs

/-- The method `SkipSpace` of the scanner of `fmt.Sscanf`: the input after its
leading white space; a line end is an error. -/
def skipSpace : List Char → Option (List Char)
  | [] => some []
  | c :: cs =>
    if c = '\n' then none
    else if isSpace c then skipSpace cs
    else some (c :: cs)

/-- The verb `%d` on an input: white space is passed over, then a sign is
accepted, then the decimal digits that follow, of which there must be one; the
number must fit 64 bits.  The value and the input that is left, or `none` for
an error. -/
def scanInt (input : List Char) : Option (Int × List Char) :=
  match skipSpace input with
  | none => none
  | some [] => none
  | some (c :: cs) =>
    let body := if c = '+' ∨ c = '-' then cs else c :: cs
    let tok := body.takeWhile fun d => d.isDigit
    if tok = [] then none
    else
      let v : Int := if c = '-' then -(decimalValue tok : Int) else (decimalValue tok : Int)
      if v < -(2 ^ 63) ∨ v ≥ 2 ^ 63 then none
      else some (v, body.drop tok.length)

/-- The function `fmt.Sscanf` on the items of a format and an input: the
values stored to the operands, in order, and whether the error is nil.  A
literal must be the next character of the input; when an item fails the scan
stops, and the operands not reached are not written. -/
def Sscanf : List ScanItem → List Char → List ScanVal → List ScanVal × Bool
  | [], _, vals => (vals, true)
  | ScanItem.lit c :: items, input, vals =>
    match input with
    | [] => (vals, false)
    | d :: ds => if d = c then Sscanf items ds vals else (vals, false)
  | ScanItem.verbD :: items, input, vals =>
    match scanInt input with
    | none => (vals, false)
    | some (v, rest) => Sscanf items rest (vals ++ [ScanVal.int v])
  | ScanItem.verbS :: items, input, vals =>
    match skipSpace input with
    | none => (vals, false)
    | some [] => (vals, false)
    | some (c :: cs) =>
      Sscanf items ((c :: cs).dropWhile fun d => !isSpace d)
        (vals ++ [ScanVal.str ((c :: cs).takeWhile fun d => !isSpace d)])

/-- The integer operand number `i` after a scan: the value stored to it, and
the zero value it was declared with when the scan did not reach it. -/
def intOperand (vals : List ScanVal) (i : Nat) : Int :=
  match vals.get? i with
  | some (ScanVal.int v) => v
  | _ => 0

/-- The verb `%d` of `fmt.Sprintf`. -/
def formatInt (v : Int) : List Char :=
  if v < 0 then '-' :: Nat.toDigits 10 v.natAbs else Nat.toDigits 10 v.natAbs

/-- The verb `%0wd` of `fmt.Sprintf`: the digits padded with zeros on the left
to the width `w`, which counts the sign. -/
def formatIntPadded (w : Nat) (v : Int) : List Char :=
  if v < 0 then
    '-' :: (List.replicate (w - 1 - (Nat.toDigits 10 v.natAbs).length) '0' ++
      Nat.toDigits 10 v.natAbs)
  else List.replicate (w - (Nat.toDigits 10 v.natAbs).length) '0' ++ Nat.toDigits 10 v.natAbs

/-- The function `parseCikAndDocID`. -/
def parseCikAndDocID (url : String) : String × String :=
  let vals := (Sscanf
    (scanItems "/cgi-bin/viewer?action=view&cik=%d&accession_number=%d-%d-%d%s".data)
    url.data []).1
  let d1 := intOperand vals 0
  let d2 := intOperand vals 1
  let d3 := intOperand vals 2
  let d4 := intOperand vals 3
  let cik := String.mk (formatInt d1)
  let an := String.mk (formatIntPadded 10 d2 ++ formatInt d3 ++ formatInt d4)
  (cik, an)

/-- The accession number in the words of the claim about `parseCikAndDocID`:
the digits of the three groups one after the other. -/
def accessionDigits (a b d : String) : String :=
  a ++ b ++ d

/-! ## Pages -/

/-- The HTTP library as `getPage` uses it, a parameter: `NewRequest` on a
method and a URL gives its error, `none` for nil, and `Do` on a URL and a
user agent gives the tokens of the body of the response, or its error. -/
structure HTTPClient where
  NewRequest : String → String → Option String
  Do : String → String → Except String (List Token)

/-- The function `getPage`: the body of the response, `none` for a nil body.
A failure ends in `log.Fatalf`, which exits the process.  The result of
`runtime.Version` is a parameter. -/
def getPage (H : HTTPClient) (version : String) (url : String) : Run (Option (List Token)) :=
  match H.NewRequest "GET" url with
  | some err => Run.fatal ("Query to SEC page " ++ url ++ " failed: " ++ err)
  | none =>
    match H.Do url ("edgar/" ++ version) with
    | Except.error err => Run.fatal ("Query to SEC page " ++ url ++ " failed: " ++ err)
    | Except.ok body => Run.ret (some body)

/-- The constant `baseURL`. -/
def baseURL : String := "https://www.sec.gov/"

/-- The unit of work that `parseMappedReports` launches for one entry of the
document map: the record as the unit leaves it. -/
def reportUnit {V E F FT DT : Type} [DecidableEq FT] (H : HTTPClient) (version : String)
    (getFinDataXBRLTag : String → Option String) (R : ReportFuncs V E F FT DT) (fuel : Nat)
    (url : String) (fr : financialReport V E F) (t : DT) : Run (financialReport V E F) :=
  (getPage H version (baseURL ++ url)).bind fun page =>
    match page with
    | none => Run.ret fr
    | some body =>
      (finReportParser getFinDataXBRLTag R fuel body fr t).bind fun out => Run.ret out.1

/-! ## The report directory -/

/-- The number that the body of the loop of `parseAllReports` adds for a row,
if any. -/
def reportNumber (data : List String) : Option Int :=
  if data.length > 0 ∧ Contains (data.getD 0 "").data "R".data = true then
    if (Sscanf (scanItems "R%d.htm".data) (data.getD 0 "").data []).2 = true then
      some (intOperand (Sscanf (scanItems "R%d.htm".data) (data.getD 0 "").data []).1 0)
    else none
  else none

/-- The loop of `parseAllReports`, with the result of the last call of
`parseTableRow` and the slice `reports` so far. -/
def allReportsLoop (getFinDataXBRLTag : String → Option String) :
    Nat → Tokenizer → Except String (List String) → List Int → Run (List Int)
  | 0, _, _, _ => Run.fuelOut
  | _ + 1, _, Except.error _, reports => Run.ret reports
  | n + 1, z, Except.ok data, reports =>
    (parseTableRow getFinDataXBRLTag n z false).bind fun r =>
      allReportsLoop getFinDataXBRLTag n r.2 r.1
        (match reportNumber data with
          | some num => reports ++ [num]
          | none => reports)

/-- The function `parseAllReports`, with `getPage` on the HTTP library given.
The call of `sort.Slice` with the order of the integers is an insertion sort
here: a sorted slice of integers is the same for every sorting method.  A nil
page makes the tokenizer read from a nil reader, which panics. -/
def parseAllReports (H : HTTPClient) (version : String)
    (getFinDataXBRLTag : String → Option String) (fuel : Nat) (cik an : String) :
    Run (List Int) :=
  (getPage H version ("https://www.sec.gov/Archives/edgar/data/" ++ cik ++ "/" ++ an ++ "/")).bind
    fun page =>
      match page with
      | none => Run.panic "invalid memory address or nil pointer dereference"
      | some body =>
        (parseTableRow getFinDataXBRLTag fuel (NewTokenizer body) false).bind fun r =>
          (allReportsLoop getFinDataXBRLTag fuel r.2 r.1 []).bind fun reports =>
            Run.ret (reports.insertionSort (fun a b => a ≤ b))

/-- The number that the pattern `R%d.htm` reads from the first cell of a row,
in the words of the claim about `parseAllReports`: the value of `%d` when the
scan of the cell with the pattern has a nil error. -/
def patternNumber (data : List String) : Option Int :=
  match data with
  | [] => none
  | cell :: _ =>
    if (Sscanf (scanItems "R%d.htm".data) cell.data []).2 = true then
      some (intOperand (Sscanf (scanItems "R%d.htm".data) cell.data []).1 0)
    else none

/-! ## Example inputs -/

/-- Stand-ins for the functions of the statement parser in the examples: the
concept of a row is its first cell when that starts with `us-gaap_`, `setData`
accepts a value made of digits and records it under the concept, and the scale
mapping has one entry per heading text. -/
def sampleFuncs : ReportFuncs (List (String × String)) String Nat String Nat where
  getFinDataTypeFromXBRLTag := fun tag =>
    if tag.data.take 8 = "us-gaap_".data then String.mk (tag.data.drop 8) else ""
  finDataUnknown := ""
  setData := fun fr finType str _ _ =>
    if str.data.all Char.isDigit then ({ fr with Values := fr.Values ++ [(finType, str)] }, none)
    else (fr, some "not a number")
  filingScale := fun data t => data.map fun s => (s, t)

/-- An empty record with a scale mapping left by an earlier document. -/
def sampleReport : financialReport (List (String × String)) String Nat :=
  ⟨[], [("Shares", 7)]⟩

/-- A statement page: a heading row, a row of an unknown concept and a row of
a known concept with a note, two values and a cell of another value. -/
def sampleStatement : List Token :=
  [startTag "table" [],
   startTag "tr" [],
   startTag "th" [], textToken "In Millions", endTag "th",
   endTag "tr",
   startTag "tr" [],
   startTag "td" [], textToken "Statement", endTag "td",
   startTag "td" [], textToken "5", endTag "td",
   endTag "tr",
   startTag "tr" [],
   startTag "td" [],
   startTag "a" [⟨"onclick", "us-gaap_Revenues"⟩], textToken "Revenues", endTag "a",
   endTag "td",
   startTag "td" [⟨"class", "text"⟩], textToken "[1]", endTag "td",
   startTag "td" [⟨"class", "nump"⟩], textToken "100", endTag "td",
   startTag "td" [⟨"class", "nump"⟩], textToken "90", endTag "td",
   endTag "tr",
   endTag "table"]

/-- A directory listing: a heading row, the rows of the files `R4.htm`,
`FilingSummary.xml`, `R2.htm`, `R2.xml` and `R10.htm`, each with a size. -/
def sampleListing : List Token :=
  [startTag "table" [],
   startTag "tr" [], startTag "th" [], textToken "Name", endTag "th", endTag "tr",
   startTag "tr" [],
   startTag "td" [], startTag "a" [⟨"href", "R4.htm"⟩], textToken "R4.htm", endTag "a",
   endTag "td", startTag "td" [], textToken "100", endTag "td", endTag "tr",
   startTag "tr" [],
   startTag "td" [], textToken "FilingSummary.xml", endTag "td",
   startTag "td" [], textToken "200", endTag "td", endTag "tr",
   startTag "tr" [],
   startTag "td" [], textToken "R2.htm", endTag "td",
   startTag "td" [], textToken "300", endTag "td", endTag "tr",
   startTag "tr" [],
   startTag "td" [], textToken "R2.xml", endTag "td",
   startTag "td" [], textToken "400", endTag "td", endTag "tr",
   startTag "tr" [],
   startTag "td" [], textToken "R10.htm", endTag "td",
   startTag "td" [], textToken "500", endTag "td", endTag "tr",
   endTag "table"]

/-- An HTTP library that answers every request with the page `sampleListing`. -/
def sampleHTTP : HTTPClient :=
  ⟨fun _ _ => none, fun _ _ => Except.ok sampleListing⟩

/-! ## Theorems -/

/-! ### Outcomes -/

@[simp] theorem bind_ret {α β : Type} (a : α) (f : α → Run β) :
    (Run.ret a).bind f = f a := rfl

@[simp] theorem bind_fuelOut {α β : Type} (f : α → Run β) :
    (Run.fuelOut : Run α).bind f = Run.fuelOut := rfl

@[simp] theorem bind_fatal {α β : Type} (m : String) (f : α → Run β) :
    (Run.fatal m : Run α).bind f = Run.fatal m := rfl

@[simp] theorem bind_panic {α β : Type} (m : String) (f : α → Run β) :
    (Run.panic m : Run α).bind f = Run.panic m := rfl

/-! ### The tokenizer -/

@[simp] theorem advance_cons (t : Token) (ts : List Token) (c : Token) (k : Bool) :
    (Tokenizer.mk (t :: ts) c k).advance = (t, ⟨ts, t, true⟩) := rfl

@[simp] theorem advance_nil (c : Token) (k : Bool) :
    (Tokenizer.mk [] c k).advance = (errorToken, ⟨[], errorToken, true⟩) := rfl

@[simp] theorem next_cons (t : Token) (ts : List Token) (c : Token) (k : Bool) :
    (Tokenizer.mk (t :: ts) c k).Next = (t.Typ, ⟨ts, t, false⟩) := rfl

@[simp] theorem next_nil (c : Token) (k : Bool) :
    (Tokenizer.mk [] c k).Next = (TokenType.ErrorToken, ⟨[], errorToken, false⟩) := rfl

@[simp] theorem token_taken (r : List Token) (c : Token) :
    (Tokenizer.mk r c true).Token = (⟨c.Typ, "", []⟩, ⟨r, c, true⟩) := rfl

@[simp] theorem token_fresh (r : List Token) (c : Token) :
    (Tokenizer.mk r c false).Token = (c, ⟨r, c, true⟩) := rfl

/-! ### One iteration of each loop -/

theorem hyperLinkLoop_succ (n : Nat) (z : Tokenizer) (token : Token) :
    hyperLinkLoop (n + 1) z token =
      if token.Data = "a" ∧ token.Typ = TokenType.EndTagToken then Run.ret z
      else hyperLinkLoop n z.advance.2 z.advance.1 := rfl

theorem parseTableDataLoop_succ (x : String → Option String) (b : Bool) (n : Nat)
    (z : Tokenizer) (token : Token) :
    parseTableDataLoop x b (n + 1) z token =
      if token.Data = "td" ∧ token.Typ = TokenType.EndTagToken then Run.ret ("", z)
      else if token.Typ = TokenType.ErrorToken then Run.ret ("", z)
      else if b = true ∧ token.Data = "a" ∧ token.Typ = TokenType.StartTagToken then
        (parseHyperLinkTag x n z token).bind fun r =>
          if r.1.length > 0 then Run.ret (r.1, r.2)
          else parseTableDataLoop x b n r.2.advance.2 r.2.advance.1
      else if token.Typ = TokenType.TextToken ∧ (TrimSpace token.String).length > 0 then
        Run.ret (TrimSpace token.String, z)
      else parseTableDataLoop x b n z.advance.2 z.advance.1 := rfl

theorem seekRowLoop_succ (n : Nat) (z : Tokenizer) (token : Token) :
    seekRowLoop (n + 1) z token =
      if token.Typ = TokenType.StartTagToken ∧ token.Data = "tr" then Run.ret (some token, z)
      else if z.Next.1 = TokenType.ErrorToken then Run.ret (none, z.Next.2)
      else seekRowLoop n z.advance.2 z.advance.1 := rfl

theorem parseTableRowLoop_succ (x : String → Option String) (b : Bool) (n : Nat)
    (z : Tokenizer) (token : Token) (retData : List String) :
    parseTableRowLoop x b (n + 1) z token retData =
      if token.Data = "tr" ∧ token.Typ = TokenType.EndTagToken then
        Run.ret (Except.ok retData, z)
      else if token.Typ = TokenType.ErrorToken then Run.ret (Except.error doneParsing, z)
      else if token.Data = "td" ∧ token.Typ = TokenType.StartTagToken then
        (parseTableData x n z (cellParseFlag token.Attr b)).bind fun r =>
          parseTableRowLoop x b n r.2.advance.2 r.2.advance.1
            (if r.1.length > 0 then retData ++ [r.1] else retData)
      else parseTableRowLoop x b n z.advance.2 z.advance.1 retData := rfl

/-! ### More fuel does not change a result -/

theorem bind_mono {α β : Type} (r r2 : Run α) (g g2 : α → Run β)
    (hr : r ≠ Run.fuelOut → r2 = r) (hg : ∀ a, g a ≠ Run.fuelOut → g2 a = g a)
    (h : r.bind g ≠ Run.fuelOut) : r2.bind g2 = r.bind g := by
  cases r with
  | fuelOut => exact absurd rfl h
  | fatal m => rw [hr (by simp)]; rfl
  | panic m => rw [hr (by simp)]; rfl
  | ret a => rw [hr (by simp)]; exact hg a h

theorem mono_le {α : Type} (f : Nat → Run α)
    (hf : ∀ n, f n ≠ Run.fuelOut → f (n + 1) = f n) (n m : Nat) (hnm : n ≤ m)
    (h : f n ≠ Run.fuelOut) : f m = f n := by
  induction m with
  | zero =>
    have : n = 0 := by omega
    rw [this]
  | succ m ih =>
    by_cases e : n = m + 1
    · rw [e]
    · have h1 := ih (by omega)
      rw [hf m (by rw [h1]; exact h), h1]

theorem hyperLinkLoop_mono (n : Nat) : ∀ (z : Tokenizer) (token : Token),
    hyperLinkLoop n z token ≠ Run.fuelOut →
    hyperLinkLoop (n + 1) z token = hyperLinkLoop n z token := by
  induction n with
  | zero => intro z token h; exact absurd rfl h
  | succ n ih =>
    intro z token h
    rw [hyperLinkLoop_succ] at h
    rw [hyperLinkLoop_succ (n + 1) z token, hyperLinkLoop_succ n z token]
    split
    · rfl
    · rename_i hc
      rw [if_neg hc] at h
      exact ih _ _ h

theorem parseHyperLinkTag_mono (x : String → Option String) (n : Nat) (z : Tokenizer)
    (token : Token) (h : parseHyperLinkTag x n z token ≠ Run.fuelOut) :
    parseHyperLinkTag x (n + 1) z token = parseHyperLinkTag x n z token := by
  unfold parseHyperLinkTag at h ⊢
  split
  · rfl
  · rename_i id href he
    simp only [he] at h
    exact bind_mono _ _ _ _ (hyperLinkLoop_mono n z token) (fun _ _ => rfl) h

theorem parseTableDataLoop_mono (x : String → Option String) (b : Bool) (n : Nat) :
    ∀ (z : Tokenizer) (token : Token),
    parseTableDataLoop x b n z token ≠ Run.fuelOut →
    parseTableDataLoop x b (n + 1) z token = parseTableDataLoop x b n z token := by
  induction n with
  | zero => intro z token h; exact absurd rfl h
  | succ n ih =>
    intro z token h
    rw [parseTableDataLoop_succ] at h
    rw [parseTableDataLoop_succ x b (n + 1) z token, parseTableDataLoop_succ x b n z token]
    split
    · rfl
    · rename_i h1
      rw [if_neg h1] at h
      split
      · rfl
      · rename_i h2
        rw [if_neg h2] at h
        split
        · rename_i h3
          rw [if_pos h3] at h
          refine bind_mono _ _ _ _ (parseHyperLinkTag_mono x n z token) ?_ h
          intro a ha
          split
          · rfl
          · rename_i h4
            rw [if_neg h4] at ha
            exact ih _ _ ha
        · rename_i h3
          rw [if_neg h3] at h
          split
          · rfl
          · rename_i h4
            rw [if_neg h4] at h
            exact ih _ _ h

theorem parseTableData_mono (x : String → Option String) (b : Bool) (n : Nat)
    (z : Tokenizer) (h : parseTableData x n z b ≠ Run.fuelOut) :
    parseTableData x (n + 1) z b = parseTableData x n z b := by
  unfold parseTableData at h ⊢
  split
  · rfl
  · rename_i h1
    rw [if_neg h1] at h
    exact parseTableDataLoop_mono x b n _ _ h

theorem seekRowLoop_mono (n : Nat) : ∀ (z : Tokenizer) (token : Token),
    seekRowLoop n z token ≠ Run.fuelOut →
    seekRowLoop (n + 1) z token = seekRowLoop n z token := by
  induction n with
  | zero => intro z token h; exact absurd rfl h
  | succ n ih =>
    intro z token h
    rw [seekRowLoop_succ] at h
    rw [seekRowLoop_succ (n + 1) z token, seekRowLoop_succ n z token]
    split
    · rfl
    · rename_i h1
      rw [if_neg h1] at h
      split
      · rfl
      · rename_i h2
        rw [if_neg h2] at h
        exact ih _ _ h

theorem parseTableRowLoop_mono (x : String → Option String) (b : Bool) (n : Nat) :
    ∀ (z : Tokenizer) (token : Token) (retData : List String),
    parseTableRowLoop x b n z token retData ≠ Run.fuelOut →
    parseTableRowLoop x b (n + 1) z token retData = parseTableRowLoop x b n z token retData := by
  induction n with
  | zero => intro z token retData h; exact absurd rfl h
  | succ n ih =>
    intro z token retData h
    rw [parseTableRowLoop_succ] at h
    rw [parseTableRowLoop_succ x b (n + 1) z token retData,
      parseTableRowLoop_succ x b n z token retData]
    split
    · rfl
    · rename_i h1
      rw [if_neg h1] at h
      split
      · rfl
      · rename_i h2
        rw [if_neg h2] at h
        split
        · rename_i h3
          rw [if_pos h3] at h
          exact bind_mono _ _ _ _ (parseTableData_mono x _ n z) (fun a ha => ih _ _ _ ha) h
        · rename_i h3
          rw [if_neg h3] at h
          exact ih _ _ _ h

theorem parseTableRow_mono (x : String → Option String) (b : Bool) (z : Tokenizer) (n : Nat)
    (h : parseTableRow x n z b ≠ Run.fuelOut) :
    parseTableRow x (n + 1) z b = parseTableRow x n z b := by
  unfold parseTableRow at h ⊢
  refine bind_mono _ _ _ _ (seekRowLoop_mono n _ _) ?_ h
  intro a ha
  cases hfound : a.1 with
  | none => rfl
  | some token =>
    simp only [hfound] at ha ⊢
    exact parseTableRowLoop_mono x b n _ _ _ ha

/-- A call of `parseTableRow` that returns with some fuel returns the same
with any larger fuel. -/
theorem parseTableRow_mono_le (x : String → Option String) (b : Bool) (z : Tokenizer)
    (n m : Nat) (hnm : n ≤ m) (h : parseTableRow x n z b ≠ Run.fuelOut) :
    parseTableRow x m z b = parseTableRow x n z b :=
  mono_le (fun k => parseTableRow x k z b) (fun k => parseTableRow_mono x b z k) n m hnm h

/-! ### Rows of plain cells -/

/-- On a cell `<td>text</td>` whose start tag has just been read,
`parseTableData` returns the trimmed text when it is not blank, and stops at
the text token; else it returns the empty string and stops at the end tag. -/
theorem parseTableData_cell (x : String → Option String) (b : Bool) (a : List Attribute)
    (text : String) (more : List Token) (n : Nat) :
    parseTableData x (n + 3) ⟨textToken text :: endTag "td" :: more, startTag "td" a, true⟩ b =
      if (TrimSpace (textToken text).String).length > 0 then
        Run.ret (TrimSpace (textToken text).String,
          ⟨endTag "td" :: more, textToken text, true⟩)
      else Run.ret ("", ⟨more, endTag "td", true⟩) := by
  simp [parseTableData, parseTableDataLoop, startTag, textToken, endTag]

/-- The row loop, about to read the first of the cells of a row of plain
cells, collects the texts of the cells that are not blank and stops at the
`tr` end tag. -/
theorem parseTableRowLoop_cells (x : String → Option String) (b : Bool)
    (cells : List (List Attribute × String)) :
    ∀ (more : List Token) (c : Token) (k : Bool) (fuel : Nat) (retData : List String),
      3 * cells.length + 1 ≤ fuel →
      parseTableRowLoop x b fuel
          (Tokenizer.mk (cells.flatMap cellTokens ++ endTag "tr" :: more) c k).advance.2
          (Tokenizer.mk (cells.flatMap cellTokens ++ endTag "tr" :: more) c k).advance.1
          retData =
        Run.ret (Except.ok (retData ++ (cells.map cellText).filter (fun s => s.length > 0)),
          ⟨more, endTag "tr", true⟩) := by
  induction cells with
  | nil =>
    intro more c k fuel retData h
    obtain ⟨n, rfl⟩ : ∃ n, fuel = n + 1 := ⟨fuel - 1, by simp at h; omega⟩
    simp [parseTableRowLoop, endTag]
  | cons cell cells ih =>
    intro more c k fuel retData h
    obtain ⟨n, rfl⟩ : ∃ n, fuel = n + 4 := ⟨fuel - 4, by simp at h; omega⟩
    have h1 : 3 * cells.length + 1 ≤ n + 3 := by simp at h; omega
    have h2 : 3 * cells.length + 1 ≤ n + 2 := by simp at h; omega
    have e := parseTableData_cell x (cellParseFlag cell.1 b) cell.1 cell.2
      (cells.flatMap cellTokens ++ endTag "tr" :: more) n
    simp only [List.flatMap_cons, cellTokens, List.cons_append, List.nil_append, advance_cons,
      List.length_cons, List.map_cons] at e ⊢
    rw [parseTableRowLoop_succ]
    simp only [startTag, true_and] at e ⊢
    simp only [e]
    by_cases hc : (TrimSpace (textToken cell.2).String).length > 0
    · simp only [hc, if_true, advance_cons, bind_ret]
      rw [parseTableRowLoop_succ]
      simp [endTag, cellText, hc]
      have := ih more (endTag "td") true (n + 2) (retData ++ [TrimSpace (textToken cell.2).String]) h2
      simpa [endTag, cellText] using this
    · simp only [hc, if_false, bind_ret]
      have := ih more (endTag "td") true (n + 3) retData h1
      simp [cellText, hc]
      simpa [endTag, cellText] using this

/-- The first loop finds a `tr` start tag that is the next token. -/
theorem seekRowLoop_next (attr : List Attribute) (more : List Token) (c : Token) (k : Bool)
    (token : Token) (n : Nat)
    (h : ¬ (token.Typ = TokenType.StartTagToken ∧ token.Data = "tr")) :
    seekRowLoop (n + 2) ⟨startTag "tr" attr :: more, c, k⟩ token =
      Run.ret (some (startTag "tr" attr), ⟨more, startTag "tr" attr, true⟩) := by
  rw [seekRowLoop_succ, if_neg h]
  simp [seekRowLoop_succ, startTag]

/-- The first loop at the end of the input. -/
theorem seekRowLoop_end (c : Token) (k : Bool) (token : Token) (n : Nat)
    (h : ¬ (token.Typ = TokenType.StartTagToken ∧ token.Data = "tr")) :
    seekRowLoop (n + 1) ⟨[], c, k⟩ token = Run.ret (none, ⟨[], errorToken, false⟩) := by
  rw [seekRowLoop_succ, if_neg h]
  simp

/-- One call of `parseTableRow` in front of a row of plain cells returns the
texts of the row and stops at its `tr` end tag. -/
theorem parseTableRow_row (x : String → Option String) (b : Bool)
    (r : List Attribute × List (List Attribute × String)) (more : List Token)
    (c : Token) (k : Bool) (fuel : Nat)
    (hz : ¬ ((Tokenizer.mk (rowTokens r ++ more) c k).Token.1.Typ = TokenType.StartTagToken ∧
      (Tokenizer.mk (rowTokens r ++ more) c k).Token.1.Data = "tr"))
    (h : 3 * r.2.length + 2 ≤ fuel) :
    parseTableRow x fuel ⟨rowTokens r ++ more, c, k⟩ b =
      Run.ret (Except.ok (rowTexts r), ⟨more, endTag "tr", true⟩) := by
  obtain ⟨n, rfl⟩ : ∃ n, fuel = n + 2 := ⟨fuel - 2, by omega⟩
  have hs : ∀ k2, seekRowLoop (n + 2)
      ⟨startTag "tr" r.1 :: (r.2.flatMap cellTokens ++ endTag "tr" :: more), c, k2⟩
      (Tokenizer.mk (rowTokens r ++ more) c k).Token.1 =
      Run.ret (some (startTag "tr" r.1),
        ⟨r.2.flatMap cellTokens ++ endTag "tr" :: more, startTag "tr" r.1, true⟩) :=
    fun k2 => seekRowLoop_next r.1 _ c k2 _ n hz
  have hl := parseTableRowLoop_cells x b r.2 more (startTag "tr" r.1) true (n + 1) []
    (by omega)
  cases k <;>
  · simp only [parseTableRow, rowTokens, List.cons_append, List.append_assoc,
      List.singleton_append, List.nil_append, token_taken, token_fresh] at hs ⊢
    rw [hs]
    simp only [bind_ret]
    rw [parseTableRowLoop_succ]
    simp only [startTag] at hl ⊢
    simp [hl, rowTexts]

/-- One call of `parseTableRow` at the end of the input returns the error. -/
theorem parseTableRow_end (x : String → Option String) (b : Bool)
    (c : Token) (k : Bool) (n : Nat)
    (hz : ¬ ((Tokenizer.mk [] c k).Token.1.Typ = TokenType.StartTagToken ∧
      (Tokenizer.mk [] c k).Token.1.Data = "tr")) :
    parseTableRow x (n + 1) ⟨[], c, k⟩ b =
      Run.ret (Except.error doneParsing, ⟨[], errorToken, false⟩) := by
  have hs : ∀ k2, seekRowLoop (n + 1) ⟨[], c, k2⟩ (Tokenizer.mk [] c k).Token.1 =
      Run.ret (none, ⟨[], errorToken, false⟩) :=
    fun k2 => seekRowLoop_end c k2 _ n hz
  cases k <;>
  · simp only [parseTableRow, token_taken, token_fresh] at hs ⊢
    simp only [hs, bind_ret]

theorem length_rowTokens (r : List Attribute × List (List Attribute × String)) :
    (rowTokens r).length = 3 * r.2.length + 2 := by
  have : ∀ cells : List (List Attribute × String),
      (cells.flatMap cellTokens).length = 3 * cells.length := by
    intro cells
    induction cells with
    | nil => rfl
    | cons a l ih => simp [List.flatMap_cons, cellTokens, ih]; omega
  simp [rowTokens, this]

/-- Successive calls over a table body of rows of plain cells. -/
theorem parseTableRows_table (x : String → Option String) (b : Bool)
    (rows : List (List Attribute × List (List Attribute × String))) :
    ∀ (c : Token) (k : Bool) (fuel : Nat),
      ¬ ((Tokenizer.mk [] c k).Token.1.Typ = TokenType.StartTagToken ∧
        (Tokenizer.mk [] c k).Token.1.Data = "tr") →
      (tableTokens rows).length + 2 ≤ fuel →
      parseTableRows x fuel b (rows.length + 1) ⟨tableTokens rows, c, k⟩ =
        Run.ret (rows.map (fun r => Except.ok (rowTexts r)) ++ [Except.error doneParsing],
          ⟨[], errorToken, false⟩) := by
  induction rows with
  | nil =>
    intro c k fuel hz h
    obtain ⟨n, rfl⟩ : ∃ n, fuel = n + 1 := ⟨fuel - 1, by omega⟩
    simp only [tableTokens, List.flatMap_nil, List.length_nil, zero_add, parseTableRows,
      List.map_nil, List.nil_append]
    rw [parseTableRow_end x b c k n hz]
    rfl
  | cons r rows ih =>
    intro c k fuel hz h
    have hlen : (tableTokens (r :: rows)).length =
        3 * r.2.length + 2 + (tableTokens rows).length := by
      simp [tableTokens, List.flatMap_cons, length_rowTokens]
    have e1 := parseTableRow_row x b r (tableTokens rows) c k fuel
      (by cases k <;> simp at hz ⊢; exact hz) (by omega)
    have e2 := ih (endTag "tr") true fuel (by simp) (by omega)
    have e3 : tableTokens (r :: rows) = rowTokens r ++ tableTokens rows := by
      simp [tableTokens, List.flatMap_cons]
    rw [e3, List.length_cons, parseTableRows, e1]
    simp only [bind_ret, e2, List.map_cons, List.cons_append]

/-! ### The link resolver -/

/-- Without an accepted `onclick`, the attribute loop ends with the `id` and
the `href` of the tag. -/
theorem hyperLinkAttrs_plain (x : String → Option String) (attr : List Attribute) :
    ∀ (id href : String), (∀ a ∈ attr, a.Key = "onclick" → x a.Val = none) →
      hyperLinkAttrs x attr id href = Sum.inr (attrVal "id" attr id, attrVal "href" attr href) := by
  induction attr with
  | nil => intro id href _; rfl
  | cons a as ih =>
    intro id href h
    have has : ∀ a ∈ as, a.Key = "onclick" → x a.Val = none :=
      fun a2 ha2 => h a2 (List.mem_cons_of_mem _ ha2)
    unfold hyperLinkAttrs
    by_cases h1 : a.Key = "id"
    · simp [h1, ih _ _ has, attrVal]
    · by_cases h2 : a.Key = "href"
      · simp [h2, ih _ _ has, attrVal]
      · by_cases h3 : a.Key = "onclick"
        · have h4 := h a (List.mem_cons_self _ _) h3
          simp [h3, h4, ih _ _ has, attrVal]
        · simp [h1, h2, h3, ih _ _ has, attrVal]

/-- The loop that finishes up the hyperlink stops at the first `a` end tag. -/
theorem hyperLinkLoop_closed (inner : List Token) :
    ∀ (e : Token) (more : List Token) (c : Token) (k : Bool) (token : Token) (fuel : Nat),
      (∀ t ∈ inner, ¬ isAnchorEnd t) → isAnchorEnd e → ¬ isAnchorEnd token →
      inner.length + 2 ≤ fuel →
      hyperLinkLoop fuel ⟨inner ++ e :: more, c, k⟩ token = Run.ret ⟨more, e, true⟩ := by
  induction inner with
  | nil =>
    intro e more c k token fuel _ he ht hf
    obtain ⟨n, rfl⟩ : ∃ n, fuel = n + 2 := ⟨fuel - 2, by simp at hf; omega⟩
    rw [hyperLinkLoop_succ, if_neg ht]
    simp only [List.nil_append, advance_cons]
    rw [hyperLinkLoop_succ, if_pos he]
  | cons t ts ih =>
    intro e more c k token fuel hin he ht hf
    obtain ⟨n, rfl⟩ : ∃ n, fuel = n + 1 := ⟨fuel - 1, by simp at hf; omega⟩
    rw [hyperLinkLoop_succ, if_neg ht]
    simp only [List.cons_append, advance_cons]
    exact ih e more t true t n (fun t2 h2 => hin t2 (List.mem_cons_of_mem _ h2)) he
      (hin t (List.mem_cons_self _ _)) (by simp at hf; omega)

/-- The loop that finishes up the hyperlink never ends when no `a` end tag
follows: no amount of fuel suffices. -/
theorem hyperLinkLoop_open (fuel : Nat) :
    ∀ (rest : List Token) (c : Token) (k : Bool) (token : Token),
      (∀ t ∈ rest, ¬ isAnchorEnd t) → ¬ isAnchorEnd token →
      hyperLinkLoop fuel ⟨rest, c, k⟩ token = Run.fuelOut := by
  induction fuel with
  | zero => intros; rfl
  | succ n ih =>
    intro rest c k token hin ht
    rw [hyperLinkLoop_succ, if_neg ht]
    cases rest with
    | nil =>
      simp only [advance_nil]
      exact ih [] errorToken true errorToken (by simp) (by simp [isAnchorEnd, errorToken])
    | cons t ts =>
      simp only [advance_cons]
      exact ih ts t true t (fun t2 h2 => hin t2 (List.mem_cons_of_mem _ h2))
        (hin t (List.mem_cons_self _ _))

/-- An anchor without an accepted `onclick` that no `a` end tag follows: the
call of `parseHyperLinkTag` does not return. -/
theorem parseHyperLinkTag_open (x : String → Option String) (fuel : Nat)
    (rest : List Token) (c : Token) (k : Bool) (token : Token)
    (hon : ∀ a ∈ token.Attr, a.Key = "onclick" → x a.Val = none)
    (hin : ∀ t ∈ rest, ¬ isAnchorEnd t) (ht : ¬ isAnchorEnd token) :
    parseHyperLinkTag x fuel ⟨rest, c, k⟩ token = Run.fuelOut := by
  unfold parseHyperLinkTag
  rw [hyperLinkAttrs_plain x _ _ _ hon]
  simp only [hyperLinkLoop_open fuel rest c k token hin ht, bind_fuelOut]

/-- A closed anchor without an accepted `onclick`: `parseHyperLinkTag` stops
at the `a` end tag and returns the `href` when the `id` is in the whitelist,
and the empty string otherwise. -/
theorem parseHyperLinkTag_closed (x : String → Option String) (attr : List Attribute)
    (inner : List Token) (e : Token) (more : List Token) (c : Token) (k : Bool) (fuel : Nat)
    (hon : ∀ a ∈ attr, a.Key = "onclick" → x a.Val = none)
    (hin : ∀ t ∈ inner, ¬ isAnchorEnd t) (he : isAnchorEnd e)
    (hf : inner.length + 2 ≤ fuel) :
    parseHyperLinkTag x fuel ⟨inner ++ e :: more, c, k⟩ (startTag "a" attr) =
      Run.ret (if (reqHyperLinks.lookup (attrVal "id" attr "")).isSome
        then attrVal "href" attr "" else "", ⟨more, e, true⟩) := by
  unfold parseHyperLinkTag
  have hs : (startTag "a" attr).Attr = attr := rfl
  rw [hs, hyperLinkAttrs_plain x _ _ _ hon]
  simp only []
  rw [hyperLinkLoop_closed inner e more c k _ fuel hin he (by simp [isAnchorEnd, startTag]) hf]
  simp only [bind_ret]
  split <;> rfl

/-! ### C1 -/

/-- C1, as amended: on a table body of k rows, each `<tr>`, cells `<td>text</td>`
and `</tr>`, k + 1 successive calls of `parseTableRow` on one tokenizer return,
for either link policy, on call i the texts of row i as `Token.String` renders
them (special characters escaped), trimmed, the blank ones left out, in column
order and with a nil error, and on call k + 1 the error `Done with parsing`. -/
theorem parseTableRow_drains_rows (getFinDataXBRLTag : String → Option String)
    (parseHref : Bool) (rows : List (List Attribute × List (List Attribute × String)))
    (fuel : Nat) (h : (tableTokens rows).length + 2 ≤ fuel) :
    parseTableRows getFinDataXBRLTag fuel parseHref (rows.length + 1)
        (NewTokenizer (tableTokens rows)) =
      Run.ret (rows.map (fun r => Except.ok (rowTexts r)) ++ [Except.error doneParsing],
        ⟨[], errorToken, false⟩) :=
  parseTableRows_table getFinDataXBRLTag parseHref rows errorToken false fuel
    (by simp [errorToken]) h

/-- C1, witness: two rows, the first with a blank cell and a cell with an
apostrophe, the second with no cell. -/
theorem parseTableRow_drains_rows_witness :
    (tableTokens [([], [([], " a "), ([], "  "), ([⟨"class", "num"⟩], "O'Neil")]),
        ([], [])]).length + 2 ≤ 20 ∧
    parseTableRows (fun _ => none) 20 true 3
        (NewTokenizer (tableTokens
          [([], [([], " a "), ([], "  "), ([⟨"class", "num"⟩], "O'Neil")]), ([], [])])) =
      Run.ret ([Except.ok ["a", "O&#39;Neil"], Except.ok [], Except.error doneParsing],
        ⟨[], errorToken, false⟩) :=
  ⟨by decide, parseTableRow_drains_rows (fun _ => none) true
    [([], [([], " a "), ([], "  "), ([⟨"class", "num"⟩], "O'Neil")]), ([], [])] 20
    (by decide)⟩

/-- C1, counterexample: the row `<tr><td>O'Neil</td></tr>` is read as the cell
`O&#39;Neil`, which is not the trimmed text of the cell; so the calls do not
return the trimmed texts of the cells for every table body. -/
theorem parseTableRow_plain_text_counterexample :
    ¬ ∀ (getFinDataXBRLTag : String → Option String) (parseHref : Bool)
        (rows : List (List Attribute × List (List Attribute × String))) (fuel : Nat),
        (tableTokens rows).length + 2 ≤ fuel →
        ∃ z, parseTableRows getFinDataXBRLTag fuel parseHref (rows.length + 1)
            (NewTokenizer (tableTokens rows)) =
          Run.ret (rows.map (fun r => Except.ok (rowPlainTexts r)) ++
            [Except.error doneParsing], z) := by
  intro h
  obtain ⟨z, hz⟩ := h (fun _ => none) true [([], [([], "O'Neil")])] 10 (by decide)
  have e : parseTableRows (fun _ => none) 10 true 2
      (NewTokenizer (tableTokens [([], [([], "O'Neil")])])) =
      Run.ret ([Except.ok ["O&#39;Neil"], Except.error doneParsing],
        ⟨[], errorToken, false⟩) := rfl
  have e2 := e.symm.trans hz
  have e3 : rowPlainTexts ([], [([], "O'Neil")]) = ["O'Neil"] := by decide
  simp [e3] at e2

/-! ### An anchor that is left open -/

theorem parseTableData_mono_le (x : String → Option String) (b : Bool) (z : Tokenizer)
    (n m : Nat) (hnm : n ≤ m) (h : parseTableData x n z b ≠ Run.fuelOut) :
    parseTableData x m z b = parseTableData x n z b :=
  mono_le (fun k => parseTableData x k z b) (fun k => parseTableData_mono x b k z) n m hnm h

theorem seekRowLoop_mono_le (z : Tokenizer) (token : Token)
    (n m : Nat) (hnm : n ≤ m) (h : seekRowLoop n z token ≠ Run.fuelOut) :
    seekRowLoop m z token = seekRowLoop n z token :=
  mono_le (fun k => seekRowLoop k z token) (fun k => seekRowLoop_mono k z token) n m hnm h

/-- With link resolution on, the loop of `parseTableData` at the start tag of
an anchor that is left open does not return. -/
theorem parseTableDataLoop_open_anchor (x : String → Option String) (aa : List Attribute)
    (rest : List Token) (c : Token) (k : Bool)
    (hon : ∀ a ∈ aa, a.Key = "onclick" → x a.Val = none)
    (hin : ∀ t ∈ rest, ¬ isAnchorEnd t) (n : Nat) :
    parseTableDataLoop x true n ⟨rest, c, k⟩ (startTag "a" aa) = Run.fuelOut := by
  cases n with
  | zero => rfl
  | succ n =>
    rw [parseTableDataLoop_succ]
    have h := parseHyperLinkTag_open x n rest c k (startTag "a" aa) hon hin
      (by simp [startTag])
    simp [startTag] at h ⊢
    simp [h]

/-- With link resolution on, `parseTableData` on a cell that starts with an
anchor that is left open does not return. -/
theorem parseTableData_open_anchor (x : String → Option String) (ta aa : List Attribute)
    (rest : List Token)
    (hon : ∀ a ∈ aa, a.Key = "onclick" → x a.Val = none)
    (hin : ∀ t ∈ rest, ¬ isAnchorEnd t) (n : Nat) :
    parseTableData x n ⟨startTag "a" aa :: rest, startTag "td" ta, true⟩ true =
      Run.fuelOut := by
  unfold parseTableData
  simp only [token_taken, startTag]
  cases n with
  | zero => simp; rfl
  | succ n =>
    rw [parseTableDataLoop_succ]
    have h := parseTableDataLoop_open_anchor x aa rest (startTag "a" aa) true hon hin n
    simp [startTag] at h ⊢
    exact h

/-- The row loop, about to read a cell that is not numeric and starts with an
anchor that is left open, does not return. -/
theorem parseTableRowLoop_open_anchor (x : String → Option String) (ta aa : List Attribute)
    (rest : List Token)
    (hta : cellParseFlag ta true = true)
    (hon : ∀ a ∈ aa, a.Key = "onclick" → x a.Val = none)
    (hin : ∀ t ∈ rest, ¬ isAnchorEnd t) (fuel : Nat) (c : Token) (k : Bool)
    (retData : List String) :
    parseTableRowLoop x true fuel
        (Tokenizer.mk (startTag "td" ta :: startTag "a" aa :: rest) c k).advance.2
        (Tokenizer.mk (startTag "td" ta :: startTag "a" aa :: rest) c k).advance.1 retData =
      Run.fuelOut := by
  cases fuel with
  | zero => rfl
  | succ n =>
    rw [parseTableRowLoop_succ]
    have h := parseTableData_open_anchor x ta aa rest hon hin n
    simp [startTag, hta] at h ⊢
    simp [h]

/-- Plain cells in front of a point from which the row loop does not return:
the row loop does not return. -/
theorem parseTableRowLoop_cells_open (x : String → Option String) (b : Bool)
    (more : List Token)
    (hmore : ∀ (fuel : Nat) (c : Token) (k : Bool) (retData : List String),
      parseTableRowLoop x b fuel (Tokenizer.mk more c k).advance.2
        (Tokenizer.mk more c k).advance.1 retData = Run.fuelOut)
    (cells : List (List Attribute × String)) :
    ∀ (fuel : Nat) (c : Token) (k : Bool) (retData : List String),
      parseTableRowLoop x b fuel
        (Tokenizer.mk (cells.flatMap cellTokens ++ more) c k).advance.2
        (Tokenizer.mk (cells.flatMap cellTokens ++ more) c k).advance.1 retData =
      Run.fuelOut := by
  induction cells with
  | nil => intro fuel c k retData; exact hmore fuel c k retData
  | cons cell cells ih =>
    intro fuel c k retData
    cases fuel with
    | zero => rfl
    | succ n =>
      simp only [List.flatMap_cons, cellTokens, List.cons_append, List.nil_append, advance_cons]
      rw [parseTableRowLoop_succ]
      simp only [startTag, reduceCtorEq, and_false, if_false, and_self, if_true]
      by_cases hd : parseTableData x n
          ⟨textToken cell.2 :: endTag "td" :: (cells.flatMap cellTokens ++ more),
            ⟨TokenType.StartTagToken, "td", cell.1⟩, true⟩ (cellParseFlag cell.1 b) =
          Run.fuelOut
      · rw [hd]
        rfl
      · have e := parseTableData_cell x (cellParseFlag cell.1 b) cell.1 cell.2
          (cells.flatMap cellTokens ++ more) n
        simp only [startTag] at e
        rw [parseTableData_mono_le x _ _ n (n + 3) (by omega) hd] at e
        rw [e]
        by_cases hc : (TrimSpace (textToken cell.2).String).length > 0
        · simp only [hc, if_true, bind_ret, advance_cons]
          cases n with
          | zero => rfl
          | succ m =>
            rw [parseTableRowLoop_succ]
            simp only [endTag, reduceCtorEq, and_false, if_false, String.reduceEq, false_and]
            exact ih m _ _ _
        · simp only [hc, if_false, bind_ret]
          exact ih n _ _ _

/-- The helper behind the failing inputs of C2 and C7: a page that starts with
`<tr>`, plain cells, and a cell that is not numeric and starts with an anchor
with no accepted `onclick` that no `a` end tag follows.  With link resolution
on, `parseTableRow` does not return, whatever the fuel. -/
theorem parseTableRow_open_anchor (x : String → Option String) (ra ta aa : List Attribute)
    (cells : List (List Attribute × String)) (rest : List Token)
    (hta : cellParseFlag ta true = true)
    (hon : ∀ a ∈ aa, a.Key = "onclick" → x a.Val = none)
    (hin : ∀ t ∈ rest, ¬ isAnchorEnd t) (fuel : Nat) :
    parseTableRow x fuel
      (NewTokenizer (startTag "tr" ra :: (cells.flatMap cellTokens ++
        startTag "td" ta :: startTag "a" aa :: rest))) true = Run.fuelOut := by
  unfold parseTableRow
  simp only [NewTokenizer, token_fresh]
  by_cases hs : seekRowLoop fuel
      ⟨startTag "tr" ra :: (cells.flatMap cellTokens ++
        startTag "td" ta :: startTag "a" aa :: rest), errorToken, true⟩ errorToken =
      Run.fuelOut
  · rw [hs]; rfl
  · have e := seekRowLoop_next ra (cells.flatMap cellTokens ++
      startTag "td" ta :: startTag "a" aa :: rest) errorToken true errorToken fuel
      (by simp [errorToken])
    rw [seekRowLoop_mono_le _ _ fuel (fuel + 2) (by omega) hs] at e
    rw [e]
    simp only [bind_ret]
    cases fuel with
    | zero => rfl
    | succ n =>
      rw [parseTableRowLoop_succ]
      simp only [startTag, reduceCtorEq, and_false, if_false, String.reduceEq, false_and]
      exact parseTableRowLoop_cells_open x true _
        (fun f c k r => parseTableRowLoop_open_anchor x ta aa rest hta hon hin f c k r)
        cells n _ _ _

/-! ### C2 -/

/-- C2, the failing input: the page `<tr><td>10-K</td><td><a href="/y">` ends
after a `tr` start tag and before its end tag, with one cell collected and an
anchor left open.  With link resolution on, `parseTableRow` does not return
the error `Done with parsing`: it does not return at all, whatever the fuel. -/
theorem parseTableRow_open_anchor_after_cell (getFinDataXBRLTag : String → Option String)
    (fuel : Nat) :
    parseTableRow getFinDataXBRLTag fuel
      (NewTokenizer [startTag "tr" [], startTag "td" [], textToken "10-K", endTag "td",
        startTag "td" [], startTag "a" [⟨"href", "/y"⟩]]) true = Run.fuelOut :=
  parseTableRow_open_anchor getFinDataXBRLTag [] [] [⟨"href", "/y"⟩] [([], "10-K")] []
    rfl (by simp) (by simp) fuel

/-! ### Numeric cells -/

theorem cellParseFlag_false (attr : List Attribute) : cellParseFlag attr false = false := by
  induction attr with
  | nil => rfl
  | cons a as ih => unfold cellParseFlag; split <;> exact ih

theorem cellParseFlag_numeric (attr : List Attribute) (h : isNumericCell attr) :
    ∀ b, cellParseFlag attr b = false := by
  induction attr with
  | nil => obtain ⟨a, ha, _⟩ := h; simp at ha
  | cons a as ih =>
    intro b
    unfold cellParseFlag
    by_cases hc : a.Key = "class" ∧ (a.Val = "nump" ∨ a.Val = "num")
    · rw [if_pos hc]; exact cellParseFlag_false as
    · rw [if_neg hc]
      obtain ⟨a2, ha2, hk, hv⟩ := h
      rcases List.mem_cons.mp ha2 with rfl | hmem
      · exact absurd ⟨hk, hv.symm⟩ hc
      · exact ih ⟨a2, hmem, hk, hv⟩ b

/-- With link resolution off, the loop of `parseTableData` returns the first
text of the cell that is not blank. -/
theorem parseTableDataLoop_text (x : String → Option String) (more : List Token) :
    ∀ (c : Token) (k : Bool) (fuel : Nat), more.length + 1 ≤ fuel →
      ∃ z2, parseTableDataLoop x false fuel (Tokenizer.mk more c k).advance.2
        (Tokenizer.mk more c k).advance.1 = Run.ret (cellFirstText more, z2) := by
  induction more with
  | nil =>
    intro c k fuel hf
    obtain ⟨n, rfl⟩ : ∃ n, fuel = n + 1 := ⟨fuel - 1, by simp at hf; omega⟩
    rw [parseTableDataLoop_succ]
    refine ⟨⟨[], errorToken, true⟩, ?_⟩
    simp [errorToken, cellFirstText]
  | cons t ts ih =>
    intro c k fuel hf
    obtain ⟨n, rfl⟩ : ∃ n, fuel = n + 1 := ⟨fuel - 1, by simp at hf; omega⟩
    rw [parseTableDataLoop_succ]
    simp only [advance_cons, cellFirstText]
    by_cases h1 : t.Data = "td" ∧ t.Typ = TokenType.EndTagToken
    · exact ⟨_, by rw [if_pos h1, if_pos h1]⟩
    · rw [if_neg h1, if_neg h1]
      by_cases h2 : t.Typ = TokenType.ErrorToken
      · exact ⟨_, by rw [if_pos h2, if_pos h2]⟩
      · rw [if_neg h2, if_neg h2]
        simp only [Bool.false_eq_true, false_and, if_false]
        by_cases h3 : t.Typ = TokenType.TextToken ∧ (TrimSpace t.String).length > 0
        · exact ⟨_, by rw [if_pos h3, if_pos h3]⟩
        · rw [if_neg h3, if_neg h3]
          exact ih t true n (by simp at hf; omega)

/-- With link resolution off, `parseTableData` on a cell whose start tag has
just been read returns the first text of the cell that is not blank. -/
theorem parseTableData_text (x : String → Option String) (attr : List Attribute)
    (more : List Token) (fuel : Nat) (hf : more.length + 2 ≤ fuel) :
    ∃ z2, parseTableData x fuel ⟨more, startTag "td" attr, true⟩ false =
      Run.ret (cellFirstText more, z2) := by
  obtain ⟨n, rfl⟩ : ∃ n, fuel = n + 1 := ⟨fuel - 1, by omega⟩
  unfold parseTableData
  simp only [token_taken, startTag]
  rw [parseTableDataLoop_succ]
  simp only [ne_eq, not_true_eq_false, false_and, if_false, reduceCtorEq, and_false,
    String.reduceEq]
  exact parseTableDataLoop_text x more _ true n (by omega)

/-! ### C4 -/

/-- C4, as amended: for an anchor start tag whose `id` is `interactiveDataBtn`,
none of whose `onclick` attributes is accepted by `getFinDataXBRLTag`, and
which an `a` end tag follows, `parseHyperLinkTag` returns the value of the
`href` attribute unchanged, whatever the tokens before the end tag, and stops
at that end tag. -/
theorem parseHyperLinkTag_whitelisted_href (getFinDataXBRLTag : String → Option String)
    (attr : List Attribute) (inner : List Token) (e : Token) (more : List Token) (fuel : Nat)
    (hid : attrVal "id" attr "" = "interactiveDataBtn")
    (hon : ∀ a ∈ attr, a.Key = "onclick" → getFinDataXBRLTag a.Val = none)
    (hin : ∀ t ∈ inner, ¬ isAnchorEnd t) (he : isAnchorEnd e)
    (hf : inner.length + 2 ≤ fuel) :
    parseHyperLinkTag getFinDataXBRLTag fuel ⟨inner ++ e :: more, startTag "a" attr, true⟩
        (startTag "a" attr) =
      Run.ret (attrVal "href" attr "", ⟨more, e, true⟩) := by
  rw [parseHyperLinkTag_closed getFinDataXBRLTag attr inner e more _ _ fuel hon hin he hf, hid]
  rfl

/-- C4, witness: the anchor
`<a href="/cgi-bin/viewer" id="interactiveDataBtn"> Interactive Data</a>`. -/
theorem parseHyperLinkTag_whitelisted_href_witness :
    parseHyperLinkTag (fun _ => none) 3
        ⟨[textToken " Interactive Data"] ++ endTag "a" :: [endTag "td"],
          startTag "a" [⟨"href", "/cgi-bin/viewer"⟩, ⟨"id", "interactiveDataBtn"⟩], true⟩
        (startTag "a" [⟨"href", "/cgi-bin/viewer"⟩, ⟨"id", "interactiveDataBtn"⟩]) =
      Run.ret (attrVal "href" [⟨"href", "/cgi-bin/viewer"⟩, ⟨"id", "interactiveDataBtn"⟩] "",
        ⟨[endTag "td"], endTag "a", true⟩) :=
  parseHyperLinkTag_whitelisted_href (fun _ => none)
    [⟨"href", "/cgi-bin/viewer"⟩, ⟨"id", "interactiveDataBtn"⟩] [textToken " Interactive Data"]
    (endTag "a") [endTag "td"] 3 (by decide) (by simp) (by simp [textToken])
    ⟨rfl, rfl⟩ (by decide)

/-- C4, counterexample: when `getFinDataXBRLTag` accepts the `onclick` of an
anchor, the anchor `<a id="interactiveDataBtn" href="/x" onclick="hook">` gives
the value decoded from the `onclick`, not the `href`. -/
theorem parseHyperLinkTag_whitelisted_counterexample :
    ¬ ∀ (getFinDataXBRLTag : String → Option String) (attr : List Attribute)
        (inner : List Token) (e : Token) (more : List Token) (fuel : Nat),
        attrVal "id" attr "" = "interactiveDataBtn" →
        (∀ t ∈ inner, ¬ isAnchorEnd t) → isAnchorEnd e → inner.length + 2 ≤ fuel →
        ∃ z2, parseHyperLinkTag getFinDataXBRLTag fuel
            ⟨inner ++ e :: more, startTag "a" attr, true⟩ (startTag "a" attr) =
          Run.ret (attrVal "href" attr "", z2) := by
  intro h
  obtain ⟨z2, hz2⟩ := h (fun _ => some "us-gaap_Assets")
    [⟨"id", "interactiveDataBtn"⟩, ⟨"href", "/x"⟩, ⟨"onclick", "hook"⟩]
    [textToken "Assets"] (endTag "a") [] 3 (by decide) (by simp [textToken])
    ⟨rfl, rfl⟩ (by decide)
  have e : parseHyperLinkTag (fun _ => some "us-gaap_Assets") 3
      ⟨[textToken "Assets"] ++ endTag "a" :: [],
        startTag "a" [⟨"id", "interactiveDataBtn"⟩, ⟨"href", "/x"⟩, ⟨"onclick", "hook"⟩], true⟩
      (startTag "a" [⟨"id", "interactiveDataBtn"⟩, ⟨"href", "/x"⟩, ⟨"onclick", "hook"⟩]) =
      Run.ret ("us-gaap_Assets", ⟨[textToken "Assets", endTag "a"],
        startTag "a" [⟨"id", "interactiveDataBtn"⟩, ⟨"href", "/x"⟩, ⟨"onclick", "hook"⟩],
        true⟩) := rfl
  have e2 := e.symm.trans hz2
  have e3 : attrVal "href" [⟨"id", "interactiveDataBtn"⟩, ⟨"href", "/x"⟩, ⟨"onclick", "hook"⟩]
      "" = "/x" := by decide
  rw [e3] at e2
  simp at e2

/-! ### C5 -/

/-- C5, as amended: for a closed anchor whose `id` is not in the whitelist
`reqHyperLinks` and none of whose `onclick` attributes is accepted by
`getFinDataXBRLTag`, `parseHyperLinkTag` returns the empty string, whatever
the inner text, and stops at the `a` end tag. -/
theorem parseHyperLinkTag_other_anchor (getFinDataXBRLTag : String → Option String)
    (attr : List Attribute) (inner : List Token) (e : Token) (more : List Token) (fuel : Nat)
    (hid : reqHyperLinks.lookup (attrVal "id" attr "") = none)
    (hon : ∀ a ∈ attr, a.Key = "onclick" → getFinDataXBRLTag a.Val = none)
    (hin : ∀ t ∈ inner, ¬ isAnchorEnd t) (he : isAnchorEnd e)
    (hf : inner.length + 2 ≤ fuel) :
    parseHyperLinkTag getFinDataXBRLTag fuel ⟨inner ++ e :: more, startTag "a" attr, true⟩
        (startTag "a" attr) =
      Run.ret ("", ⟨more, e, true⟩) := by
  rw [parseHyperLinkTag_closed getFinDataXBRLTag attr inner e more _ _ fuel hon hin he hf, hid]
  rfl

/-- C5, witness: the anchor `<a href="/Archives/x" id="documentsbutton"> Documents</a>`. -/
theorem parseHyperLinkTag_other_anchor_witness :
    parseHyperLinkTag (fun _ => none) 3
        ⟨[textToken " Documents"] ++ endTag "a" :: [endTag "td"],
          startTag "a" [⟨"href", "/Archives/x"⟩, ⟨"id", "documentsbutton"⟩], true⟩
        (startTag "a" [⟨"href", "/Archives/x"⟩, ⟨"id", "documentsbutton"⟩]) =
      Run.ret ("", ⟨[endTag "td"], endTag "a", true⟩) :=
  parseHyperLinkTag_other_anchor (fun _ => none)
    [⟨"href", "/Archives/x"⟩, ⟨"id", "documentsbutton"⟩] [textToken " Documents"]
    (endTag "a") [endTag "td"] 3 (by decide) (by simp) (by simp [textToken])
    ⟨rfl, rfl⟩ (by decide)

/-- C5, counterexample: the closed anchor `<a href="/x">hello</a>`, with an
`id` outside the whitelist and no `onclick`, does not give its inner text
`hello`: it gives the empty string. -/
theorem parseHyperLinkTag_inner_text_counterexample :
    ¬ ∀ (getFinDataXBRLTag : String → Option String) (attr : List Attribute)
        (text : String) (more : List Token) (fuel : Nat),
        reqHyperLinks.lookup (attrVal "id" attr "") = none →
        (∀ a ∈ attr, a.Key = "onclick" → getFinDataXBRLTag a.Val = none) →
        3 ≤ fuel →
        ∃ z2, parseHyperLinkTag getFinDataXBRLTag fuel
            ⟨textToken text :: endTag "a" :: more, startTag "a" attr, true⟩
            (startTag "a" attr) =
          Run.ret (TrimSpace text, z2) := by
  intro h
  obtain ⟨z2, hz2⟩ := h (fun _ => none) [⟨"href", "/x"⟩] "hello" [] 3 (by decide) (by simp)
    (by decide)
  have e : parseHyperLinkTag (fun _ => none) 3
      ⟨textToken "hello" :: endTag "a" :: [], startTag "a" [⟨"href", "/x"⟩], true⟩
      (startTag "a" [⟨"href", "/x"⟩]) = Run.ret ("", ⟨[], endTag "a", true⟩) := rfl
  have e2 := e.symm.trans hz2
  have e3 : TrimSpace "hello" = "hello" := by decide
  rw [e3] at e2
  simp at e2

/-! ### C6 -/

theorem hyperLinkAttrs_onclick (x : String → Option String) (v str : String)
    (hx : x v = some str) (post : List Attribute) (pre : List Attribute) :
    ∀ (id href : String), (∀ a ∈ pre, a.Key ≠ "onclick") →
      hyperLinkAttrs x (pre ++ ⟨"onclick", v⟩ :: post) id href = Sum.inl str := by
  induction pre with
  | nil =>
    intro id href _
    simp [hyperLinkAttrs, hx]
  | cons a as ih =>
    intro id href h
    have h3 : a.Key ≠ "onclick" := h a (List.mem_cons_self _ _)
    have has : ∀ a ∈ as, a.Key ≠ "onclick" := fun a2 ha2 => h a2 (List.mem_cons_of_mem _ ha2)
    rw [List.cons_append]
    unfold hyperLinkAttrs
    by_cases h1 : a.Key = "id"
    · simp [h1, ih _ _ has]
    · by_cases h2 : a.Key = "href"
      · simp [h2, ih _ _ has]
      · simp [h1, h2, h3, ih _ _ has]

/-- C6, the failing branch: for an anchor whose first `onclick` attribute is
accepted by `getFinDataXBRLTag`, `parseHyperLinkTag` returns the decoded value
with the tokenizer as it was given: no token is read, and the last token read
is the start tag of the anchor, not its end tag. -/
theorem parseHyperLinkTag_onclick_keeps_cursor (getFinDataXBRLTag : String → Option String)
    (v str : String) (pre post : List Attribute) (z : Tokenizer) (fuel : Nat)
    (hx : getFinDataXBRLTag v = some str) (hpre : ∀ a ∈ pre, a.Key ≠ "onclick") :
    parseHyperLinkTag getFinDataXBRLTag fuel z
        (startTag "a" (pre ++ ⟨"onclick", v⟩ :: post)) = Run.ret (str, z) := by
  unfold parseHyperLinkTag
  have hs : (startTag "a" (pre ++ ⟨"onclick", v⟩ :: post)).Attr =
      pre ++ ⟨"onclick", v⟩ :: post := rfl
  rw [hs, hyperLinkAttrs_onclick getFinDataXBRLTag v str hx post pre "" "" hpre]

/-- C6, witness: the anchor `<a href="#" onclick="hook">Total assets</a>`, with
a `getFinDataXBRLTag` that accepts `hook`: the call returns at the start tag,
with the inner text and the end tag still to be read. -/
theorem parseHyperLinkTag_onclick_keeps_cursor_witness :
    parseHyperLinkTag (fun s => if s = "hook" then some "us-gaap_Assets" else none) 5
        ⟨[textToken "Total assets", endTag "a", endTag "td"],
          startTag "a" [⟨"href", "#"⟩, ⟨"onclick", "hook"⟩], true⟩
        (startTag "a" ([⟨"href", "#"⟩] ++ ⟨"onclick", "hook"⟩ :: [])) =
      Run.ret ("us-gaap_Assets", ⟨[textToken "Total assets", endTag "a", endTag "td"],
        startTag "a" [⟨"href", "#"⟩, ⟨"onclick", "hook"⟩], true⟩) :=
  parseHyperLinkTag_onclick_keeps_cursor _ "hook" "us-gaap_Assets" [⟨"href", "#"⟩] []
    ⟨[textToken "Total assets", endTag "a", endTag "td"],
      startTag "a" [⟨"href", "#"⟩, ⟨"onclick", "hook"⟩], true⟩ 5 (by decide) (by simp)

/-! ### C7 -/

/-- C7, the failing input: the page `<tr><td><a href="/y">Annual report` opens
an anchor inside a cell and ends before the anchor is closed.  With link
resolution on, `parseTableRow` does not return the error `Done with parsing`:
no amount of fuel makes it return. -/
theorem parseTableRow_open_anchor_never_returns
    (getFinDataXBRLTag : String → Option String) (fuel : Nat) :
    parseTableRow getFinDataXBRLTag fuel
      (NewTokenizer [startTag "tr" [], startTag "td" [], startTag "a" [⟨"href", "/y"⟩],
        textToken "Annual report"]) true = Run.fuelOut :=
  parseTableRow_open_anchor getFinDataXBRLTag [] [] [⟨"href", "/y"⟩] []
    [textToken "Annual report"] rfl (by simp) (by simp [textToken]) fuel

/-! ### The filings list -/

theorem bind_eq_ret {α β : Type} (r : Run α) (g : α → Run β) (b : β)
    (h : r.bind g = Run.ret b) : ∃ a, r = Run.ret a ∧ g a = Run.ret b := by
  cases r with
  | fuelOut => simp at h
  | fatal m => simp at h
  | panic m => simp at h
  | ret a => exact ⟨a, rfl, h⟩

/-- Every cell that the row loop adds is not empty. -/
theorem parseTableRowLoop_nonempty (x : String → Option String) (b : Bool) (n : Nat) :
    ∀ (z : Tokenizer) (token : Token) (retData data : List String) (z2 : Tokenizer),
      (∀ s ∈ retData, s.length > 0) →
      parseTableRowLoop x b n z token retData = Run.ret (Except.ok data, z2) →
      ∀ s ∈ data, s.length > 0 := by
  induction n with
  | zero => intro z token retData data z2 _ h; simp [parseTableRowLoop] at h
  | succ n ih =>
    intro z token retData data z2 hret h
    rw [parseTableRowLoop_succ] at h
    split at h
    · simp only [Run.ret.injEq, Prod.mk.injEq, Except.ok.injEq] at h
      rw [← h.1]; exact hret
    · split at h
      · simp at h
      · split at h
        · obtain ⟨a, _, ha⟩ := bind_eq_ret _ _ _ h
          refine ih _ _ _ _ _ ?_ ha
          split
          · rename_i hl
            intro s hs
            rcases List.mem_append.mp hs with h1 | h1
            · exact hret s h1
            · simp at h1; rw [h1]; exact hl
          · exact hret
        · exact ih _ _ _ _ _ hret h

/-- Every cell that `parseTableRow` returns is not empty. -/
theorem parseTableRow_nonempty (x : String → Option String) (b : Bool) (n : Nat)
    (z z2 : Tokenizer) (data : List String)
    (h : parseTableRow x n z b = Run.ret (Except.ok data, z2)) :
    ∀ s ∈ data, s.length > 0 := by
  unfold parseTableRow at h
  obtain ⟨a, _, ha⟩ := bind_eq_ret _ _ _ h
  cases hfound : a.1 with
  | none => simp [hfound] at ha
  | some token =>
    simp only [hfound] at ha
    exact parseTableRowLoop_nonempty x b n _ _ _ _ _ (by simp) ha

/-- The first of the calls that read the rows of a page, and the calls that
follow it. -/
theorem parseTableRows_cons (x : String → Option String) (F : Nat) (b : Bool) (calls : Nat)
    (z zf : Tokenizer) (r : Except String (List String))
    (rs : List (Except String (List String)))
    (h : parseTableRows x F b (calls + 1) z = Run.ret (r :: rs, zf)) :
    ∃ z1, parseTableRow x F z b = Run.ret (r, z1) ∧
      parseTableRows x F b calls z1 = Run.ret (rs, zf) := by
  rw [parseTableRows] at h
  obtain ⟨a, ha, h2⟩ := bind_eq_ret _ _ _ h
  obtain ⟨a2, ha2, h3⟩ := bind_eq_ret _ _ _ h2
  simp only [Run.ret.injEq, Prod.mk.injEq, List.cons.injEq] at h3
  refine ⟨a.2, ?_, ?_⟩
  · rw [ha, ← h3.1.1]
  · rw [ha2, ← h3.1.2, ← h3.2]

/-- The map after the rows of a page, from the map before them. -/
theorem queryPageLoop_rows (x : String → Option String) (getYear : String → Int)
    (thresholdYear : Int) (docType : String) (F : Nat) (zf : Tokenizer)
    (rows : List (List String)) :
    ∀ (z : Tokenizer) (filingInfo : List (String × String)) (n : Nat),
      parseTableRows x F true (rows.length + 1) z =
        Run.ret (rows.map Except.ok ++ [Except.error doneParsing], zf) →
      F + rows.length + 1 ≤ n →
      ((parseTableRow x n z true).bind fun r =>
        queryPageLoop x getYear thresholdYear docType n r.2 r.1 filingInfo) =
      Run.ret (rows.foldl (fun info data =>
        if data.length = 5 ∧ data.getD 0 "" = docType then
          if getYear (data.getD 3 "") ≥ thresholdYear then
            (data.getD 3 "", data.getD 1 "") :: info
          else info
        else info) filingInfo) := by
  induction rows with
  | nil =>
    intro z filingInfo n h hn
    obtain ⟨z1, h1, _⟩ := parseTableRows_cons x F true 0 z zf _ _ h
    rw [parseTableRow_mono_le x true z F n (by omega) (by rw [h1]; simp), h1]
    obtain ⟨m, rfl⟩ : ∃ m, n = m + 1 := ⟨n - 1, by omega⟩
    rfl
  | cons r rows ih =>
    intro z filingInfo n h hn
    obtain ⟨z1, h1, h2⟩ := parseTableRows_cons x F true (rows.length + 1) z zf _ _ h
    rw [parseTableRow_mono_le x true z F n (by omega) (by rw [h1]; simp), h1]
    obtain ⟨m, rfl⟩ : ∃ m, n = m + 1 := ⟨n - 1, by omega⟩
    simp only [bind_ret, List.foldl_cons]
    rw [queryPageLoop]
    exact ih z1 _ m h2 (by simp at hn; omega)

/-- The cells of the rows that the calls read are not empty. -/
theorem parseTableRows_nonempty (x : String → Option String) (F : Nat) (b : Bool)
    (zf : Tokenizer) (rows : List (List String)) :
    ∀ (z : Tokenizer) (tail : List (Except String (List String))),
      parseTableRows x F b (rows.length + tail.length) z =
        Run.ret (rows.map Except.ok ++ tail, zf) →
      ∀ r ∈ rows, ∀ s ∈ r, s.length > 0 := by
  induction rows with
  | nil => intro z tail _ r hr; simp at hr
  | cons r0 rows ih =>
    intro z tail h r hr
    have e : (r0 :: rows).length + tail.length = (rows.length + tail.length) + 1 := by
      simp; omega
    rw [e] at h
    obtain ⟨z1, h1, h2⟩ := parseTableRows_cons x F b _ z zf _ _ h
    rcases List.mem_cons.mp hr with rfl | hmem
    · exact parseTableRow_nonempty x b F z z1 r h1
    · exact ih z1 tail h2 r hmem

/-- The entry of a date in the map that the rows of a page leave. -/
theorem lookup_foldl_rows (getYear : String → Int) (thresholdYear : Int)
    (docType date : String) (rows : List (List String)) :
    ∀ (info : List (String × String)), (∀ r ∈ rows, ∀ s ∈ r, s.length > 0) →
      (rows.foldl (fun info data =>
        if data.length = 5 ∧ data.getD 0 "" = docType then
          if getYear (data.getD 3 "") ≥ thresholdYear then
            (data.getD 3 "", data.getD 1 "") :: info
          else info
        else info) info).lookup date =
      match (rows.filter (isFilingRow getYear thresholdYear docType date)).getLast? with
      | some r => some (r.getD 1 "")
      | none => info.lookup date := by
  induction rows with
  | nil => intro info _; rfl
  | cons r rows ih =>
    intro info hne
    have hr : ∀ s ∈ r, s.length > 0 := hne r (List.mem_cons_self _ _)
    have hrows : ∀ r ∈ rows, ∀ s ∈ r, s.length > 0 :=
      fun r2 h2 => hne r2 (List.mem_cons_of_mem _ h2)
    rw [List.foldl_cons, ih _ hrows, List.filter_cons]
    by_cases hp : isFilingRow getYear thresholdYear docType date r = true
    · rw [if_pos hp, List.getLast?_cons]
      cases hl : (rows.filter (isFilingRow getYear thresholdYear docType date)).getLast? with
      | some r2 => rfl
      | none =>
        simp only [isFilingRow, decide_eq_true_eq] at hp
        obtain ⟨h5, _, h0, h3, hy⟩ := hp
        rw [if_pos ⟨h5, h0⟩, h3, if_pos hy, List.lookup_cons_self]
        rfl
    · rw [if_neg hp]
      cases hl : (rows.filter (isFilingRow getYear thresholdYear docType date)).getLast? with
      | some r2 => rfl
      | none =>
        simp only [isFilingRow, decide_eq_true_eq] at hp
        simp only []
        by_cases hv : r.length = 5 ∧ r.getD 0 "" = docType
        · rw [if_pos hv]
          by_cases hy : getYear (r.getD 3 "") ≥ thresholdYear
          · rw [if_pos hy]
            have hd : ¬ r.getD 3 "" = date := by
              intro hd
              exact hp ⟨hv.1, hr, hv.2, hd, by rw [← hd]; exact hy⟩
            have hd2 : (date == r.getD 3 "") = false := by
              simp only [beq_eq_false_iff_ne, ne_eq]
              exact fun h => hd h.symm
            rw [List.lookup_cons, hd2]
          · rw [if_neg hy]
        · rw [if_neg hv]

/-- The map of `queryPageParser` on a page whose rows are read as `rows`. -/
theorem queryPageParser_of_rows (x : String → Option String)
    (getYear : String → Int) (thresholdYear : Int) (page : List Token) (docType : String)
    (rows : List (List String)) (F : Nat) (zf : Tokenizer) (fuel : Nat)
    (hread : parseTableRows x F true (rows.length + 1) (NewTokenizer page) =
      Run.ret (rows.map Except.ok ++ [Except.error doneParsing], zf))
    (hf : F + rows.length + 1 ≤ fuel) :
    ∃ filingInfo,
      queryPageParser x getYear thresholdYear fuel page docType = Run.ret filingInfo ∧
      ∀ date link, filingInfo.lookup date = some link ↔
        ∃ r, (rows.filter (isFilingRow getYear thresholdYear docType date)).getLast? = some r ∧
          r.getD 1 "" = link := by
  refine ⟨_, queryPageLoop_rows x getYear thresholdYear docType F zf rows
    (NewTokenizer page) [] fuel hread hf, ?_⟩
  intro date link
  have hne := parseTableRows_nonempty x F true zf rows (NewTokenizer page)
    [Except.error doneParsing] hread
  rw [lookup_foldl_rows getYear thresholdYear docType date rows [] hne]
  cases (rows.filter (isFilingRow getYear thresholdYear docType date)).getLast? with
  | none => simp [List.lookup]
  | some r => simp

/-! ### Strings -/

theorem readString_line (line rest : List Char) (h : '\n' ∉ line) :
    readText (line ++ '\n' :: rest) '\n' = ((line ++ ['\n'], false), rest) := by
  induction line with
  | nil => simp [readText]
  | cons c cs ih =>
    have hc : c ≠ '\n' := fun e => h (by rw [e]; exact List.mem_cons_self _ _)
    have hcs : '\n' ∉ cs := fun e => h (List.mem_cons_of_mem _ e)
    rw [List.cons_append, readText, if_neg hc, ih hcs]
    rfl

theorem hasPrefix_append (sub b : List Char) : HasPrefix (sub ++ b) sub = true := by
  induction sub with
  | nil => cases b <;> rfl
  | cons c cs ih => simp [HasPrefix, ih]

theorem contains_prefix (s sub : List Char) (h : HasPrefix s sub = true) :
    Contains s sub = true := by
  cases s with
  | nil => exact h
  | cons c cs => simp [Contains, h]

theorem contains_append (a sub b : List Char) : Contains (a ++ (sub ++ b)) sub = true := by
  induction a with
  | nil => exact contains_prefix _ _ (hasPrefix_append sub b)
  | cons c cs ih => simp [Contains, ih]

theorem takeWhile_append_pass (p : Char → Bool) (a b : List Char) (h : ∀ c ∈ a, p c = true) :
    (a ++ b).takeWhile p = a ++ b.takeWhile p := by
  induction a with
  | nil => rfl
  | cons c cs ih =>
    rw [List.cons_append, List.takeWhile_cons, h c (List.mem_cons_self _ _)]
    simp only [if_true, List.cons_append, List.cons.injEq, true_and]
    exact ih (fun c2 h2 => h c2 (List.mem_cons_of_mem _ h2))

theorem takeWhile_append_stop (p : Char → Bool) (a b : List Char) (d : Char)
    (h : ∀ c ∈ a, p c = true) (hd : p d = false) :
    (a ++ d :: b).takeWhile p = a := by
  rw [takeWhile_append_pass p a _ h, List.takeWhile_cons, hd]
  simp

theorem splitLoop_char_head (ch : Char) (s : List Char) :
    ∀ cur, (splitLoop [ch] s 0 cur).head? =
      some (cur ++ s.takeWhile (fun c => !decide (c = ch))) := by
  induction s with
  | nil => intro cur; simp [splitLoop]
  | cons c cs ih =>
    intro cur
    by_cases h : c = ch
    · simp [splitLoop, HasPrefix, h]
    · simp [splitLoop, HasPrefix, h, ih]

theorem splitLoop_char_none (ch : Char) (a : List Char) :
    ∀ cur, ch ∉ a → splitLoop [ch] a 0 cur = [cur ++ a] := by
  induction a with
  | nil => intro cur _; simp [splitLoop]
  | cons c cs ih =>
    intro cur h
    have hc : c ≠ ch := fun e => h (by rw [e]; exact List.mem_cons_self _ _)
    have hcs : ch ∉ cs := fun e => h (List.mem_cons_of_mem _ e)
    simp [splitLoop, HasPrefix, hc, ih _ hcs]

theorem splitLoop_char_first (ch : Char) (a b : List Char) :
    ∀ cur, ch ∉ a →
      splitLoop [ch] (a ++ ch :: b) 0 cur = (cur ++ a) :: splitLoop [ch] b 0 [] := by
  induction a with
  | nil => intro cur _; simp [splitLoop, HasPrefix]
  | cons c cs ih =>
    intro cur h
    have hc : c ≠ ch := fun e => h (by rw [e]; exact List.mem_cons_self _ _)
    have hcs : ch ∉ cs := fun e => h (List.mem_cons_of_mem _ e)
    simp [splitLoop, HasPrefix, hc, ih _ hcs]

theorem splitLoop_assign_none (a : List Char) :
    ∀ cur, '=' ∉ a → splitLoop [' ', '=', ' '] a 0 cur = [cur ++ a] := by
  induction a with
  | nil => intro cur _; simp [splitLoop]
  | cons c cs ih =>
    intro cur h
    have hcs : '=' ∉ cs := fun e => h (List.mem_cons_of_mem _ e)
    have hp : HasPrefix (c :: cs) [' ', '=', ' '] = false := by
      cases cs with
      | nil => simp [HasPrefix]
      | cons d ds =>
        have hd : d ≠ '=' := fun e => hcs (by rw [e]; exact List.mem_cons_self _ _)
        simp [HasPrefix, hd]
    rw [splitLoop, hp]
    simp [ih _ hcs]

theorem splitLoop_assign_first (a b : List Char) :
    ∀ cur, '=' ∉ a →
      splitLoop [' ', '=', ' '] (a ++ ' ' :: '=' :: ' ' :: b) 0 cur =
        (cur ++ a) :: splitLoop [' ', '=', ' '] b 0 [] := by
  induction a with
  | nil => intro cur _; simp [splitLoop, HasPrefix]
  | cons c cs ih =>
    intro cur h
    have hcs : '=' ∉ cs := fun e => h (List.mem_cons_of_mem _ e)
    have hp : HasPrefix (c :: (cs ++ ' ' :: '=' :: ' ' :: b)) [' ', '=', ' '] = false := by
      cases cs with
      | nil => simp [HasPrefix]
      | cons d ds =>
        have hd : d ≠ '=' := fun e => hcs (by rw [e]; exact List.mem_cons_self _ _)
        simp [HasPrefix, hd]
    rw [List.cons_append, splitLoop, hp]
    simp [ih _ hcs]

theorem atoiDigits_digits (ds : List Char) :
    ∀ n, (∀ c ∈ ds, '0' ≤ c ∧ c ≤ '9') →
      atoiDigits ds n = some (ds.foldl (fun n ch => n * 10 + (ch.toNat - '0'.toNat)) n) := by
  induction ds with
  | nil => intro n _; rfl
  | cons c cs ih =>
    intro n h
    rw [atoiDigits, if_pos (h c (List.mem_cons_self _ _)),
      ih _ (fun c2 h2 => h c2 (List.mem_cons_of_mem _ h2))]
    rfl

/-- On a string of decimal digits that spells a number below 2^63, `Atoi`
gives that number. -/
theorem atoi_digits (ds : List Char) (hne : ds ≠ [])
    (hd : ∀ c ∈ ds, '0' ≤ c ∧ c ≤ '9') (hv : decimalValue ds < 2 ^ 63) :
    Atoi ds = (decimalValue ds : Int) := by
  cases ds with
  | nil => exact absurd rfl hne
  | cons d ds =>
    have h0 := hd d (List.mem_cons_self _ _)
    have hm : d ≠ '-' := by rintro rfl; exact absurd h0.1 (by decide)
    have hp : d ≠ '+' := by rintro rfl; exact absurd h0.1 (by decide)
    have ha := atoiDigits_digits (d :: ds) 0 hd
    unfold Atoi
    split
    · rename_i cs heq; exact absurd (List.cons.inj heq).1 hm
    · rename_i cs heq; exact absurd (List.cons.inj heq).1 hp
    · simp only [List.length_cons]
      rw [if_neg (by omega), ha]
      simp only []
      unfold decimalValue at hv ⊢
      rw [if_pos hv]

theorem trim_quoted (m : List Char) (h1 : ∀ c, m.head? = some c → c ≠ '"')
    (h2 : ∀ c, m.getLast? = some c → c ≠ '"') :
    Trim ('"' :: (m ++ ['"'])) ['"'] = m := by
  unfold Trim
  cases m with
  | nil => simp
  | cons c m2 =>
    have hc : c ≠ '"' := h1 c rfl
    have e1 : List.dropWhile (fun c => decide (c ∈ ['"'])) ('"' :: (c :: m2 ++ ['"'])) =
        c :: m2 ++ ['"'] := by
      simp [List.dropWhile, hc]
    rw [e1]
    have e2 : (c :: m2 ++ ['"']).reverse = '"' :: (c :: m2).reverse := by simp
    rw [e2]
    cases hl : (c :: m2).reverse with
    | nil => simp at hl
    | cons d l2 =>
      have hd : d ≠ '"' := by
        apply h2 d
        rw [List.getLast?_eq_head?_reverse, hl]
        rfl
      have e3 : List.dropWhile (fun c => decide (c ∈ ['"'])) ('"' :: d :: l2) = d :: l2 := by
        simp [List.dropWhile, hd]
      rw [e3, ← hl, List.reverse_reverse]

/-! ### The lines of a manifest -/

/-- One iteration of the inner loop on a plain entry line adds the name with
the extension `htm`. -/
theorem filingLinksLoop_entry (e : List Char × List Char × List Char) (he : plainEntry e)
    (count : Nat) (rest : List Char) (filingLinks : List (List Char)) :
    filingLinksLoop (fun r => readText r '\n') (count + 1) (entryLine e ++ rest) filingLinks =
      filingLinksLoop (fun r => readText r '\n') count rest (filingLinks ++ [entryLink e]) := by
  obtain ⟨lhs, name, ext⟩ := e
  obtain ⟨⟨hl1, hl2⟩, hname, hext⟩ := he
  simp only at hl1 hl2 hname hext
  have hn1 : '.' ∉ name := fun h => (hname _ h).1 rfl
  have hn2 : ';' ∉ name := fun h => (hname _ h).2.1 rfl
  have hn3 : '"' ∉ name := fun h => (hname _ h).2.2.1 rfl
  have hn4 : '=' ∉ name := fun h => (hname _ h).2.2.2.1 rfl
  have hn5 : '\n' ∉ name := fun h => (hname _ h).2.2.2.2 rfl
  have hsep : " = ".toList = [' ', '=', ' '] := rfl
  have hline : entryLine (lhs, name, ext) ++ rest =
      (lhs ++ ' ' :: '=' :: ' ' :: '"' :: (name ++ '.' :: (ext ++ ['"', ';']))) ++
        '\n' :: rest := by
    simp [entryLine, hsep]
  have hnl : '\n' ∉ lhs ++ ' ' :: '=' :: ' ' :: '"' :: (name ++ '.' :: (ext ++ ['"', ';'])) := by
    rcases hext with rfl | rfl <;> simp [hl2, hn5]
  have hread := readString_line _ rest hnl
  rw [← hline] at hread
  have hs : lhs ++ ' ' :: '=' :: ' ' :: '"' :: (name ++ '.' :: (ext ++ ['"', ';'])) ++ ['\n'] =
      lhs ++ ' ' :: '=' :: ' ' :: ('"' :: (name ++ '.' :: (ext ++ ['"'])) ++ ';' :: ['\n']) := by
    simp
  have hb : '=' ∉ '"' :: (name ++ '.' :: (ext ++ ['"'])) ++ ';' :: ['\n'] := by
    rcases hext with rfl | rfl <;> simp [hn4]
  have hsplit1 : Split (lhs ++ ' ' :: '=' :: ' ' :: '"' ::
      (name ++ '.' :: (ext ++ ['"', ';'])) ++ ['\n']) " = ".toList =
      [lhs, '"' :: (name ++ '.' :: (ext ++ ['"'])) ++ ';' :: ['\n']] := by
    rw [hs, hsep, Split, splitLoop_assign_first lhs _ [] hl1, splitLoop_assign_none _ [] hb]
    rfl
  have hq : ';' ∉ '"' :: (name ++ '.' :: (ext ++ ['"'])) := by
    rcases hext with rfl | rfl <;> simp [hn2]
  have hsplit2 : (Split ('"' :: (name ++ '.' :: (ext ++ ['"'])) ++ ';' :: ['\n'])
      ";".toList).headD [] = '"' :: ((name ++ '.' :: ext) ++ ['"']) := by
    have : ";".toList = [';'] := rfl
    rw [this, Split, splitLoop_char_first ';' _ _ [] hq]
    simp
  have htrim : Trim ('"' :: ((name ++ '.' :: ext) ++ ['"'])) "\"".toList = name ++ '.' :: ext := by
    have : "\"".toList = ['"'] := rfl
    rw [this]
    apply trim_quoted
    · intro c hc
      cases name with
      | nil => simp at hc; rw [← hc]; decide
      | cons d ds =>
        simp at hc
        rw [← hc]
        exact (hname d (List.mem_cons_self _ _)).2.2.1
    · intro c hc
      rcases hext with rfl | rfl <;>
      · simp [List.getLast?_append] at hc
        rw [← hc]; decide
  have hsplit3 : Split (name ++ '.' :: ext) ".".toList = [name, ext] := by
    have : ".".toList = ['.'] := rfl
    have hx : '.' ∉ ext := by rcases hext with rfl | rfl <;> decide
    rw [this, Split, splitLoop_char_first '.' _ _ [] hn1, splitLoop_char_none '.' _ [] hx]
    rfl
  have hs5 : (if ext = "xml".toList then name ++ ".htm".toList else name ++ '.' :: ext) =
      name ++ ".htm".toList := by
    rcases hext with rfl | rfl
    · rw [if_pos rfl]
    · rw [if_neg (by decide)]; rfl
  have hcont : Contains (name ++ ".htm".toList) "htm".toList = true := by
    have : name ++ ".htm".toList = (name ++ ['.']) ++ ("htm".toList ++ []) := by
      simp
    rw [this]
    exact contains_append _ _ _
  rw [filingLinksLoop]
  simp only [hread, Bool.false_eq_true, if_false, hsplit1, List.getElem?_cons_succ,
    List.getElem?_cons_zero, hsplit2, htrim, hsplit3, List.headD_cons, hs5, hcont,
    Bool.not_true, entryLink]

/-- The inner loop over plain entry lines collects their links in line order
and leaves the rest of the page. -/
theorem filingLinksLoop_entries (entries : List (List Char × List Char × List Char)) :
    ∀ (rest : List Char) (filingLinks : List (List Char)),
      (∀ e ∈ entries, plainEntry e) →
      filingLinksLoop (fun r => readText r '\n') entries.length (entries.flatMap entryLine ++ rest) filingLinks =
        Run.ret (filingLinks ++ entries.map entryLink, rest) := by
  induction entries with
  | nil => intro rest filingLinks _; simp [filingLinksLoop]
  | cons e es ih =>
    intro rest filingLinks h
    rw [List.flatMap_cons, List.append_assoc, List.length_cons,
      filingLinksLoop_entry e (h e (List.mem_cons_self _ _)),
      ih rest _ (fun e2 h2 => h e2 (List.mem_cons_of_mem _ h2))]
    simp

/-- The outer loop passes over the lines that do not contain `var reports`. -/
theorem filingPageLoop_skip (pre : List (List Char)) :
    ∀ (text : List Char) (n : Nat),
      (∀ l ∈ pre, '\n' ∉ l ∧ Contains (l ++ ['\n']) "var reports".toList = false) →
      filingPageLoop (fun r => readText r '\n') (pre.length + n)
          (readText (pre.flatMap (fun l => l ++ ['\n']) ++ text) '\n').1.1
          (readText (pre.flatMap (fun l => l ++ ['\n']) ++ text) '\n').1.2
          (readText (pre.flatMap (fun l => l ++ ['\n']) ++ text) '\n').2 =
        filingPageLoop (fun r => readText r '\n') n (readText text '\n').1.1 (readText text '\n').1.2
          (readText text '\n').2 := by
  induction pre with
  | nil => intro text n _; simp
  | cons l ls ih =>
    intro text n h
    obtain ⟨h1, h2⟩ := h l (List.mem_cons_self _ _)
    have e : (l :: ls).flatMap (fun l => l ++ ['\n']) ++ text =
        l ++ '\n' :: (ls.flatMap (fun l => l ++ ['\n']) ++ text) := by
      simp
    have e2 : (l :: ls).length + n = (ls.length + n) + 1 := by simp; omega
    rw [e, readString_line l _ h1, e2, filingPageLoop]
    simp only [Bool.false_eq_true, if_false, h2]
    exact ih text n (fun l2 hl2 => h l2 (List.mem_cons_of_mem _ hl2))

/-- The outer loop at the line `var reports = new Array(n);` runs the inner
loop n - 1 times on the text after the line. -/
theorem filingPageLoop_header (before ds after text : List Char) (n : Nat)
    (hbefore : '(' ∉ before ∧ '\n' ∉ before) (hafter : '\n' ∉ after)
    (hds : ds ≠ [] ∧ ∀ c ∈ ds, '0' ≤ c ∧ c ≤ '9') (hfit : decimalValue ds < 2 ^ 63) :
    filingPageLoop (fun r => readText r '\n') (n + 1)
        (readText (headerLine before ds after ++ text) '\n').1.1
        (readText (headerLine before ds after ++ text) '\n').1.2
        (readText (headerLine before ds after ++ text) '\n').2 =
      filingLinksLoop (fun r => readText r '\n') (decimalValue ds - 1) text [] := by
  have hd1 : ∀ c ∈ ds, c ≠ '(' := by
    intro c hc; rintro rfl; exact absurd (hds.2 _ hc).1 (by decide)
  have hd2 : ∀ c ∈ ds, c ≠ ')' := by
    intro c hc; rintro rfl; exact absurd (hds.2 _ hc).1 (by decide)
  have hd3 : '\n' ∉ ds := by
    intro hc; exact absurd (hds.2 _ hc).1 (by decide)
  have hlit : "var reports = new Array".toList =
      "var reports".toList ++ " = new Array".toList := by decide
  have hline : headerLine before ds after ++ text =
      (before ++ "var reports = new Array".toList ++ '(' :: (ds ++ ')' :: ';' :: after)) ++
        '\n' :: text := by
    simp [headerLine]
  have hnl : '\n' ∉ before ++ "var reports = new Array".toList ++
      '(' :: (ds ++ ')' :: ';' :: after) := by
    have : '\n' ∉ "var reports = new Array".toList := by decide
    simp [hbefore.2, hafter, hd3, this]
  rw [hline, readString_line _ text hnl, filingPageLoop]
  have hcont : Contains (before ++ "var reports = new Array".toList ++
      '(' :: (ds ++ ')' :: ';' :: after) ++ ['\n']) "var reports".toList = true := by
    rw [hlit]
    have := contains_append before "var reports".toList
      (" = new Array".toList ++ '(' :: (ds ++ ')' :: ';' :: after) ++ ['\n'])
    simpa using this
  have hpar : '(' ∉ before ++ "var reports = new Array".toList := by
    have : '(' ∉ "var reports = new Array".toList := by decide
    simp [hbefore.1, this]
  have hsplit1 : (Split (before ++ "var reports = new Array".toList ++
      '(' :: (ds ++ ')' :: ';' :: after) ++ ['\n']) "(".toList)[1]? =
      some ((ds ++ ')' :: ';' :: (after ++ ['\n'])).takeWhile (fun c => !decide (c = '('))) := by
    have e : "(".toList = ['('] := rfl
    have e2 : before ++ "var reports = new Array".toList ++
        '(' :: (ds ++ ')' :: ';' :: after) ++ ['\n'] =
        (before ++ "var reports = new Array".toList) ++
        '(' :: (ds ++ ')' :: ';' :: (after ++ ['\n'])) := by simp
    rw [e, e2, Split, splitLoop_char_first '(' _ _ [] hpar, List.getElem?_cons_succ,
      ← List.head?_eq_getElem?, splitLoop_char_head]
    rfl
  have htake : (ds ++ ')' :: ';' :: (after ++ ['\n'])).takeWhile (fun c => !decide (c = '(')) =
      ds ++ ')' :: (';' :: (after ++ ['\n'])).takeWhile (fun c => !decide (c = '(')) := by
    rw [takeWhile_append_pass _ ds _ (fun c hc => by simp [hd1 c hc]), List.takeWhile_cons]
    simp
  have hsplit2 : (Split (ds ++ ')' ::
      (';' :: (after ++ ['\n'])).takeWhile (fun c => !decide (c = '('))) ")".toList).headD [] =
      ds := by
    have e : ")".toList = [')'] := rfl
    have hnot : ')' ∉ ds := fun h => hd2 _ h rfl
    rw [e, Split, splitLoop_char_first ')' _ _ [] hnot]
    rfl
  simp only [Bool.false_eq_true, if_false, hcont, if_true, hsplit1, htake, hsplit2]
  rw [atoi_digits ds hds.1 hds.2 hfit]
  congr 1
  have h63 : (2 : Nat) ^ 63 = 9223372036854775808 := by norm_num
  rw [h63] at hfit
  unfold wrapInt64
  omega

/-! ### Pages on which the table walker returns

With link resolution off, and on a page all of whose anchors are closed, every
call of the table walker returns, given fuel for the tokens that are left. -/

theorem anchorsClosed_suffix (l : List Token) (h : anchorsClosed l) :
    ∀ l2, l2 <:+ l → anchorsClosed l2 := by
  induction l with
  | nil => intro l2 hs; rw [List.suffix_nil.mp hs]; trivial
  | cons t ts ih =>
    intro l2 hs
    rcases List.suffix_cons_iff.mp hs with rfl | h2
    · exact h
    · exact ih h.2 l2 h2

theorem first_anchorEnd (rest : List Token) (h : ∃ e ∈ rest, isAnchorEnd e) :
    ∃ pre e post, rest = pre ++ e :: post ∧ (∀ t ∈ pre, ¬ isAnchorEnd t) ∧ isAnchorEnd e := by
  induction rest with
  | nil => obtain ⟨e, he, _⟩ := h; simp at he
  | cons t ts ih =>
    by_cases ht : isAnchorEnd t
    · exact ⟨[], t, ts, rfl, by simp, ht⟩
    · obtain ⟨e, he, hee⟩ := h
      rcases List.mem_cons.mp he with rfl | hmem
      · exact absurd hee ht
      · obtain ⟨pre, e2, post, hsplit, hpre, he2⟩ := ih ⟨e, hmem, hee⟩
        refine ⟨t :: pre, e2, post, by rw [hsplit]; rfl, ?_, he2⟩
        intro t2 ht2
        rcases List.mem_cons.mp ht2 with rfl | hm
        · exact ht
        · exact hpre t2 hm

/-- On an anchor that is closed, `parseHyperLinkTag` returns. -/
theorem parseHyperLinkTag_returns (x : String → Option String) (token : Token)
    (rest : List Token) (c : Token) (k : Bool) (fuel : Nat)
    (ha : token.Typ = TokenType.StartTagToken)
    (hclosed : ∃ e ∈ rest, isAnchorEnd e) (hf : rest.length + 1 ≤ fuel) :
    ∃ str z2, parseHyperLinkTag x fuel ⟨rest, c, k⟩ token = Run.ret (str, z2) ∧
      z2.rest <:+ rest := by
  unfold parseHyperLinkTag
  cases hyperLinkAttrs x token.Attr "" "" with
  | inl str => exact ⟨str, _, rfl, List.suffix_refl _⟩
  | inr p =>
    obtain ⟨pre, e, post, hsplit, hpre, he⟩ := first_anchorEnd rest hclosed
    have hlen : pre.length + 2 ≤ fuel := by
      rw [hsplit] at hf; simp at hf; omega
    have hl := hyperLinkLoop_closed pre e post c k token fuel hpre he
      (by intro h; have h2 := h.2; rw [ha] at h2; exact absurd h2 (by decide)) hlen
    rw [← hsplit] at hl
    simp only [hl, bind_ret]
    split
    · exact ⟨_, _, rfl, by rw [hsplit]; exact ⟨pre ++ [e], by simp⟩⟩
    · exact ⟨_, _, rfl, by rw [hsplit]; exact ⟨pre ++ [e], by simp⟩⟩

/-- The loop of `parseTableData` returns. -/
theorem parseTableDataLoop_returns (x : String → Option String) (b : Bool) (m : Nat) :
    ∀ (rest : List Token), rest.length ≤ m → ∀ (c : Token) (k : Bool) (fuel : Nat),
      (b = true → anchorsClosed rest) → rest.length + 1 ≤ fuel →
      ∃ str z2, parseTableDataLoop x b fuel (Tokenizer.mk rest c k).advance.2
          (Tokenizer.mk rest c k).advance.1 = Run.ret (str, z2) ∧ z2.rest <:+ rest := by
  induction m with
  | zero =>
    intro rest hm c k fuel _ hf
    have hr : rest = [] := List.length_eq_zero.mp (by omega)
    subst hr
    obtain ⟨n, rfl⟩ : ∃ n, fuel = n + 1 := ⟨fuel - 1, by simp at hf; omega⟩
    rw [parseTableDataLoop_succ]
    exact ⟨"", ⟨[], errorToken, true⟩, by simp [errorToken], List.suffix_refl _⟩
  | succ m ih =>
    intro rest hm c k fuel hb hf
    cases rest with
    | nil =>
      obtain ⟨n, rfl⟩ : ∃ n, fuel = n + 1 := ⟨fuel - 1, by simp at hf; omega⟩
      rw [parseTableDataLoop_succ]
      exact ⟨"", ⟨[], errorToken, true⟩, by simp [errorToken], List.suffix_refl _⟩
    | cons t ts =>
      obtain ⟨n, rfl⟩ : ∃ n, fuel = n + 1 := ⟨fuel - 1, by simp at hf; omega⟩
      have hts : ts.length ≤ m := by simp at hm; omega
      have hn : ts.length + 1 ≤ n := by simp at hf; omega
      have hnext : ∀ (rest2 : List Token) (c2 : Token) (k2 : Bool), rest2 <:+ ts →
          ∃ str z2, parseTableDataLoop x b n (Tokenizer.mk rest2 c2 k2).advance.2
            (Tokenizer.mk rest2 c2 k2).advance.1 = Run.ret (str, z2) ∧ z2.rest <:+ t :: ts := by
        intro rest2 c2 k2 hs
        have hl := hs.length_le
        obtain ⟨str, z2, h1, h2⟩ := ih rest2 (by omega) c2 k2 n
          (fun hb2 => anchorsClosed_suffix _ (hb hb2)
            rest2 (hs.trans (List.suffix_cons _ _))) (by omega)
        exact ⟨str, z2, h1, (h2.trans hs).trans (List.suffix_cons _ _)⟩
      rw [parseTableDataLoop_succ]
      simp only [advance_cons]
      split
      · exact ⟨_, _, rfl, List.suffix_cons _ _⟩
      · split
        · exact ⟨_, _, rfl, List.suffix_cons _ _⟩
        · split
          · rename_i h3
            obtain ⟨str, z2, h4, h5⟩ := parseHyperLinkTag_returns x t ts t true n h3.2.2
              ((hb h3.1).1 ⟨h3.2.1, h3.2.2⟩) hn
            rw [h4]
            simp only [bind_ret]
            split
            · exact ⟨_, _, rfl, h5.trans (List.suffix_cons _ _)⟩
            · exact hnext z2.rest z2.cur z2.taken h5
          · split
            · exact ⟨_, _, rfl, List.suffix_cons _ _⟩
            · exact hnext ts t true (List.suffix_refl _)

/-- The function `parseTableData`, called at a start tag, returns. -/
theorem parseTableData_returns (x : String → Option String) (b : Bool) (rest : List Token)
    (cur : Token) (fuel : Nat) (hcur : cur.Typ = TokenType.StartTagToken)
    (hb : b = true → anchorsClosed rest) (hf : rest.length + 2 ≤ fuel) :
    ∃ str z2, parseTableData x fuel ⟨rest, cur, true⟩ b = Run.ret (str, z2) ∧
      z2.rest <:+ rest := by
  obtain ⟨n, rfl⟩ : ∃ n, fuel = n + 1 := ⟨fuel - 1, by omega⟩
  unfold parseTableData
  simp only [token_taken, hcur, ne_eq, not_true_eq_false, false_and, if_false]
  rw [parseTableDataLoop_succ]
  simp only [reduceCtorEq, and_false, if_false, String.reduceEq, false_and]
  exact parseTableDataLoop_returns x b rest.length rest (le_refl _) cur true n hb (by omega)

theorem cellParseFlag_true (attr : List Attribute) :
    ∀ b, cellParseFlag attr b = true → b = true := by
  induction attr with
  | nil => intro b h; exact h
  | cons a as ih =>
    intro b h
    unfold cellParseFlag at h
    split at h
    · rw [cellParseFlag_false] at h; exact absurd h (by decide)
    · exact ih b h

/-- The row loop returns: the error `Done with parsing`, or a row, and then it
has read at least one more token. -/
theorem parseTableRowLoop_returns (x : String → Option String) (b : Bool) (m : Nat) :
    ∀ (rest : List Token), rest.length ≤ m →
      ∀ (c : Token) (k : Bool) (fuel : Nat) (retData : List String),
      (b = true → anchorsClosed rest) → rest.length + 2 ≤ fuel →
      ∃ r z2, parseTableRowLoop x b fuel (Tokenizer.mk rest c k).advance.2
          (Tokenizer.mk rest c k).advance.1 retData = Run.ret (r, z2) ∧
        (r = Except.error doneParsing ∨
          ∃ data, r = Except.ok data ∧ z2.rest.length < rest.length) ∧
        z2.rest <:+ rest := by
  induction m with
  | zero =>
    intro rest hm c k fuel retData _ hf
    have hr : rest = [] := List.length_eq_zero.mp (by omega)
    subst hr
    obtain ⟨n, rfl⟩ : ∃ n, fuel = n + 1 := ⟨fuel - 1, by simp at hf; omega⟩
    rw [parseTableRowLoop_succ]
    exact ⟨_, ⟨[], errorToken, true⟩, by simp [errorToken], Or.inl rfl, List.suffix_refl _⟩
  | succ m ih =>
    intro rest hm c k fuel retData hb hf
    cases rest with
    | nil =>
      obtain ⟨n, rfl⟩ : ∃ n, fuel = n + 1 := ⟨fuel - 1, by simp at hf; omega⟩
      rw [parseTableRowLoop_succ]
      exact ⟨_, ⟨[], errorToken, true⟩, by simp [errorToken], Or.inl rfl, List.suffix_refl _⟩
    | cons t ts =>
      obtain ⟨n, rfl⟩ : ∃ n, fuel = n + 1 := ⟨fuel - 1, by simp at hf; omega⟩
      have hts : ts.length ≤ m := by simp at hm; omega
      have hn : ts.length + 2 ≤ n := by simp at hf; omega
      have hnext : ∀ (rest2 : List Token) (c2 : Token) (k2 : Bool) (ret2 : List String),
          rest2 <:+ ts →
          ∃ r z2, parseTableRowLoop x b n (Tokenizer.mk rest2 c2 k2).advance.2
              (Tokenizer.mk rest2 c2 k2).advance.1 ret2 = Run.ret (r, z2) ∧
            (r = Except.error doneParsing ∨
              ∃ data, r = Except.ok data ∧ z2.rest.length < (t :: ts).length) ∧
            z2.rest <:+ t :: ts := by
        intro rest2 c2 k2 ret2 hs
        have hl := hs.length_le
        obtain ⟨r, z2, h1, h2, h3⟩ := ih rest2 (by omega) c2 k2 n ret2
          (fun hb2 => anchorsClosed_suffix _ (hb hb2)
            rest2 (hs.trans (List.suffix_cons _ _))) (by omega)
        refine ⟨r, z2, h1, ?_, (h3.trans hs).trans (List.suffix_cons _ _)⟩
        rcases h2 with h2 | ⟨data, hd, hlt⟩
        · exact Or.inl h2
        · exact Or.inr ⟨data, hd, by simp; omega⟩
      rw [parseTableRowLoop_succ]
      simp only [advance_cons]
      split
      · exact ⟨_, _, rfl, Or.inr ⟨retData, rfl, by simp⟩, List.suffix_cons _ _⟩
      · split
        · exact ⟨_, _, rfl, Or.inl rfl, List.suffix_cons _ _⟩
        · split
          · rename_i h3
            obtain ⟨str, z2, h4, h5⟩ := parseTableData_returns x (cellParseFlag t.Attr b) ts t n
              h3.2 (fun hflag => (hb (cellParseFlag_true _ _ hflag)).2) hn
            rw [h4]
            simp only [bind_ret]
            exact hnext z2.rest z2.cur z2.taken _ h5
          · exact hnext ts t true _ (List.suffix_refl _)

/-- The first loop of `parseTableRow` returns. -/
theorem seekRowLoop_returns (rest : List Token) :
    ∀ (c : Token) (k : Bool) (token : Token) (fuel : Nat), rest.length + 1 ≤ fuel →
      ∃ found z2, seekRowLoop fuel ⟨rest, c, k⟩ token = Run.ret (found, z2) ∧
        (∀ tok, found = some tok → tok.Typ = TokenType.StartTagToken ∧ tok.Data = "tr") ∧
        z2.rest <:+ rest := by
  induction rest with
  | nil =>
    intro c k token fuel hf
    obtain ⟨n, rfl⟩ : ∃ n, fuel = n + 1 := ⟨fuel - 1, by simp at hf; omega⟩
    rw [seekRowLoop_succ]
    split
    · rename_i h
      exact ⟨_, _, rfl, fun tok ht => by rw [← Option.some.inj ht]; exact h,
        List.suffix_refl _⟩
    · exact ⟨none, ⟨[], errorToken, false⟩, by simp, by simp, List.suffix_refl _⟩
  | cons t ts ih =>
    intro c k token fuel hf
    obtain ⟨n, rfl⟩ : ∃ n, fuel = n + 1 := ⟨fuel - 1, by simp at hf; omega⟩
    rw [seekRowLoop_succ]
    split
    · rename_i h
      exact ⟨_, _, rfl, fun tok ht => by rw [← Option.some.inj ht]; exact h,
        List.suffix_refl _⟩
    · simp only [next_cons, advance_cons]
      split
      · exact ⟨none, _, rfl, by simp, List.suffix_cons _ _⟩
      · obtain ⟨found, z2, h1, h2, h3⟩ := ih t true t n (by simp at hf; omega)
        exact ⟨found, z2, h1, h2, h3.trans (List.suffix_cons _ _)⟩

/-- With link resolution off, or on a page all of whose anchors are closed,
`parseTableRow` returns: the error `Done with parsing`, or a row, and then it
has read at least one more token. -/
theorem parseTableRow_returns (x : String → Option String) (b : Bool) (z : Tokenizer)
    (fuel : Nat) (hb : b = true → anchorsClosed z.rest) (hf : z.rest.length + 3 ≤ fuel) :
    ∃ r z2, parseTableRow x fuel z b = Run.ret (r, z2) ∧
      (r = Except.error doneParsing ∨
        ∃ data, r = Except.ok data ∧ z2.rest.length < z.rest.length) ∧
      z2.rest <:+ z.rest := by
  unfold parseTableRow
  have hrest : z.Token.2.rest = z.rest := by
    unfold Tokenizer.Token; split <;> rfl
  obtain ⟨found, z1, h1, h2, h3⟩ := seekRowLoop_returns z.Token.2.rest z.Token.2.cur
    z.Token.2.taken z.Token.1 fuel (by rw [hrest]; omega)
  rw [h1]
  simp only [bind_ret]
  rw [hrest] at h3
  cases found with
  | none => exact ⟨_, _, rfl, Or.inl rfl, h3⟩
  | some tok =>
    obtain ⟨ht1, ht2⟩ := h2 tok rfl
    obtain ⟨n, rfl⟩ : ∃ n, fuel = n + 1 := ⟨fuel - 1, by omega⟩
    simp only []
    rw [parseTableRowLoop_succ]
    simp only [ht1, ht2, reduceCtorEq, and_false, if_false, String.reduceEq, false_and]
    have hl := h3.length_le
    obtain ⟨r, z2, h4, h5, h6⟩ := parseTableRowLoop_returns x b z1.rest.length z1.rest
      (le_refl _) z1.cur z1.taken n []
      (fun hb2 => anchorsClosed_suffix _ (hb hb2) z1.rest h3) (by omega)
    refine ⟨r, z2, h4, ?_, h6.trans h3⟩
    rcases h5 with h5 | ⟨data, hd, hlt⟩
    · exact Or.inl h5
    · exact Or.inr ⟨data, hd, by omega⟩

/-- With link resolution off, or on a page all of whose anchors are closed, the
successive calls of `parseTableRow` read some rows and then return the error
`Done with parsing`. -/
theorem parseTableRows_returns (x : String → Option String) (b : Bool) (m : Nat) :
    ∀ (z : Tokenizer), z.rest.length ≤ m → (b = true → anchorsClosed z.rest) →
      ∀ F, z.rest.length + 3 ≤ F →
      ∃ (rows : List (List String)) (zf : Tokenizer), rows.length ≤ z.rest.length ∧
        parseTableRows x F b (rows.length + 1) z =
          Run.ret (rows.map Except.ok ++ [Except.error doneParsing], zf) := by
  induction m with
  | zero =>
    intro z hm hb F hF
    obtain ⟨r, z2, h1, h2, _⟩ := parseTableRow_returns x b z F hb hF
    rcases h2 with h2 | ⟨data, _, hlt⟩
    · refine ⟨[], z2, by simp, ?_⟩
      simp [parseTableRows, h1, h2]
    · omega
  | succ m ih =>
    intro z hm hb F hF
    obtain ⟨r, z2, h1, h2, h3⟩ := parseTableRow_returns x b z F hb hF
    rcases h2 with h2 | ⟨data, hd, hlt⟩
    · refine ⟨[], z2, by simp, ?_⟩
      simp [parseTableRows, h1, h2]
    · obtain ⟨rows, zf, hlen, hrows⟩ := ih z2 (by omega)
        (fun hb2 => anchorsClosed_suffix _ (hb hb2) z2.rest h3) F (by omega)
      refine ⟨data :: rows, zf, by simp; omega, ?_⟩
      rw [List.length_cons, parseTableRows, h1]
      simp only [bind_ret, hrows, hd, List.map_cons, List.cons_append]

/-- On a page all of whose anchors are closed, `queryPageParser` returns, given
fuel for twice the tokens of the page: the rows of the page are read, and the
map has the entries of the rows that are filings of the requested type. -/
theorem queryPageParser_returns (x : String → Option String) (getYear : String → Int)
    (thresholdYear : Int) (page : List Token) (docType : String)
    (hpage : anchorsClosed page) (fuel : Nat) (hf : 2 * page.length + 4 ≤ fuel) :
    ∃ (rows : List (List String)) (zf : Tokenizer) (filingInfo : List (String × String)),
      parseTableRows x (page.length + 3) true (rows.length + 1) (NewTokenizer page) =
        Run.ret (rows.map Except.ok ++ [Except.error doneParsing], zf) ∧
      queryPageParser x getYear thresholdYear fuel page docType = Run.ret filingInfo ∧
      ∀ date link, filingInfo.lookup date = some link ↔
        ∃ r, (rows.filter (isFilingRow getYear thresholdYear docType date)).getLast? = some r ∧
          r.getD 1 "" = link := by
  obtain ⟨rows, zf, hlen, hread⟩ := parseTableRows_returns x true page.length
    (NewTokenizer page) (le_refl _) (fun _ => hpage) (page.length + 3) (le_refl _)
  have hlen2 : rows.length ≤ page.length := hlen
  obtain ⟨info, h1, h2⟩ := queryPageParser_of_rows x getYear thresholdYear page docType rows
    (page.length + 3) zf fuel hread (by omega)
  exact ⟨rows, zf, info, hread, h1, h2⟩

/-! ### The token at which a row ends -/

theorem advance_cur (z : Tokenizer) :
    z.advance.2.cur = z.advance.1 ∧ z.advance.2.taken = true := by
  obtain ⟨rest, c, k⟩ := z
  cases rest <;> simp

/-- A row that the row loop returns ends at a `tr` end tag: that is the last
token read. -/
theorem parseTableRowLoop_ok_cursor (x : String → Option String) (b : Bool) (n : Nat) :
    ∀ (z0 : Tokenizer) (retData data : List String) (z2 : Tokenizer),
      parseTableRowLoop x b n z0.advance.2 z0.advance.1 retData =
        Run.ret (Except.ok data, z2) →
      (z2.cur.Data = "tr" ∧ z2.cur.Typ = TokenType.EndTagToken) ∧ z2.taken = true := by
  induction n with
  | zero => intro z0 retData data z2 h; simp [parseTableRowLoop] at h
  | succ n ih =>
    intro z0 retData data z2 h
    rw [parseTableRowLoop_succ] at h
    split at h
    · rename_i hc
      simp only [Run.ret.injEq, Prod.mk.injEq, Except.ok.injEq] at h
      rw [← h.2, (advance_cur z0).1]
      exact ⟨hc, (advance_cur z0).2⟩
    · split at h
      · simp at h
      · split at h
        · obtain ⟨a, _, ha⟩ := bind_eq_ret _ _ _ h
          exact ih _ _ _ _ ha
        · exact ih _ _ _ _ h

theorem seekRowLoop_found (n : Nat) :
    ∀ (z : Tokenizer) (token tok : Token) (z2 : Tokenizer),
      seekRowLoop n z token = Run.ret (some tok, z2) →
      tok.Typ = TokenType.StartTagToken ∧ tok.Data = "tr" := by
  induction n with
  | zero => intro z token tok z2 h; simp [seekRowLoop] at h
  | succ n ih =>
    intro z token tok z2 h
    rw [seekRowLoop_succ] at h
    split at h
    · rename_i hc
      simp only [Run.ret.injEq, Prod.mk.injEq, Option.some.injEq] at h
      rw [← h.1]; exact hc
    · split at h
      · simp at h
      · exact ih _ _ _ _ h

/-- Whenever `parseTableRow` returns a nil error, the last token it read is a
`tr` end tag. -/
theorem parseTableRow_ok_cursor (x : String → Option String) (b : Bool) (n : Nat)
    (z z2 : Tokenizer) (data : List String)
    (h : parseTableRow x n z b = Run.ret (Except.ok data, z2)) :
    (z2.cur.Data = "tr" ∧ z2.cur.Typ = TokenType.EndTagToken) ∧ z2.taken = true := by
  unfold parseTableRow at h
  obtain ⟨a, ha, h2⟩ := bind_eq_ret _ _ _ h
  cases hfound : a.1 with
  | none => simp [hfound] at h2
  | some tok =>
    simp only [hfound] at h2
    have ht := seekRowLoop_found n _ _ tok a.2 (by rw [ha, ← hfound])
    cases n with
    | zero => simp [parseTableRowLoop] at h2
    | succ m =>
      rw [parseTableRowLoop_succ] at h2
      simp only [ht.1, ht.2, reduceCtorEq, and_false, if_false, String.reduceEq,
        false_and] at h2
      exact parseTableRowLoop_ok_cursor x b m _ _ _ _ h2

/-! ### The heading walker -/

theorem parseTableTitleLoop_succ (n : Nat) (z : Tokenizer) (token : Token)
    (strs : List String) :
    parseTableTitleLoop (n + 1) z token strs =
      if token.Data = "th" ∧ token.Typ = TokenType.EndTagToken then Run.ret (strs, z)
      else if token.Typ = TokenType.ErrorToken then Run.ret (strs, z)
      else parseTableTitleLoop n z.advance.2 z.advance.1
        (if token.Typ = TokenType.TextToken ∧ (TrimSpace token.String).length > 0 then
          strs ++ [TrimSpace token.String]
        else strs) := rfl

theorem parseTableHeadingLoop_succ (n : Nat) (z : Tokenizer) (token : Token)
    (retData : List String) :
    parseTableHeadingLoop (n + 1) z token retData =
      if token.Data = "tr" ∧ token.Typ = TokenType.EndTagToken then
        Run.ret (Except.ok retData, z)
      else if token.Typ = TokenType.ErrorToken then Run.ret (Except.error doneParsing, z)
      else if token.Data = "th" ∧ token.Typ = TokenType.StartTagToken then
        (parseTableTitle n z).bind fun r =>
          parseTableHeadingLoop n r.2.advance.2 r.2.advance.1
            (if r.1.length > 0 then retData ++ r.1 else retData)
      else parseTableHeadingLoop n z.advance.2 z.advance.1 retData := rfl

/-- The loop of `parseTableTitle`, about to read the inner tokens of a closed
cell, collects the texts that are not blank and stops at the `th` end tag. -/
theorem parseTableTitleLoop_cell (inner : List Token) :
    ∀ (more : List Token) (c : Token) (k : Bool) (fuel : Nat) (strs : List String),
      (∀ t ∈ inner, ¬ (t.Data = "th" ∧ t.Typ = TokenType.EndTagToken) ∧
        t.Typ ≠ TokenType.ErrorToken) →
      inner.length + 1 ≤ fuel →
      parseTableTitleLoop fuel (Tokenizer.mk (inner ++ endTag "th" :: more) c k).advance.2
          (Tokenizer.mk (inner ++ endTag "th" :: more) c k).advance.1 strs =
        Run.ret (strs ++ textsOf inner, ⟨more, endTag "th", true⟩) := by
  induction inner with
  | nil =>
    intro more c k fuel strs _ hf
    obtain ⟨n, rfl⟩ : ∃ n, fuel = n + 1 := ⟨fuel - 1, by simp at hf; omega⟩
    rw [parseTableTitleLoop_succ]
    simp [endTag, textsOf]
  | cons t ts ih =>
    intro more c k fuel strs h hf
    obtain ⟨n, rfl⟩ : ∃ n, fuel = n + 1 := ⟨fuel - 1, by simp at hf; omega⟩
    obtain ⟨h1, h2⟩ := h t (List.mem_cons_self _ _)
    rw [parseTableTitleLoop_succ]
    simp only [List.cons_append, advance_cons]
    rw [if_neg h1, if_neg h2, ih more t true n _
      (fun t2 ht2 => h t2 (List.mem_cons_of_mem _ ht2)) (by simp at hf; omega)]
    by_cases h3 : t.Typ = TokenType.TextToken ∧ (TrimSpace t.String).length > 0
    · simp [textsOf, List.filterMap_cons, h3]
    · simp only [textsOf, List.filterMap_cons, h3, if_false]

/-- The function `parseTableTitle` on a closed cell whose start tag has just
been read. -/
theorem parseTableTitle_cell (attr : List Attribute) (inner more : List Token) (fuel : Nat)
    (h : ∀ t ∈ inner, ¬ (t.Data = "th" ∧ t.Typ = TokenType.EndTagToken) ∧
      t.Typ ≠ TokenType.ErrorToken)
    (hf : inner.length + 2 ≤ fuel) :
    parseTableTitle fuel ⟨inner ++ endTag "th" :: more, startTag "th" attr, true⟩ =
      Run.ret (textsOf inner, ⟨more, endTag "th", true⟩) := by
  obtain ⟨n, rfl⟩ : ∃ n, fuel = n + 1 := ⟨fuel - 1, by omega⟩
  unfold parseTableTitle
  simp only [token_taken, startTag, ne_eq, not_true_eq_false, false_and, if_false]
  rw [parseTableTitleLoop_succ]
  simp only [reduceCtorEq, and_false, if_false, String.reduceEq, false_and]
  have := parseTableTitleLoop_cell inner more ⟨TokenType.StartTagToken, "th", attr⟩ true n []
    h (by omega)
  simpa using this

theorem length_flatMap_cons_item (i : HeadingItem) (items : List HeadingItem) :
    ((i :: items).flatMap HeadingItem.tokens).length =
      i.tokens.length + (items.flatMap HeadingItem.tokens).length := by
  simp [List.flatMap_cons]

/-- The second loop of `parseTableHeading`, about to read the pieces of a well
formed row, collects the texts of the `th` cells and stops at the `tr` end
tag. -/
theorem parseTableHeadingLoop_items (items : List HeadingItem) :
    ∀ (more : List Token) (c : Token) (k : Bool) (fuel : Nat) (retData : List String),
      (∀ i ∈ items, i.wellFormed) →
      (items.flatMap HeadingItem.tokens).length + 1 ≤ fuel →
      parseTableHeadingLoop fuel
          (Tokenizer.mk (items.flatMap HeadingItem.tokens ++ endTag "tr" :: more) c k).advance.2
          (Tokenizer.mk (items.flatMap HeadingItem.tokens ++ endTag "tr" :: more) c k).advance.1
          retData =
        Run.ret (Except.ok (retData ++ items.flatMap HeadingItem.texts),
          ⟨more, endTag "tr", true⟩) := by
  induction items with
  | nil =>
    intro more c k fuel retData _ hf
    obtain ⟨n, rfl⟩ : ∃ n, fuel = n + 1 := ⟨fuel - 1, by omega⟩
    rw [parseTableHeadingLoop_succ]
    simp [endTag]
  | cons i items ih =>
    intro more c k fuel retData hwf hf
    have hi := hwf i (List.mem_cons_self _ _)
    have hitems : ∀ i ∈ items, i.wellFormed := fun i2 h2 => hwf i2 (List.mem_cons_of_mem _ h2)
    rw [length_flatMap_cons_item] at hf
    obtain ⟨n, rfl⟩ : ∃ n, fuel = n + 1 := ⟨fuel - 1, by omega⟩
    cases i with
    | other t =>
      obtain ⟨h1, h2, h3⟩ := hi
      simp only [HeadingItem.tokens, List.length_singleton] at hf
      simp only [List.flatMap_cons, HeadingItem.tokens, List.cons_append, List.nil_append,
        advance_cons, HeadingItem.texts]
      rw [parseTableHeadingLoop_succ, if_neg h2, if_neg h3, if_neg h1,
        ih more t true n retData hitems (by omega)]
    | cell attr inner =>
      simp only [HeadingItem.tokens, List.length_cons, List.length_append,
        List.length_singleton] at hf
      have ht := parseTableTitle_cell attr inner
        (items.flatMap HeadingItem.tokens ++ endTag "tr" :: more) n hi (by omega)
      simp only [List.flatMap_cons, HeadingItem.tokens, List.cons_append, List.append_assoc,
        List.nil_append, advance_cons, HeadingItem.texts]
      rw [parseTableHeadingLoop_succ]
      simp only [startTag, reduceCtorEq, and_false, if_false, and_self, if_true,
        String.reduceEq, false_and] at ht ⊢
      rw [ht]
      simp only [bind_ret]
      rw [ih more (endTag "th") true n _ hitems (by omega)]
      by_cases hl : (textsOf inner).length > 0
      · simp [hl]
      · have : textsOf inner = [] := List.length_eq_zero.mp (by omega)
        simp [this]

/-- The first loop passes over the tokens in front of a row and finds its `tr`
start tag. -/
theorem seekRowLoop_pre (pre : List Token) :
    ∀ (ra : List Attribute) (more : List Token) (c : Token) (k : Bool) (token : Token)
      (fuel : Nat),
      (∀ t ∈ pre, beforeRow t) →
      ¬ (token.Typ = TokenType.StartTagToken ∧ token.Data = "tr") →
      pre.length + 2 ≤ fuel →
      seekRowLoop fuel ⟨pre ++ startTag "tr" ra :: more, c, k⟩ token =
        Run.ret (some (startTag "tr" ra), ⟨more, startTag "tr" ra, true⟩) := by
  induction pre with
  | nil =>
    intro ra more c k token fuel _ ht hf
    obtain ⟨n, rfl⟩ : ∃ n, fuel = n + 2 := ⟨fuel - 2, by simp at hf; omega⟩
    exact seekRowLoop_next ra more c k token n ht
  | cons t ts ih =>
    intro ra more c k token fuel h ht hf
    obtain ⟨n, rfl⟩ : ∃ n, fuel = n + 1 := ⟨fuel - 1, by simp at hf; omega⟩
    obtain ⟨h1, h2⟩ := h t (List.mem_cons_self _ _)
    rw [seekRowLoop_succ, if_neg ht]
    simp only [List.cons_append, next_cons, advance_cons]
    rw [if_neg h2]
    exact ih ra more t true t n (fun t2 ht2 => h t2 (List.mem_cons_of_mem _ ht2)) h1
      (by simp at hf; omega)

theorem token_not_row (rest : List Token) (c : Token) (k : Bool)
    (hcur : k = true ∨ ¬ (c.Typ = TokenType.StartTagToken ∧ c.Data = "tr")) :
    ¬ ((Tokenizer.mk rest c k).Token.1.Typ = TokenType.StartTagToken ∧
      (Tokenizer.mk rest c k).Token.1.Data = "tr") ∧
    (Tokenizer.mk rest c k).Token.2 = ⟨rest, c, true⟩ := by
  cases k with
  | true => simp
  | false =>
    rcases hcur with h | h
    · exact absurd h (by decide)
    · simp only [token_fresh, and_true]; exact h

/-- One call of `parseTableHeading` in front of a well formed row returns the
heading texts of the row and stops at its `tr` end tag. -/
theorem parseTableHeading_row (pre : List Token) (ra : List Attribute)
    (items : List HeadingItem) (more : List Token) (c : Token) (k : Bool) (fuel : Nat)
    (hcur : k = true ∨ ¬ (c.Typ = TokenType.StartTagToken ∧ c.Data = "tr"))
    (hpre : ∀ t ∈ pre, beforeRow t) (hitems : ∀ i ∈ items, i.wellFormed)
    (hf : pre.length + (items.flatMap HeadingItem.tokens).length + 3 ≤ fuel) :
    parseTableHeading fuel
        ⟨pre ++ startTag "tr" ra :: (items.flatMap HeadingItem.tokens ++ endTag "tr" :: more),
          c, k⟩ =
      Run.ret (Except.ok (items.flatMap HeadingItem.texts), ⟨more, endTag "tr", true⟩) := by
  obtain ⟨hz, hz2⟩ := token_not_row
    (pre ++ startTag "tr" ra :: (items.flatMap HeadingItem.tokens ++ endTag "tr" :: more))
    c k hcur
  unfold parseTableHeading
  rw [hz2, seekRowLoop_pre pre ra _ c true _ fuel hpre hz (by omega)]
  simp only [bind_ret]
  obtain ⟨n, rfl⟩ : ∃ n, fuel = n + 1 := ⟨fuel - 1, by omega⟩
  rw [parseTableHeadingLoop_succ]
  simp only [startTag, reduceCtorEq, and_false, if_false, String.reduceEq, false_and]
  have := parseTableHeadingLoop_items items more ⟨TokenType.StartTagToken, "tr", ra⟩ true n []
    hitems (by omega)
  simpa using this

/-! ### C11 -/

/-- C11, as amended: in front of a row whose `th` cells are all closed inside
the row, that is tokens that hold no `tr` start tag, then `<tr>`, then pieces
that are either a token outside the cells (not a `th` start tag, not `</tr>`)
or a cell `<th>`, inner tokens without `</th>`, `</th>`, then `</tr>`,
`parseTableHeading` returns with a nil error, in document order, the text
tokens inside the `th` cells as `Token.String` renders them, trimmed, the blank
ones left out, and nothing for the tokens outside the cells; it stops at the
`tr` end tag of the row. -/
theorem parseTableHeading_heading_texts (pre : List Token) (ra : List Attribute)
    (items : List HeadingItem) (more : List Token) (c : Token) (k : Bool) (fuel : Nat)
    (hcur : k = true ∨ ¬ (c.Typ = TokenType.StartTagToken ∧ c.Data = "tr"))
    (hpre : ∀ t ∈ pre, beforeRow t) (hitems : ∀ i ∈ items, i.wellFormed)
    (hf : pre.length + (items.flatMap HeadingItem.tokens).length + 3 ≤ fuel) :
    parseTableHeading fuel
        ⟨pre ++ startTag "tr" ra :: (items.flatMap HeadingItem.tokens ++ endTag "tr" :: more),
          c, k⟩ =
      Run.ret (Except.ok (items.flatMap HeadingItem.texts), ⟨more, endTag "tr", true⟩) :=
  parseTableHeading_row pre ra items more c k fuel hcur hpre hitems hf

/-- C11, witness: the page `<table><tr><th>12 Months Ended<br> USD ($)</th>
<td>x</td><th> </th></tr><tr>`: the cell with two texts gives two entries, the
`td` cell and the blank `th` cell give none. -/
theorem parseTableHeading_heading_texts_witness :
    parseTableHeading 20
        ⟨[startTag "table" []] ++ startTag "tr" [] ::
          ([HeadingItem.cell [⟨"class", "th"⟩]
              [textToken "12 Months Ended", startTag "br" [], textToken " USD ($) "],
            HeadingItem.other (startTag "td" []), HeadingItem.other (textToken "x"),
            HeadingItem.other (endTag "td"),
            HeadingItem.cell [] [textToken " "]].flatMap HeadingItem.tokens ++
              endTag "tr" :: [startTag "tr" []]),
          errorToken, false⟩ =
      Run.ret (Except.ok ["12 Months Ended", "USD ($)"],
        ⟨[startTag "tr" []], endTag "tr", true⟩) :=
  parseTableHeading_heading_texts [startTag "table" []] []
    [HeadingItem.cell [⟨"class", "th"⟩]
        [textToken "12 Months Ended", startTag "br" [], textToken " USD ($) "],
      HeadingItem.other (startTag "td" []), HeadingItem.other (textToken "x"),
      HeadingItem.other (endTag "td"),
      HeadingItem.cell [] [textToken " "]]
    [startTag "tr" []] errorToken false 20 (Or.inr (by decide)) (by decide)
    (by
      intro i hi
      simp only [List.mem_cons, List.mem_singleton, List.not_mem_nil, or_false] at hi
      rcases hi with rfl | rfl | rfl | rfl | rfl <;>
        simp [HeadingItem.wellFormed, textToken, startTag, endTag])
    (by decide)

/-- C11, counterexample: the page `<tr><th>A</tr>` holds a complete row, and
`parseTableHeading` returns the error `Done with parsing` on it and no list:
`parseTableTitle` reads on to the end of the input for the `th` end tag. -/
theorem parseTableHeading_unclosed_cell_counterexample :
    ¬ ∀ (ra : List Attribute) (body more : List Token) (fuel : Nat),
        body.length + 3 ≤ fuel →
        ∃ (data : List String) (z2 : Tokenizer),
          parseTableHeading fuel
              (NewTokenizer (startTag "tr" ra :: (body ++ endTag "tr" :: more))) =
            Run.ret (Except.ok data, z2) := by
  intro h
  obtain ⟨data, z2, hz2⟩ := h [] [startTag "th" [], textToken "A"] [] 6 (by decide)
  have e : parseTableHeading 6
      (NewTokenizer (startTag "tr" [] ::
        ([startTag "th" [], textToken "A"] ++ endTag "tr" :: []))) =
      Run.ret (Except.error doneParsing, ⟨[], errorToken, true⟩) := rfl
  have e2 := e.symm.trans hz2
  simp at e2

/-! ### The statement parser -/

theorem finReportLoop_succ_ok {V E F FT DT : Type} [DecidableEq FT]
    (x : String → Option String) (R : ReportFuncs V E F FT DT) (scales : List (E × F))
    (t : DT) (n : Nat) (z : Tokenizer) (data : List String) (fr : financialReport V E F) :
    finReportLoop x R scales t (n + 1) z (Except.ok data) fr =
      (parseTableRow x n z true).bind fun r =>
        finReportLoop x R scales t n r.2 r.1 (finReportRow R scales t fr data).1 := rfl

theorem finReportLoop_succ_error {V E F FT DT : Type} [DecidableEq FT]
    (x : String → Option String) (R : ReportFuncs V E F FT DT) (scales : List (E × F))
    (t : DT) (n : Nat) (z : Tokenizer) (e : String) (fr : financialReport V E F) :
    finReportLoop x R scales t (n + 1) z (Except.error e) fr = Run.ret fr := rfl

/-- The calls of `setData` for the cells of a row: the cells that are not
empty, from the left, up to the first call that returns nil. -/
theorem setDataLoop_calls {V E F FT DT : Type} (R : ReportFuncs V E F FT DT) (finType : FT)
    (scales : List (E × F)) (t : DT) (strs : List String) :
    ∀ (fr : financialReport V E F) (calls : List (String × Bool)),
      ∃ log, (setDataLoop R finType scales t strs fr calls).2 = calls ++ log ∧
        log.map Prod.fst <+: strs.filter (fun s => s.length > 0) ∧
        (∀ pre e post, log = pre ++ e :: post → e.2 = true → post = []) ∧
        ((∀ e ∈ log, e.2 = false) → log.map Prod.fst = strs.filter (fun s => s.length > 0)) := by
  induction strs with
  | nil =>
    intro fr calls
    exact ⟨[], by simp [setDataLoop], by simp, by simp, by simp⟩
  | cons str strs ih =>
    intro fr calls
    by_cases hlen : str.length > 0
    · by_cases hnil : (R.setData fr finType str scales t).2.isNone = true
      · refine ⟨[(str, true)], by simp [setDataLoop, hlen, hnil], ?_, ?_, ?_⟩
        · simp only [List.map_cons, List.map_nil, List.filter_cons, hlen, decide_True, if_true]
          exact (List.prefix_cons_inj str).mpr ⟨_, List.nil_append _⟩
        · intro pre e post h _
          cases pre with
          | nil => simp at h; exact h.2
          | cons p ps => simp at h
        · intro h
          have := h (str, true) (by simp)
          simp at this
      · obtain ⟨log, h1, h2, h3, h4⟩ := ih (R.setData fr finType str scales t).1
          (calls ++ [(str, false)])
        refine ⟨(str, false) :: log, ?_, ?_, ?_, ?_⟩
        · simp only [setDataLoop, hlen, if_true, hnil]
          simpa using h1
        · simp only [List.map_cons, List.filter_cons, hlen, decide_True, if_true]
          exact (List.prefix_cons_inj str).mpr h2
        · intro pre e post h he
          cases pre with
          | nil =>
            simp only [List.nil_append, List.cons.injEq] at h
            rw [← h.1] at he
            simp at he
          | cons p ps =>
            simp only [List.cons_append, List.cons.injEq] at h
            exact h3 ps e post h.2 he
        · intro h
          simp only [List.map_cons, List.filter_cons, hlen, decide_True, if_true]
          rw [h4 (fun e he => h e (List.mem_cons_of_mem _ he))]
    · obtain ⟨log, h1, h2, h3, h4⟩ := ih fr calls
      refine ⟨log, ?_, ?_, h3, ?_⟩
      · simp only [setDataLoop, hlen, if_false]
        exact h1
      · simpa [List.filter_cons, hlen] using h2
      · intro h
        simpa [List.filter_cons, hlen] using h4 h

/-! ### C12 -/

/-- C12: the loop of `finReportParser` runs its body `finReportRow` on every
row `data` that `parseTableRow` returned.  When the concept of the first cell
is `finDataUnknown`, `setData` is not called and the record is left as it was.
Otherwise the cells `setData` is applied to are, in order, the cells after the
first from the left (the empty ones skipped; `parseTableRow` returns none), no
call follows a call that returned nil, and when no call returned nil every
cell after the first was passed to `setData`. -/
theorem finReportRow_setData_calls {V E F FT DT : Type} [DecidableEq FT]
    (getFinDataXBRLTag : String → Option String) (R : ReportFuncs V E F FT DT)
    (scales : List (E × F)) (t : DT) (fr : financialReport V E F) (data : List String)
    (n : Nat) (z : Tokenizer) :
    finReportLoop getFinDataXBRLTag R scales t (n + 1) z (Except.ok data) fr =
        ((parseTableRow getFinDataXBRLTag n z true).bind fun r =>
          finReportLoop getFinDataXBRLTag R scales t n r.2 r.1
            (finReportRow R scales t fr data).1) ∧
      (R.getFinDataTypeFromXBRLTag (data.getD 0 "") = R.finDataUnknown →
        finReportRow R scales t fr data = (fr, [])) ∧
      (data.length > 0 → R.getFinDataTypeFromXBRLTag (data.getD 0 "") ≠ R.finDataUnknown →
        (finReportRow R scales t fr data).2.map Prod.fst <+:
            (data.drop 1).filter (fun s => s.length > 0) ∧
          (∀ pre e post, (finReportRow R scales t fr data).2 = pre ++ e :: post →
            e.2 = true → post = []) ∧
          ((∀ e ∈ (finReportRow R scales t fr data).2, e.2 = false) →
            (finReportRow R scales t fr data).2.map Prod.fst =
              (data.drop 1).filter (fun s => s.length > 0))) := by
  refine ⟨rfl, ?_, ?_⟩
  · intro h
    unfold finReportRow
    split
    · rw [if_neg (by simpa using h)]
    · rfl
  · intro hlen hty
    obtain ⟨log, h1, h2, h3, h4⟩ := setDataLoop_calls R
      (R.getFinDataTypeFromXBRLTag (data.getD 0 "")) scales t (data.drop 1) fr []
    have e : (finReportRow R scales t fr data).2 = log := by
      unfold finReportRow
      rw [if_pos hlen, if_pos hty, h1]
      rfl
    rw [e]
    exact ⟨h2, h3, h4⟩

/-- C12, witness: on the row `us-gaap_Revenues`, `[1]`, `100`, `90` the note
is refused, the value `100` is accepted and `90` is not passed to `setData`;
on the row `Statement`, `5` of an unknown concept nothing is called. -/
theorem finReportRow_setData_calls_witness :
    finReportRow sampleFuncs [] 0 sampleReport ["us-gaap_Revenues", "[1]", "100", "90"] =
        (⟨[("Revenues", "100")], [("Shares", 7)]⟩, [("[1]", false), ("100", true)]) ∧
      finReportRow sampleFuncs [] 0 sampleReport ["Statement", "5"] = (sampleReport, []) ∧
      (∀ pre e post,
        (finReportRow sampleFuncs [] 0 sampleReport
          ["us-gaap_Revenues", "[1]", "100", "90"]).2 = pre ++ e :: post →
        e.2 = true → post = []) :=
  ⟨rfl,
    (finReportRow_setData_calls (fun _ => none) sampleFuncs [] 0 sampleReport
      ["Statement", "5"] 0 (NewTokenizer [])).2.1 (by decide),
    ((finReportRow_setData_calls (fun _ => none) sampleFuncs [] 0 sampleReport
      ["us-gaap_Revenues", "[1]", "100", "90"] 0 (NewTokenizer [])).2.2 (by decide)
      (by decide)).2.1⟩

/-! ### The heading walker returns -/

theorem parseTableTitleLoop_mono (n : Nat) :
    ∀ (z : Tokenizer) (token : Token) (strs : List String),
    parseTableTitleLoop n z token strs ≠ Run.fuelOut →
    parseTableTitleLoop (n + 1) z token strs = parseTableTitleLoop n z token strs := by
  induction n with
  | zero => intro z token strs h; exact absurd rfl h
  | succ n ih =>
    intro z token strs h
    rw [parseTableTitleLoop_succ] at h
    rw [parseTableTitleLoop_succ (n + 1) z token strs, parseTableTitleLoop_succ n z token strs]
    split
    · rfl
    · rename_i h1
      rw [if_neg h1] at h
      split
      · rfl
      · rename_i h2
        rw [if_neg h2] at h
        exact ih _ _ _ h

theorem parseTableTitle_mono (n : Nat) (z : Tokenizer)
    (h : parseTableTitle n z ≠ Run.fuelOut) :
    parseTableTitle (n + 1) z = parseTableTitle n z := by
  unfold parseTableTitle at h ⊢
  split
  · rfl
  · rename_i h1
    rw [if_neg h1] at h
    exact parseTableTitleLoop_mono n _ _ _ h

theorem parseTableHeadingLoop_mono (n : Nat) :
    ∀ (z : Tokenizer) (token : Token) (retData : List String),
    parseTableHeadingLoop n z token retData ≠ Run.fuelOut →
    parseTableHeadingLoop (n + 1) z token retData = parseTableHeadingLoop n z token retData := by
  induction n with
  | zero => intro z token retData h; exact absurd rfl h
  | succ n ih =>
    intro z token retData h
    rw [parseTableHeadingLoop_succ] at h
    rw [parseTableHeadingLoop_succ (n + 1) z token retData,
      parseTableHeadingLoop_succ n z token retData]
    split
    · rfl
    · rename_i h1
      rw [if_neg h1] at h
      split
      · rfl
      · rename_i h2
        rw [if_neg h2] at h
        split
        · rename_i h3
          rw [if_pos h3] at h
          exact bind_mono _ _ _ _ (parseTableTitle_mono n z) (fun a ha => ih _ _ _ ha) h
        · rename_i h3
          rw [if_neg h3] at h
          exact ih _ _ _ h

theorem parseTableHeading_mono (z : Tokenizer) (n : Nat)
    (h : parseTableHeading n z ≠ Run.fuelOut) :
    parseTableHeading (n + 1) z = parseTableHeading n z := by
  unfold parseTableHeading at h ⊢
  refine bind_mono _ _ _ _ (seekRowLoop_mono n _ _) ?_ h
  intro a ha
  cases hfound : a.1 with
  | none => rfl
  | some token =>
    simp only [hfound] at ha ⊢
    exact parseTableHeadingLoop_mono n _ _ _ ha

/-- A call of `parseTableHeading` that returns with some fuel returns the same
with any larger fuel. -/
theorem parseTableHeading_mono_le (z : Tokenizer) (n m : Nat) (hnm : n ≤ m)
    (h : parseTableHeading n z ≠ Run.fuelOut) :
    parseTableHeading m z = parseTableHeading n z :=
  mono_le (fun k => parseTableHeading k z) (fun k => parseTableHeading_mono z k) n m hnm h

/-- The loop of `parseTableTitle` returns. -/
theorem parseTableTitleLoop_returns (rest : List Token) :
    ∀ (c : Token) (k : Bool) (fuel : Nat) (strs : List String), rest.length + 1 ≤ fuel →
      ∃ out z2, parseTableTitleLoop fuel (Tokenizer.mk rest c k).advance.2
          (Tokenizer.mk rest c k).advance.1 strs = Run.ret (out, z2) ∧ z2.rest <:+ rest := by
  induction rest with
  | nil =>
    intro c k fuel strs hf
    obtain ⟨n, rfl⟩ : ∃ n, fuel = n + 1 := ⟨fuel - 1, by simp at hf; omega⟩
    rw [parseTableTitleLoop_succ]
    exact ⟨strs, ⟨[], errorToken, true⟩, by simp [errorToken], List.suffix_refl _⟩
  | cons t ts ih =>
    intro c k fuel strs hf
    obtain ⟨n, rfl⟩ : ∃ n, fuel = n + 1 := ⟨fuel - 1, by simp at hf; omega⟩
    rw [parseTableTitleLoop_succ]
    simp only [advance_cons]
    split
    · exact ⟨_, _, rfl, List.suffix_cons _ _⟩
    · split
      · exact ⟨_, _, rfl, List.suffix_cons _ _⟩
      · obtain ⟨out, z2, h1, h2⟩ := ih t true n _ (by simp at hf; omega)
        exact ⟨out, z2, h1, h2.trans (List.suffix_cons _ _)⟩

/-- The function `parseTableTitle`, called at a start tag, returns. -/
theorem parseTableTitle_returns (rest : List Token) (cur : Token) (fuel : Nat)
    (hcur : cur.Typ = TokenType.StartTagToken) (hf : rest.length + 2 ≤ fuel) :
    ∃ out z2, parseTableTitle fuel ⟨rest, cur, true⟩ = Run.ret (out, z2) ∧
      z2.rest <:+ rest := by
  obtain ⟨n, rfl⟩ : ∃ n, fuel = n + 1 := ⟨fuel - 1, by omega⟩
  unfold parseTableTitle
  simp only [token_taken, hcur, ne_eq, not_true_eq_false, false_and, if_false]
  rw [parseTableTitleLoop_succ]
  simp only [reduceCtorEq, and_false, if_false, String.reduceEq, false_and]
  exact parseTableTitleLoop_returns rest cur true n _ (by omega)

/-- The second loop of `parseTableHeading` returns: the error `Done with
parsing`, or a list, and then one of the tokens it read is a `tr` end tag. -/
theorem parseTableHeadingLoop_returns (m : Nat) :
    ∀ (rest : List Token), rest.length ≤ m →
      ∀ (c : Token) (k : Bool) (fuel : Nat) (retData : List String),
      rest.length + 2 ≤ fuel →
      ∃ r z2, parseTableHeadingLoop fuel (Tokenizer.mk rest c k).advance.2
          (Tokenizer.mk rest c k).advance.1 retData = Run.ret (r, z2) ∧
        (r = Except.error doneParsing ∨
          ∃ data, r = Except.ok data ∧
            ∃ e ∈ rest, e.Data = "tr" ∧ e.Typ = TokenType.EndTagToken) ∧
        z2.rest <:+ rest := by
  induction m with
  | zero =>
    intro rest hm c k fuel retData hf
    have hr : rest = [] := List.length_eq_zero.mp (by omega)
    subst hr
    obtain ⟨n, rfl⟩ : ∃ n, fuel = n + 1 := ⟨fuel - 1, by simp at hf; omega⟩
    rw [parseTableHeadingLoop_succ]
    exact ⟨_, ⟨[], errorToken, true⟩, by simp [errorToken], Or.inl rfl, List.suffix_refl _⟩
  | succ m ih =>
    intro rest hm c k fuel retData hf
    cases rest with
    | nil =>
      obtain ⟨n, rfl⟩ : ∃ n, fuel = n + 1 := ⟨fuel - 1, by simp at hf; omega⟩
      rw [parseTableHeadingLoop_succ]
      exact ⟨_, ⟨[], errorToken, true⟩, by simp [errorToken], Or.inl rfl, List.suffix_refl _⟩
    | cons t ts =>
      obtain ⟨n, rfl⟩ : ∃ n, fuel = n + 1 := ⟨fuel - 1, by simp at hf; omega⟩
      have hts : ts.length ≤ m := by simp at hm; omega
      have hn : ts.length + 2 ≤ n := by simp at hf; omega
      have hnext : ∀ (rest2 : List Token) (c2 : Token) (k2 : Bool) (ret2 : List String),
          rest2 <:+ ts →
          ∃ r z2, parseTableHeadingLoop n (Tokenizer.mk rest2 c2 k2).advance.2
              (Tokenizer.mk rest2 c2 k2).advance.1 ret2 = Run.ret (r, z2) ∧
            (r = Except.error doneParsing ∨
              ∃ data, r = Except.ok data ∧
                ∃ e ∈ t :: ts, e.Data = "tr" ∧ e.Typ = TokenType.EndTagToken) ∧
            z2.rest <:+ t :: ts := by
        intro rest2 c2 k2 ret2 hs
        have hl := hs.length_le
        obtain ⟨r, z2, h1, h2, h3⟩ := ih rest2 (by omega) c2 k2 n ret2 (by omega)
        refine ⟨r, z2, h1, ?_, (h3.trans hs).trans (List.suffix_cons _ _)⟩
        rcases h2 with h2 | ⟨data, hd, e, he, hee⟩
        · exact Or.inl h2
        · exact Or.inr ⟨data, hd, e, List.mem_cons_of_mem _ (hs.subset he), hee⟩
      rw [parseTableHeadingLoop_succ]
      simp only [advance_cons]
      split
      · rename_i h1
        exact ⟨_, _, rfl, Or.inr ⟨retData, rfl, t, List.mem_cons_self _ _, h1⟩,
          List.suffix_cons _ _⟩
      · split
        · exact ⟨_, _, rfl, Or.inl rfl, List.suffix_cons _ _⟩
        · split
          · rename_i h3
            obtain ⟨out, z2, h4, h5⟩ := parseTableTitle_returns ts t n h3.2 hn
            rw [h4]
            simp only [bind_ret]
            exact hnext z2.rest z2.cur z2.taken _ h5
          · exact hnext ts t true _ (List.suffix_refl _)

/-- The function `parseTableHeading` returns on every token stream: the error
`Done with parsing`, or a list, and then one of the tokens it read is a `tr`
end tag. -/
theorem parseTableHeading_returns (z : Tokenizer) (fuel : Nat)
    (hf : z.rest.length + 3 ≤ fuel) :
    ∃ r z2, parseTableHeading fuel z = Run.ret (r, z2) ∧
      (r = Except.error doneParsing ∨
        ∃ data, r = Except.ok data ∧
          ∃ e ∈ z.rest, e.Data = "tr" ∧ e.Typ = TokenType.EndTagToken) ∧
      z2.rest <:+ z.rest := by
  unfold parseTableHeading
  have hrest : z.Token.2.rest = z.rest := by
    unfold Tokenizer.Token; split <;> rfl
  obtain ⟨found, z1, h1, h2, h3⟩ := seekRowLoop_returns z.Token.2.rest z.Token.2.cur
    z.Token.2.taken z.Token.1 fuel (by rw [hrest]; omega)
  rw [h1]
  simp only [bind_ret]
  rw [hrest] at h3
  cases found with
  | none => exact ⟨_, _, rfl, Or.inl rfl, h3⟩
  | some tok =>
    obtain ⟨ht1, ht2⟩ := h2 tok rfl
    obtain ⟨n, rfl⟩ : ∃ n, fuel = n + 1 := ⟨fuel - 1, by omega⟩
    simp only []
    rw [parseTableHeadingLoop_succ]
    simp only [ht1, ht2, reduceCtorEq, and_false, if_false, String.reduceEq, false_and]
    have hl := h3.length_le
    obtain ⟨r, z2, h4, h5, h6⟩ := parseTableHeadingLoop_returns z1.rest.length z1.rest
      (le_refl _) z1.cur z1.taken n [] (by omega)
    refine ⟨r, z2, h4, ?_, h6.trans h3⟩
    rcases h5 with h5 | ⟨data, hd, e, he, hee⟩
    · exact Or.inl h5
    · exact Or.inr ⟨data, hd, e, h3.subset he, hee⟩

/-! ### The statement parser returns -/

/-- The function `parseFilingScale` returns on every token stream, and the
mapping is empty when no token of the stream is a `tr` end tag. -/
theorem parseFilingScale_returns {V E F FT DT : Type} (R : ReportFuncs V E F FT DT)
    (z : Tokenizer) (t : DT) (fuel : Nat) (hf : z.rest.length + 3 ≤ fuel) :
    ∃ (scales : List (E × F)) (z2 : Tokenizer),
      parseFilingScale R fuel z t = Run.ret (scales, z2) ∧ z2.rest <:+ z.rest ∧
      ((∀ e ∈ z.rest, ¬ (e.Data = "tr" ∧ e.Typ = TokenType.EndTagToken)) → scales = []) := by
  obtain ⟨r, z2, h1, h2, h3⟩ := parseTableHeading_returns z fuel hf
  unfold parseFilingScale
  rw [h1]
  simp only [bind_ret]
  rcases h2 with h2 | ⟨data, hd, e, he, hee⟩
  · subst h2
    exact ⟨[], z2, rfl, h3, fun _ => rfl⟩
  · subst hd
    by_cases hl : data.length > 0
    · exact ⟨R.filingScale data t, z2, by simp [hl], h3, fun h => absurd hee (h e he)⟩
    · exact ⟨[], z2, by simp [hl], h3, fun _ => rfl⟩

/-- On a page all of whose anchors are closed the loop of `finReportParser`
returns. -/
theorem finReportLoop_returns {V E F FT DT : Type} [DecidableEq FT]
    (x : String → Option String) (R : ReportFuncs V E F FT DT) (scales : List (E × F))
    (t : DT) (m : Nat) :
    ∀ (z : Tokenizer) (res : Except String (List String)) (fr : financialReport V E F)
      (fuel : Nat), z.rest.length ≤ m → anchorsClosed z.rest →
      2 * z.rest.length + 4 ≤ fuel →
      ∃ fr2, finReportLoop x R scales t fuel z res fr = Run.ret fr2 := by
  induction m with
  | zero =>
    intro z res fr fuel hm hc hf
    obtain ⟨n, rfl⟩ : ∃ n, fuel = n + 1 := ⟨fuel - 1, by omega⟩
    cases res with
    | error e => exact ⟨fr, rfl⟩
    | ok data =>
      obtain ⟨r, z2, h1, h2, _⟩ := parseTableRow_returns x true z n (fun _ => hc) (by omega)
      rcases h2 with h2 | ⟨d2, _, hlt⟩
      · subst h2
        obtain ⟨k, rfl⟩ : ∃ k, n = k + 1 := ⟨n - 1, by omega⟩
        rw [finReportLoop_succ_ok, h1]
        exact ⟨_, rfl⟩
      · omega
  | succ m ih =>
    intro z res fr fuel hm hc hf
    obtain ⟨n, rfl⟩ : ∃ n, fuel = n + 1 := ⟨fuel - 1, by omega⟩
    cases res with
    | error e => exact ⟨fr, rfl⟩
    | ok data =>
      obtain ⟨r, z2, h1, h2, h3⟩ := parseTableRow_returns x true z n (fun _ => hc) (by omega)
      rw [finReportLoop_succ_ok, h1]
      simp only [bind_ret]
      rcases h2 with h2 | ⟨d2, hd2, hlt⟩
      · subst h2
        obtain ⟨k, rfl⟩ : ∃ k, n = k + 1 := ⟨n - 1, by omega⟩
        exact ⟨_, rfl⟩
      · exact ih z2 r _ n (by omega) (anchorsClosed_suffix _ hc z2.rest h3) (by omega)

/-- When `finReportParser` returns, its error is nil and the field `Scales` of
the record is the mapping that `parseFilingScale` returned for the page. -/
theorem finReportParser_ret {V E F FT DT : Type} [DecidableEq FT]
    (x : String → Option String) (R : ReportFuncs V E F FT DT) (fuel : Nat)
    (page : List Token) (fr : financialReport V E F) (t : DT)
    (out : financialReport V E F × Option String)
    (h : finReportParser x R fuel page fr t = Run.ret out) :
    ∃ (scales : List (E × F)) (z1 : Tokenizer),
      parseFilingScale R fuel (NewTokenizer page) t = Run.ret (scales, z1) ∧
      out.1.Scales = scales ∧ out.2 = none := by
  unfold finReportParser at h
  obtain ⟨s, hs, h2⟩ := bind_eq_ret _ _ _ h
  obtain ⟨r, _, h3⟩ := bind_eq_ret _ _ _ h2
  obtain ⟨fr2, _, h4⟩ := bind_eq_ret _ _ _ h3
  simp only [Run.ret.injEq] at h4
  refine ⟨s.1, s.2, hs, ?_, ?_⟩
  · rw [← h4]
  · rw [← h4]

/-- On a page all of whose anchors are closed `finReportParser` returns, with a
nil error. -/
theorem finReportParser_returns {V E F FT DT : Type} [DecidableEq FT]
    (x : String → Option String) (R : ReportFuncs V E F FT DT) (fuel : Nat)
    (page : List Token) (fr : financialReport V E F) (t : DT)
    (hpage : anchorsClosed page) (hf : 2 * page.length + 4 ≤ fuel) :
    ∃ fr2, finReportParser x R fuel page fr t = Run.ret (fr2, none) := by
  obtain ⟨scales, z1, h1, h2, _⟩ := parseFilingScale_returns R (NewTokenizer page) t fuel
    (by simp only [NewTokenizer]; omega)
  have hz1 : z1.rest <:+ page := h2
  have hl1 := hz1.length_le
  obtain ⟨r, z2, h3, _, h5⟩ := parseTableRow_returns x true z1 fuel
    (fun _ => anchorsClosed_suffix _ hpage z1.rest hz1) (by omega)
  have hl2 := h5.length_le
  obtain ⟨fr2, h6⟩ := finReportLoop_returns x R scales t z2.rest.length z2 r fr fuel
    (le_refl _) (anchorsClosed_suffix _ hpage z2.rest (h5.trans hz1)) (by omega)
  unfold finReportParser
  rw [h1]
  simp only [bind_ret]
  rw [h3]
  simp only [bind_ret]
  rw [h6]
  exact ⟨_, rfl⟩

/-! ### The heading row of a statement -/

/-- The first loop on a stream that has no `tr` start tag reads to the end of
the input. -/
theorem seekRowLoop_none (pre : List Token) :
    ∀ (c : Token) (k : Bool) (token : Token) (fuel : Nat),
      (∀ t ∈ pre, beforeRow t) →
      ¬ (token.Typ = TokenType.StartTagToken ∧ token.Data = "tr") →
      pre.length + 1 ≤ fuel →
      seekRowLoop fuel ⟨pre, c, k⟩ token = Run.ret (none, ⟨[], errorToken, false⟩) := by
  induction pre with
  | nil =>
    intro c k token fuel _ ht hf
    obtain ⟨n, rfl⟩ : ∃ n, fuel = n + 1 := ⟨fuel - 1, by simp at hf; omega⟩
    exact seekRowLoop_end c k token n ht
  | cons t ts ih =>
    intro c k token fuel h ht hf
    obtain ⟨n, rfl⟩ : ∃ n, fuel = n + 1 := ⟨fuel - 1, by simp at hf; omega⟩
    obtain ⟨h1, h2⟩ := h t (List.mem_cons_self _ _)
    rw [seekRowLoop_succ, if_neg ht]
    simp only [next_cons, advance_cons]
    rw [if_neg h2]
    exact ih t true t n (fun t2 ht2 => h t2 (List.mem_cons_of_mem _ ht2)) h1
      (by simp at hf; omega)

/-- On a page without a `tr` start tag `parseFilingScale` returns the empty
mapping. -/
theorem parseFilingScale_no_row {V E F FT DT : Type} (R : ReportFuncs V E F FT DT)
    (page : List Token) (t : DT) (fuel : Nat) (hpage : ∀ e ∈ page, beforeRow e)
    (hf : page.length + 1 ≤ fuel) :
    parseFilingScale R fuel (NewTokenizer page) t =
      Run.ret ([], ⟨[], errorToken, false⟩) := by
  unfold parseFilingScale parseTableHeading
  simp only [NewTokenizer, token_fresh]
  rw [seekRowLoop_none page errorToken true errorToken fuel hpage (by simp [errorToken]) hf]
  rfl

/-- In front of a row whose `th` cells are closed `parseFilingScale` reads the
row, and returns the empty mapping when the row has no heading text and
`filingScale` of the heading texts else. -/
theorem parseFilingScale_row {V E F FT DT : Type} (R : ReportFuncs V E F FT DT)
    (pre : List Token) (ra : List Attribute) (items : List HeadingItem) (more : List Token)
    (c : Token) (k : Bool) (t : DT) (fuel : Nat)
    (hcur : k = true ∨ ¬ (c.Typ = TokenType.StartTagToken ∧ c.Data = "tr"))
    (hpre : ∀ e ∈ pre, beforeRow e) (hitems : ∀ i ∈ items, i.wellFormed)
    (hf : pre.length + (items.flatMap HeadingItem.tokens).length + 3 ≤ fuel) :
    parseFilingScale R fuel
        ⟨pre ++ startTag "tr" ra :: (items.flatMap HeadingItem.tokens ++ endTag "tr" :: more),
          c, k⟩ t =
      Run.ret (if (items.flatMap HeadingItem.texts).length > 0 then
          R.filingScale (items.flatMap HeadingItem.texts) t else [],
        ⟨more, endTag "tr", true⟩) := by
  unfold parseFilingScale
  rw [parseTableHeading_row pre ra items more c k fuel hcur hpre hitems hf]
  simp only [bind_ret]
  split <;> rfl

/-- After a heading row `finReportParser` reads its rows from the tokens that
follow the row. -/
theorem finReportParser_after_heading {V E F FT DT : Type} [DecidableEq FT]
    (x : String → Option String) (R : ReportFuncs V E F FT DT)
    (pre : List Token) (ra : List Attribute) (items : List HeadingItem) (more : List Token)
    (fr : financialReport V E F) (t : DT) (fuel : Nat)
    (hpre : ∀ e ∈ pre, beforeRow e) (hitems : ∀ i ∈ items, i.wellFormed)
    (hf : pre.length + (items.flatMap HeadingItem.tokens).length + 3 ≤ fuel) :
    finReportParser x R fuel
        (pre ++ startTag "tr" ra :: (items.flatMap HeadingItem.tokens ++ endTag "tr" :: more))
        fr t =
      (parseTableRow x fuel ⟨more, endTag "tr", true⟩ true).bind fun r =>
        (finReportLoop x R
          (if (items.flatMap HeadingItem.texts).length > 0 then
            R.filingScale (items.flatMap HeadingItem.texts) t else [])
          t fuel r.2 r.1 fr).bind fun fr2 =>
          Run.ret ({ fr2 with Scales :=
            (if (items.flatMap HeadingItem.texts).length > 0 then
              R.filingScale (items.flatMap HeadingItem.texts) t else []) }, none) := by
  unfold finReportParser
  rw [NewTokenizer, parseFilingScale_row R pre ra items more errorToken false t fuel
    (Or.inr (by simp [errorToken])) hpre hitems hf]
  rfl

/-- With link resolution on, `parseTableRow` does not return in front of a row
that holds, after some plain cells, a cell with an anchor that is left open. -/
theorem parseTableRow_open_anchor_at (x : String → Option String) (ra ta aa : List Attribute)
    (cells : List (List Attribute × String)) (rest : List Token) (c : Token) (k : Bool)
    (hcur : k = true ∨ ¬ (c.Typ = TokenType.StartTagToken ∧ c.Data = "tr"))
    (hta : cellParseFlag ta true = true)
    (hon : ∀ a ∈ aa, a.Key = "onclick" → x a.Val = none)
    (hin : ∀ t ∈ rest, ¬ isAnchorEnd t) (fuel : Nat) :
    parseTableRow x fuel
      ⟨startTag "tr" ra :: (cells.flatMap cellTokens ++
        startTag "td" ta :: startTag "a" aa :: rest), c, k⟩ true = Run.fuelOut := by
  obtain ⟨hz, hz2⟩ := token_not_row
    (startTag "tr" ra :: (cells.flatMap cellTokens ++
      startTag "td" ta :: startTag "a" aa :: rest)) c k hcur
  unfold parseTableRow
  rw [hz2]
  by_cases hs : seekRowLoop fuel
      ⟨startTag "tr" ra :: (cells.flatMap cellTokens ++
        startTag "td" ta :: startTag "a" aa :: rest), c, true⟩
      (Tokenizer.mk (startTag "tr" ra :: (cells.flatMap cellTokens ++
        startTag "td" ta :: startTag "a" aa :: rest)) c k).Token.1 =
      Run.fuelOut
  · rw [hs]; rfl
  · have e := seekRowLoop_next ra (cells.flatMap cellTokens ++
      startTag "td" ta :: startTag "a" aa :: rest) c true _ fuel hz
    rw [seekRowLoop_mono_le _ _ fuel (fuel + 2) (by omega) hs] at e
    rw [e]
    simp only [bind_ret]
    cases fuel with
    | zero => rfl
    | succ n =>
      rw [parseTableRowLoop_succ]
      simp only [startTag, reduceCtorEq, and_false, if_false, String.reduceEq, false_and]
      exact parseTableRowLoop_cells_open x true _
        (fun f c k r => parseTableRowLoop_open_anchor x ta aa rest hta hon hin f c k r)
        cells n _ _ _

/-- On a statement whose first data row holds a cell with an anchor that is
left open, `finReportParser` does not return. -/
theorem finReportParser_open_anchor {V E F FT DT : Type} [DecidableEq FT]
    (x : String → Option String) (R : ReportFuncs V E F FT DT)
    (pre : List Token) (ra : List Attribute) (items : List HeadingItem)
    (ra2 ta aa : List Attribute) (cells : List (List Attribute × String)) (rest : List Token)
    (fr : financialReport V E F) (t : DT)
    (hpre : ∀ e ∈ pre, beforeRow e) (hitems : ∀ i ∈ items, i.wellFormed)
    (hta : cellParseFlag ta true = true)
    (hon : ∀ a ∈ aa, a.Key = "onclick" → x a.Val = none)
    (hin : ∀ t ∈ rest, ¬ isAnchorEnd t) (fuel : Nat) :
    finReportParser x R fuel
        (pre ++ startTag "tr" ra :: (items.flatMap HeadingItem.tokens ++ endTag "tr" ::
          (startTag "tr" ra2 :: (cells.flatMap cellTokens ++
            startTag "td" ta :: startTag "a" aa :: rest))))
        fr t = Run.fuelOut := by
  unfold finReportParser parseFilingScale
  rw [NewTokenizer]
  by_cases hh : parseTableHeading fuel
      ⟨pre ++ startTag "tr" ra :: (items.flatMap HeadingItem.tokens ++ endTag "tr" ::
        (startTag "tr" ra2 :: (cells.flatMap cellTokens ++
          startTag "td" ta :: startTag "a" aa :: rest))), errorToken, false⟩ = Run.fuelOut
  · rw [hh]; rfl
  · have e := parseTableHeading_row pre ra items
      (startTag "tr" ra2 :: (cells.flatMap cellTokens ++
        startTag "td" ta :: startTag "a" aa :: rest)) errorToken false
      (fuel + (pre.length + (items.flatMap HeadingItem.tokens).length + 3))
      (Or.inr (by simp [errorToken])) hpre hitems (by omega)
    rw [parseTableHeading_mono_le _ fuel _ (by omega) hh] at e
    rw [e]
    simp only [bind_ret]
    split
    · simp only [bind_ret]
      rw [parseTableRow_open_anchor_at x ra2 ta aa cells rest (endTag "tr") true (Or.inl rfl)
        hta hon hin fuel]
      rfl
    · simp only [bind_ret]
      rw [parseTableRow_open_anchor_at x ra2 ta aa cells rest (endTag "tr") true (Or.inl rfl)
        hta hon hin fuel]
      rfl

/-! ### C15 -/

/-- C15, the failing input: the statement `<tr><th>Title</th></tr><tr><td>
<a href="/y">` is cut in the middle of its first data row, inside an anchor.
On it `finReportParser` does not return a nil error and the record: it does
not return at all, whatever the fuel, the record and the document type. -/
theorem finReportParser_truncated_row_never_returns {V E F FT DT : Type} [DecidableEq FT]
    (getFinDataXBRLTag : String → Option String) (R : ReportFuncs V E F FT DT)
    (fr : financialReport V E F) (t : DT) (fuel : Nat) :
    finReportParser getFinDataXBRLTag R fuel
        [startTag "tr" [], startTag "th" [], textToken "Title", endTag "th", endTag "tr",
          startTag "tr" [], startTag "td" [], startTag "a" [⟨"href", "/y"⟩]]
        fr t = Run.fuelOut :=
  finReportParser_open_anchor getFinDataXBRLTag R [] []
    [HeadingItem.cell [] [textToken "Title"]] [] [] [⟨"href", "/y"⟩] [] [] fr t
    (by simp) (by simp [HeadingItem.wellFormed, textToken]) rfl (by simp) (by simp) fuel

/-! ### C17 -/

/-- C17, as amended: `parseFilingScale` returns the empty mapping, without a
call of `filingScale`, on a page without a `tr` start tag and on a page
without a `tr` end tag.  In front of a first row whose `th` cells are closed
inside the row it reads exactly that row, to its `tr` end tag, and returns the
empty mapping when the row has no heading text and `filingScale` of the
heading texts and the document type else; `finReportParser` then reads its
data rows from the tokens after that row only. -/
theorem parseFilingScale_first_row {V E F FT DT : Type} [DecidableEq FT]
    (getFinDataXBRLTag : String → Option String) (R : ReportFuncs V E F FT DT) (t : DT) :
    (∀ (page : List Token) (fuel : Nat), (∀ e ∈ page, beforeRow e) → page.length + 1 ≤ fuel →
      parseFilingScale R fuel (NewTokenizer page) t = Run.ret ([], ⟨[], errorToken, false⟩)) ∧
    (∀ (page : List Token) (fuel : Nat),
      (∀ e ∈ page, ¬ (e.Data = "tr" ∧ e.Typ = TokenType.EndTagToken)) →
      page.length + 3 ≤ fuel →
      ∃ z2, parseFilingScale R fuel (NewTokenizer page) t = Run.ret ([], z2)) ∧
    (∀ (pre : List Token) (ra : List Attribute) (items : List HeadingItem)
      (more : List Token) (fuel : Nat),
      (∀ e ∈ pre, beforeRow e) → (∀ i ∈ items, i.wellFormed) →
      pre.length + (items.flatMap HeadingItem.tokens).length + 3 ≤ fuel →
      parseFilingScale R fuel
          (NewTokenizer (pre ++ startTag "tr" ra ::
            (items.flatMap HeadingItem.tokens ++ endTag "tr" :: more))) t =
        Run.ret (if (items.flatMap HeadingItem.texts).length > 0 then
            R.filingScale (items.flatMap HeadingItem.texts) t else [],
          ⟨more, endTag "tr", true⟩) ∧
      ∀ fr : financialReport V E F,
        finReportParser getFinDataXBRLTag R fuel
            (pre ++ startTag "tr" ra ::
              (items.flatMap HeadingItem.tokens ++ endTag "tr" :: more)) fr t =
          (parseTableRow getFinDataXBRLTag fuel ⟨more, endTag "tr", true⟩ true).bind fun r =>
            (finReportLoop getFinDataXBRLTag R
              (if (items.flatMap HeadingItem.texts).length > 0 then
                R.filingScale (items.flatMap HeadingItem.texts) t else [])
              t fuel r.2 r.1 fr).bind fun fr2 =>
              Run.ret ({ fr2 with Scales :=
                (if (items.flatMap HeadingItem.texts).length > 0 then
                  R.filingScale (items.flatMap HeadingItem.texts) t else []) }, none)) := by
  refine ⟨?_, ?_, ?_⟩
  · intro page fuel hpage hf
    exact parseFilingScale_no_row R page t fuel hpage hf
  · intro page fuel hpage hf
    obtain ⟨scales, z2, h1, _, h3⟩ := parseFilingScale_returns R (NewTokenizer page) t fuel hf
    rw [h3 hpage] at h1
    exact ⟨z2, h1⟩
  · intro pre ra items more fuel hpre hitems hf
    exact ⟨parseFilingScale_row R pre ra items more errorToken false t fuel
        (Or.inr (by simp [errorToken])) hpre hitems hf,
      fun fr => finReportParser_after_heading getFinDataXBRLTag R pre ra items more fr t fuel
        hpre hitems hf⟩

/-- C17, witness: the page `<table><tr><td>x</td><th>In Millions</th></tr>
<tr>`, for the document type 3. -/
theorem parseFilingScale_first_row_witness :
    parseFilingScale sampleFuncs 12
        (NewTokenizer ([startTag "table" []] ++ startTag "tr" [] ::
          ([HeadingItem.other (startTag "td" []), HeadingItem.other (textToken "x"),
            HeadingItem.other (endTag "td"),
            HeadingItem.cell [] [textToken "In Millions"]].flatMap HeadingItem.tokens ++
            endTag "tr" :: [startTag "tr" []]))) 3 =
      Run.ret ([("In Millions", 3)], ⟨[startTag "tr" []], endTag "tr", true⟩) :=
  ((parseFilingScale_first_row (fun _ => none) sampleFuncs 3).2.2 [startTag "table" []] []
    [HeadingItem.other (startTag "td" []), HeadingItem.other (textToken "x"),
      HeadingItem.other (endTag "td"), HeadingItem.cell [] [textToken "In Millions"]]
    [startTag "tr" []] 12 (by decide)
    (by
      intro i hi
      simp only [List.mem_cons, List.mem_singleton, List.not_mem_nil, or_false] at hi
      rcases hi with rfl | rfl | rfl | rfl <;>
        simp [HeadingItem.wellFormed, textToken, startTag, endTag])
    (by decide)).1

/-- C17, counterexample: on the page `<tr><th>A</tr><tr><td>x</td></tr>`
`parseFilingScale` does not read exactly the first row: it reads on to the end
of the input, so the cursor is not left at the `tr` end tag of the first row
and the second row is lost to `finReportParser`. -/
theorem parseFilingScale_reads_past_row_counterexample :
    ¬ ∀ (ra : List Attribute) (body more : List Token) (fuel : Nat),
        body.length + more.length + 3 ≤ fuel →
        (∀ e ∈ body, ¬ (e.Data = "tr" ∧ e.Typ = TokenType.EndTagToken) ∧
          e.Typ ≠ TokenType.ErrorToken) →
        ∃ scales, parseFilingScale sampleFuncs fuel
            (NewTokenizer (startTag "tr" ra :: (body ++ endTag "tr" :: more))) 0 =
          Run.ret (scales, ⟨more, endTag "tr", true⟩) := by
  intro h
  obtain ⟨scales, hs⟩ := h [] [startTag "th" [], textToken "A"]
    [startTag "tr" [], startTag "td" [], textToken "x", endTag "td", endTag "tr"] 12
    (by decide) (by simp [startTag, textToken])
  have e : parseFilingScale sampleFuncs 12
      (NewTokenizer (startTag "tr" [] :: ([startTag "th" [], textToken "A"] ++ endTag "tr" ::
        [startTag "tr" [], startTag "td" [], textToken "x", endTag "td", endTag "tr"]))) 0 =
      Run.ret ([], ⟨[], errorToken, true⟩) := rfl
  have e2 := e.symm.trans hs
  simp at e2

/-! ### C18 -/

theorem anchorsClosed_of_no_anchor (l : List Token)
    (h : ∀ t ∈ l, ¬ (t.Data = "a" ∧ t.Typ = TokenType.StartTagToken)) : anchorsClosed l := by
  induction l with
  | nil => trivial
  | cons t ts ih =>
    exact ⟨fun ha => absurd ha (h t (List.mem_cons_self _ _)),
      ih (fun t2 ht2 => h t2 (List.mem_cons_of_mem _ ht2))⟩

/-- C18: whenever `finReportParser` returns, the field `Scales` of the record
is the mapping that `parseFilingScale` resolved from the heading row of this
page, whatever the record held before.  On a page all of whose anchors are
closed it does return, with a nil error, and on a page without a `tr` end tag,
which has no heading row, the field is then the empty mapping. -/
theorem finReportParser_scales {V E F FT DT : Type} [DecidableEq FT]
    (getFinDataXBRLTag : String → Option String) (R : ReportFuncs V E F FT DT)
    (fuel : Nat) (page : List Token) (fr : financialReport V E F) (t : DT) :
    (∀ out, finReportParser getFinDataXBRLTag R fuel page fr t = Run.ret out →
      ∃ (scales : List (E × F)) (z1 : Tokenizer),
        parseFilingScale R fuel (NewTokenizer page) t = Run.ret (scales, z1) ∧
        out.1.Scales = scales) ∧
    (anchorsClosed page → 2 * page.length + 4 ≤ fuel →
      ∃ (fr2 : financialReport V E F) (scales : List (E × F)) (z1 : Tokenizer),
        parseFilingScale R fuel (NewTokenizer page) t = Run.ret (scales, z1) ∧
        finReportParser getFinDataXBRLTag R fuel page fr t = Run.ret (fr2, none) ∧
        fr2.Scales = scales ∧
        ((∀ e ∈ page, ¬ (e.Data = "tr" ∧ e.Typ = TokenType.EndTagToken)) →
          fr2.Scales = [])) := by
  constructor
  · intro out h
    obtain ⟨scales, z1, h1, h2, _⟩ := finReportParser_ret getFinDataXBRLTag R fuel page fr t out h
    exact ⟨scales, z1, h1, h2⟩
  · intro hpage hf
    obtain ⟨fr2, h⟩ := finReportParser_returns getFinDataXBRLTag R fuel page fr t hpage hf
    obtain ⟨scales, z1, h1, h2, _⟩ := finReportParser_ret getFinDataXBRLTag R fuel page fr t _ h
    obtain ⟨scales2, z2, h3, _, h5⟩ := parseFilingScale_returns R (NewTokenizer page) t fuel
      (by simp only [NewTokenizer]; omega)
    rw [h1] at h3
    simp only [Run.ret.injEq, Prod.mk.injEq] at h3
    refine ⟨fr2, scales, z1, h1, h, h2, fun hno => ?_⟩
    have h6 : fr2.Scales = scales := h2
    rw [h6, h3.1]
    exact h5 hno

/-- C18, witness: the page `sampleStatement` read into a record that holds the
mapping of an earlier document, and the page `<td>5</td>` without a heading. -/
theorem finReportParser_scales_witness :
    finReportParser (fun v => some v) sampleFuncs 70 sampleStatement sampleReport 0 =
        Run.ret (⟨[("Revenues", "100")], [("In Millions", 0)]⟩, none) ∧
      ∃ fr2,
        finReportParser (fun v => some v) sampleFuncs 70
            [startTag "td" [], textToken "5", endTag "td"] sampleReport 0 =
          Run.ret (fr2, none) ∧ fr2.Scales = [] := by
  refine ⟨rfl, ?_⟩
  obtain ⟨fr2, scales, z1, _, h2, _, h4⟩ :=
    (finReportParser_scales (fun v => some v) sampleFuncs 70
      [startTag "td" [], textToken "5", endTag "td"] sampleReport 0).2
      (anchorsClosed_of_no_anchor _ (by decide)) (by decide)
  exact ⟨fr2, h2, h4 (by decide)⟩

/-! ### C13 -/

set_option maxRecDepth 100000 in
/-- C13, the failing input: for the link of the filing 0000320193-18-000145 of
the filer 320193 `parseCikAndDocID` returns the filer id `320193` and the
string `000032019318145` of 15 characters, which is not the 18 digits
`000032019318000145` of the three groups: the verb `%010d` pads the first
group only, and the leading zeros of the third group are lost. -/
theorem parseCikAndDocID_drops_zeros :
    parseCikAndDocID
        "/cgi-bin/viewer?action=view&cik=320193&accession_number=0000320193-18-000145&xbrl_type=v" =
      ("320193", "000032019318145") ∧
    (parseCikAndDocID
        "/cgi-bin/viewer?action=view&cik=320193&accession_number=0000320193-18-000145&xbrl_type=v").2 ≠
      accessionDigits "0000320193" "18" "000145" := by
  decide

/-! ### The tokens that a call reads -/

theorem advance_rest_suffix (z : Tokenizer) : z.advance.2.rest <:+ z.rest := by
  obtain ⟨rest, c, k⟩ := z
  cases rest with
  | nil => exact List.suffix_refl _
  | cons t ts => exact List.suffix_cons _ _

theorem token_rest (z : Tokenizer) : z.Token.2.rest = z.rest := by
  unfold Tokenizer.Token; split <;> rfl

theorem hyperLinkLoop_suffix (n : Nat) : ∀ (z : Tokenizer) (token : Token) (z2 : Tokenizer),
    hyperLinkLoop n z token = Run.ret z2 → z2.rest <:+ z.rest := by
  induction n with
  | zero => intro z token z2 h; simp [hyperLinkLoop] at h
  | succ n ih =>
    intro z token z2 h
    rw [hyperLinkLoop_succ] at h
    split at h
    · simp only [Run.ret.injEq] at h
      rw [← h]
    · exact (ih _ _ _ h).trans (advance_rest_suffix z)

theorem parseHyperLinkTag_suffix (x : String → Option String) (n : Nat) (z : Tokenizer)
    (token : Token) (r : String × Tokenizer)
    (h : parseHyperLinkTag x n z token = Run.ret r) : r.2.rest <:+ z.rest := by
  unfold parseHyperLinkTag at h
  split at h
  · simp only [Run.ret.injEq] at h
    rw [← h]
  · obtain ⟨z1, h1, h2⟩ := bind_eq_ret _ _ _ h
    have hs := hyperLinkLoop_suffix n z token z1 h1
    split at h2 <;>
    · simp only [Run.ret.injEq] at h2
      rw [← h2]
      exact hs

theorem parseTableDataLoop_suffix (x : String → Option String) (b : Bool) (n : Nat) :
    ∀ (z : Tokenizer) (token : Token) (r : String × Tokenizer),
      parseTableDataLoop x b n z token = Run.ret r → r.2.rest <:+ z.rest := by
  induction n with
  | zero => intro z token r h; simp [parseTableDataLoop] at h
  | succ n ih =>
    intro z token r h
    rw [parseTableDataLoop_succ] at h
    split at h
    · simp only [Run.ret.injEq] at h
      rw [← h]
    · split at h
      · simp only [Run.ret.injEq] at h
        rw [← h]
      · split at h
        · obtain ⟨a, ha, h2⟩ := bind_eq_ret _ _ _ h
          have hs := parseHyperLinkTag_suffix x n z token a ha
          split at h2
          · simp only [Run.ret.injEq] at h2
            rw [← h2]
            exact hs
          · exact ((ih _ _ _ h2).trans (advance_rest_suffix a.2)).trans hs
        · split at h
          · simp only [Run.ret.injEq] at h
            rw [← h]
          · exact (ih _ _ _ h).trans (advance_rest_suffix z)

/-- The tokens that are left when `parseTableData` returns are an end piece
of the tokens that were left when it was called. -/
theorem parseTableData_suffix (x : String → Option String) (b : Bool) (n : Nat)
    (z : Tokenizer) (r : String × Tokenizer)
    (h : parseTableData x n z b = Run.ret r) : r.2.rest <:+ z.rest := by
  unfold parseTableData at h
  split at h
  · simp at h
  · have hs := parseTableDataLoop_suffix x b n _ _ r h
    rw [token_rest] at hs
    exact hs

theorem countCells_suffix (l l2 : List Token) (h : l2 <:+ l) : countCells l2 ≤ countCells l :=
  List.Sublist.countP_le _ h.sublist

theorem countCells_cons (t : Token) (ts : List Token) :
    countCells (t :: ts) = countCells ts + (if isCellStart t then 1 else 0) := by
  unfold countCells
  rw [List.countP_cons]
  simp

/-- A row that the row loop returns: the last token read is a `tr` end tag of
the tokens that were left, and the row has at most as many cells as `td`
start tags were read. -/
theorem parseTableRowLoop_consumed (x : String → Option String) (b : Bool) (n : Nat) :
    ∀ (z0 : Tokenizer) (retData data : List String) (z2 : Tokenizer),
      parseTableRowLoop x b n z0.advance.2 z0.advance.1 retData =
        Run.ret (Except.ok data, z2) →
      z2.cur :: z2.rest <:+ z0.rest ∧
        (z2.cur.Data = "tr" ∧ z2.cur.Typ = TokenType.EndTagToken) ∧
        data.length + countCells (z2.cur :: z2.rest) ≤ retData.length + countCells z0.rest := by
  induction n with
  | zero => intro z0 retData data z2 h; simp [parseTableRowLoop] at h
  | succ n ih =>
    intro z0 retData data z2 h
    obtain ⟨rest, c, k⟩ := z0
    cases rest with
    | nil =>
      rw [parseTableRowLoop_succ] at h
      simp [errorToken] at h
    | cons t ts =>
      rw [parseTableRowLoop_succ] at h
      simp only [advance_cons] at h
      split at h
      · rename_i hc
        simp only [Run.ret.injEq, Prod.mk.injEq, Except.ok.injEq] at h
        rw [← h.2, ← h.1]
        exact ⟨List.suffix_refl _, hc, le_refl _⟩
      · split at h
        · simp at h
        · split at h
          · rename_i htd
            obtain ⟨a, ha, h2⟩ := bind_eq_ret _ _ _ h
            have hs : a.2.rest <:+ ts := parseTableData_suffix x _ n _ a ha
            obtain ⟨h3, h4, h5⟩ := ih a.2 _ data z2 h2
            refine ⟨(h3.trans hs).trans (List.suffix_cons _ _), h4, ?_⟩
            have h6 := countCells_suffix _ _ hs
            rw [countCells_cons t ts, if_pos htd]
            have h7 : (if a.1.length > 0 then retData ++ [a.1] else retData).length ≤
                retData.length + 1 := by
              split <;> simp
            omega
          · obtain ⟨h3, h4, h5⟩ := ih ⟨ts, t, true⟩ retData data z2 h
            refine ⟨h3.trans (List.suffix_cons _ _), h4, ?_⟩
            rw [countCells_cons t ts]
            have h8 : countCells (Tokenizer.mk ts t true).rest = countCells ts := rfl
            omega

/-- The `tr` start tag that the first loop finds: the token it was called
with, or the first `tr` start tag of the tokens that were left. -/
theorem seekRowLoop_consumed (n : Nat) :
    ∀ (z : Tokenizer) (token tok : Token) (z1 : Tokenizer),
      seekRowLoop n z token = Run.ret (some tok, z1) →
      (isRowStart token ∧ z1 = z) ∨
        ∃ p, z.rest = p ++ tok :: z1.rest ∧ isRowStart tok ∧ ∀ q ∈ p, ¬ isRowStart q := by
  induction n with
  | zero => intro z token tok z1 h; simp [seekRowLoop] at h
  | succ n ih =>
    intro z token tok z1 h
    have hfound := seekRowLoop_found (n + 1) z token tok z1 h
    rw [seekRowLoop_succ] at h
    split at h
    · rename_i hc
      simp only [Run.ret.injEq, Prod.mk.injEq, Option.some.injEq] at h
      exact Or.inl ⟨hc, h.2.symm⟩
    · split at h
      · simp at h
      · rename_i hne
        obtain ⟨rest, c, k⟩ := z
        cases rest with
        | nil => simp at hne
        | cons t ts =>
          simp only [advance_cons] at h
          rcases ih ⟨ts, t, true⟩ t tok z1 h with ⟨h1, h2⟩ | ⟨p, h1, h2, h3⟩
          · right
            cases n with
            | zero => simp [seekRowLoop] at h
            | succ m =>
              rw [seekRowLoop_succ, if_pos h1] at h
              simp only [Run.ret.injEq, Prod.mk.injEq, Option.some.injEq] at h
              refine ⟨[], ?_, hfound, by simp⟩
              rw [← h.1, ← h.2]
              rfl
          · right
            by_cases ht : isRowStart t
            · cases n with
              | zero => simp [seekRowLoop] at h
              | succ m =>
                rw [seekRowLoop_succ, if_pos ht] at h
                simp only [Run.ret.injEq, Prod.mk.injEq, Option.some.injEq] at h
                refine ⟨[], ?_, hfound, by simp⟩
                rw [← h.1, ← h.2]
                rfl
            · refine ⟨t :: p, ?_, h2, ?_⟩
              · have h1b : ts = p ++ tok :: z1.rest := h1
                rw [h1b]
                rfl
              · intro q hq
                rcases List.mem_cons.mp hq with rfl | hm
                · exact ht
                · exact h3 q hm

/-- A row that `parseTableRow` returns has no empty cell and at most as many
cells as `td` start tags lie between the `tr` start tag of the row and the
`tr` end tag at which the call ends. -/
theorem parseTableRow_consumed (x : String → Option String) (b : Bool) (n : Nat)
    (z z2 : Tokenizer) (data : List String)
    (h : parseTableRow x n z b = Run.ret (Except.ok data, z2)) :
    ∃ pre seg, z.rest = pre ++ seg ++ z2.cur :: z2.rest ∧
      ((pre = [] ∧ isRowStart z.Token.1) ∨
        ∃ p tok, pre = p ++ [tok] ∧ isRowStart tok ∧ ∀ q ∈ p, ¬ isRowStart q) ∧
      (z2.cur.Data = "tr" ∧ z2.cur.Typ = TokenType.EndTagToken) ∧
      data.length ≤ countCells seg := by
  unfold parseTableRow at h
  obtain ⟨a, ha, h2⟩ := bind_eq_ret _ _ _ h
  cases hfound : a.1 with
  | none => simp [hfound] at h2
  | some tok =>
    simp only [hfound] at h2
    have ha2 : seekRowLoop n z.Token.2 z.Token.1 = Run.ret (some tok, a.2) := by
      rw [ha, ← hfound]
    have ht := seekRowLoop_found n _ _ tok a.2 ha2
    have hseek := seekRowLoop_consumed n _ _ tok a.2 ha2
    cases n with
    | zero => simp [parseTableRowLoop] at h2
    | succ m =>
      rw [parseTableRowLoop_succ] at h2
      simp only [ht.1, ht.2, reduceCtorEq, and_false, if_false, String.reduceEq,
        false_and] at h2
      obtain ⟨h3, h4, h5⟩ := parseTableRowLoop_consumed x b m _ _ _ _ h2
      obtain ⟨seg, hseg⟩ := h3
      have hcount : countCells a.2.rest =
          countCells seg + countCells (z2.cur :: z2.rest) := by
        rw [← hseg]
        unfold countCells
        rw [List.countP_append]
      have hbound : data.length ≤ countCells seg := by
        simp only [List.length_nil] at h5
        omega
      rcases hseek with ⟨h6, h7⟩ | ⟨p, h6, h7, h8⟩
      · refine ⟨[], seg, ?_, Or.inl ⟨rfl, h6⟩, h4, hbound⟩
        rw [List.nil_append, hseg, h7, token_rest]
      · refine ⟨p ++ [tok], seg, ?_, Or.inr ⟨p, tok, rfl, h7, h8⟩, h4, hbound⟩
        rw [token_rest] at h6
        rw [h6, ← hseg]
        simp

/-! ### C19 -/

/-- C19: for every token stream and both values of the link policy, a row
that `parseTableRow` returns has no empty string, and it has at most as many
entries as there are `td` start tags among the tokens `seg` between the `tr`
start tag of the row and the `tr` end tag at which the call ends.  On a row
of cells `<td>text</td>` the entries are the trimmed texts that are not blank:
a blank cell gives no entry and the later cells move down. -/
theorem parseTableRow_cells_bound (getFinDataXBRLTag : String → Option String)
    (parseHref : Bool) (n : Nat) (z z2 : Tokenizer) (data : List String)
    (h : parseTableRow getFinDataXBRLTag n z parseHref = Run.ret (Except.ok data, z2)) :
    (∀ s ∈ data, s.length > 0) ∧
    (∃ pre seg, z.rest = pre ++ seg ++ z2.cur :: z2.rest ∧
      ((pre = [] ∧ isRowStart z.Token.1) ∨
        ∃ p tok, pre = p ++ [tok] ∧ isRowStart tok ∧ ∀ q ∈ p, ¬ isRowStart q) ∧
      (z2.cur.Data = "tr" ∧ z2.cur.Typ = TokenType.EndTagToken) ∧
      data.length ≤ countCells seg) ∧
    (∀ (r : List Attribute × List (List Attribute × String)) (more : List Token) (fuel : Nat),
      3 * r.2.length + 2 ≤ fuel →
      parseTableRow getFinDataXBRLTag fuel (NewTokenizer (rowTokens r ++ more)) parseHref =
        Run.ret (Except.ok ((r.2.map cellText).filter (fun s => s.length > 0)),
          ⟨more, endTag "tr", true⟩)) :=
  ⟨parseTableRow_nonempty getFinDataXBRLTag parseHref n z z2 data h,
    parseTableRow_consumed getFinDataXBRLTag parseHref n z z2 data h,
    fun r more fuel hf => parseTableRow_row getFinDataXBRLTag parseHref r more errorToken false
      fuel (by simp [errorToken]) hf⟩

/-- C19, witness: the row `<tr><td> </td><td>b</td></tr>` after a `table`
start tag gives the one entry `b`, at the first position. -/
theorem parseTableRow_cells_bound_witness :
    parseTableRow (fun _ => none) 12
        (NewTokenizer [startTag "table" [], startTag "tr" [], startTag "td" [], textToken " ",
          endTag "td", startTag "td" [], textToken "b", endTag "td", endTag "tr"]) true =
      Run.ret (Except.ok ["b"], ⟨[], endTag "tr", true⟩) ∧
    (∀ s ∈ ["b"], s.length > 0) ∧
    ∃ pre seg,
      (NewTokenizer [startTag "table" [], startTag "tr" [], startTag "td" [], textToken " ",
        endTag "td", startTag "td" [], textToken "b", endTag "td", endTag "tr"]).rest =
        pre ++ seg ++ (Tokenizer.mk [] (endTag "tr") true).cur ::
          (Tokenizer.mk [] (endTag "tr") true).rest ∧
      ((pre = [] ∧ isRowStart (NewTokenizer [startTag "table" [], startTag "tr" [],
          startTag "td" [], textToken " ", endTag "td", startTag "td" [], textToken "b",
          endTag "td", endTag "tr"]).Token.1) ∨
        ∃ p tok, pre = p ++ [tok] ∧ isRowStart tok ∧ ∀ q ∈ p, ¬ isRowStart q) ∧
      ((Tokenizer.mk [] (endTag "tr") true).cur.Data = "tr" ∧
        (Tokenizer.mk [] (endTag "tr") true).cur.Typ = TokenType.EndTagToken) ∧
      ["b"].length ≤ countCells seg :=
  ⟨rfl,
    (parseTableRow_cells_bound (fun _ => none) true 12
      (NewTokenizer [startTag "table" [], startTag "tr" [], startTag "td" [], textToken " ",
        endTag "td", startTag "td" [], textToken "b", endTag "td", endTag "tr"])
      ⟨[], endTag "tr", true⟩ ["b"] rfl).1,
    (parseTableRow_cells_bound (fun _ => none) true 12
      (NewTokenizer [startTag "table" [], startTag "tr" [], startTag "td" [], textToken " ",
        endTag "td", startTag "td" [], textToken "b", endTag "td", endTag "tr"])
      ⟨[], endTag "tr", true⟩ ["b"] rfl).2.1⟩

/-! ### C14 -/

/-- C14, the failing input: when the HTTP call returns an error (and also
when the construction of the request does), `getPage` does not give its
caller a nil body: it ends in `log.Fatalf`, which exits the process, and so
does the unit of work of `parseMappedReports`; it does not return the record.
For no HTTP library at all does `getPage` return a nil body. -/
theorem getPage_failure_exits {V E F FT DT : Type} [DecidableEq FT]
    (newRequest : String → String → Option String) (err version url : String)
    (getFinDataXBRLTag : String → Option String) (R : ReportFuncs V E F FT DT) (fuel : Nat)
    (fr : financialReport V E F) (t : DT) :
    (∃ msg, getPage ⟨newRequest, fun _ _ => Except.error err⟩ version (baseURL ++ url) =
      Run.fatal msg) ∧
    (∃ msg, reportUnit ⟨newRequest, fun _ _ => Except.error err⟩ version getFinDataXBRLTag R
      fuel url fr t = Run.fatal msg) ∧
    (∀ H : HTTPClient, getPage H version (baseURL ++ url) ≠ Run.ret none) := by
  refine ⟨?_, ?_, ?_⟩
  · cases h : newRequest "GET" (baseURL ++ url) with
    | none =>
      exact ⟨"Query to SEC page " ++ (baseURL ++ url) ++ " failed: " ++ err,
        by simp [getPage, h]⟩
    | some e =>
      exact ⟨"Query to SEC page " ++ (baseURL ++ url) ++ " failed: " ++ e,
        by simp [getPage, h]⟩
  · cases h : newRequest "GET" (baseURL ++ url) with
    | none =>
      exact ⟨"Query to SEC page " ++ (baseURL ++ url) ++ " failed: " ++ err,
        by simp [reportUnit, getPage, h]⟩
    | some e =>
      exact ⟨"Query to SEC page " ++ (baseURL ++ url) ++ " failed: " ++ e,
        by simp [reportUnit, getPage, h]⟩
  · intro H
    unfold getPage
    cases H.NewRequest "GET" (baseURL ++ url) with
    | some e => simp
    | none =>
      cases H.Do (baseURL ++ url) ("edgar/" ++ version) with
      | error e => simp
      | ok body => simp

/-! ### C20 -/

theorem scanItems_report :
    scanItems "R%d.htm".data =
      [ScanItem.lit 'R', ScanItem.verbD, ScanItem.lit '.', ScanItem.lit 'h', ScanItem.lit 't',
        ScanItem.lit 'm'] := by
  decide

/-- A cell that the pattern `R%d.htm` reads holds the letter `R`. -/
theorem sscanf_report_contains (cell : List Char)
    (h : (Sscanf (scanItems "R%d.htm".data) cell []).2 = true) :
    Contains cell "R".data = true := by
  rw [scanItems_report] at h
  cases cell with
  | nil => simp [Sscanf] at h
  | cons d ds =>
    by_cases hd : d = 'R'
    · subst hd
      simp [Contains, HasPrefix]
    · simp [Sscanf, hd] at h

/-- The number that the loop of `parseAllReports` adds for a row is the number
that the pattern reads from the first cell of the row. -/
theorem reportNumber_eq (data : List String) : reportNumber data = patternNumber data := by
  cases data with
  | nil => rfl
  | cons cell rest =>
    unfold reportNumber patternNumber
    simp only [List.length_cons, List.getD_cons_zero]
    by_cases h : (Sscanf (scanItems "R%d.htm".data) cell.data []).2 = true
    · rw [if_pos ⟨by omega, sscanf_report_contains cell.data h⟩]
    · rw [if_neg h]
      split <;> rfl

/-- The slice after the rows of a page, from the slice before them. -/
theorem allReportsLoop_rows (x : String → Option String) (F : Nat) (zf : Tokenizer)
    (rows : List (List String)) :
    ∀ (z : Tokenizer) (reports : List Int) (n : Nat),
      parseTableRows x F false (rows.length + 1) z =
        Run.ret (rows.map Except.ok ++ [Except.error doneParsing], zf) →
      F + rows.length + 1 ≤ n →
      ((parseTableRow x n z false).bind fun r =>
        allReportsLoop x n r.2 r.1 reports) =
      Run.ret (reports ++ rows.filterMap reportNumber) := by
  induction rows with
  | nil =>
    intro z reports n h hn
    obtain ⟨z1, h1, _⟩ := parseTableRows_cons x F false 0 z zf _ _ h
    rw [parseTableRow_mono_le x false z F n (by omega) (by rw [h1]; simp), h1]
    obtain ⟨m, rfl⟩ : ∃ m, n = m + 1 := ⟨n - 1, by omega⟩
    simp [allReportsLoop]
  | cons r rows ih =>
    intro z reports n h hn
    obtain ⟨z1, h1, h2⟩ := parseTableRows_cons x F false (rows.length + 1) z zf _ _ h
    rw [parseTableRow_mono_le x false z F n (by omega) (by rw [h1]; simp), h1]
    obtain ⟨m, rfl⟩ : ∃ m, n = m + 1 := ⟨n - 1, by omega⟩
    simp only [bind_ret]
    rw [allReportsLoop]
    rw [ih z1 _ m h2 (by simp at hn; omega)]
    cases hr : reportNumber r with
    | none => simp [List.filterMap_cons, hr]
    | some num => simp [List.filterMap_cons, hr]

/-- The result of `parseAllReports` on a page whose rows are known. -/
theorem parseAllReports_of_rows (H : HTTPClient) (version : String)
    (x : String → Option String) (cik an : String) (body : List Token)
    (rows : List (List String)) (F : Nat) (zf : Tokenizer) (fuel : Nat)
    (hpage : getPage H version
      ("https://www.sec.gov/Archives/edgar/data/" ++ cik ++ "/" ++ an ++ "/") =
      Run.ret (some body))
    (hread : parseTableRows x F false (rows.length + 1) (NewTokenizer body) =
      Run.ret (rows.map Except.ok ++ [Except.error doneParsing], zf))
    (hf : F + rows.length + 1 ≤ fuel) :
    parseAllReports H version x fuel cik an =
      Run.ret ((rows.filterMap patternNumber).insertionSort (fun a b => a ≤ b)) := by
  unfold parseAllReports
  rw [hpage]
  simp only [bind_ret]
  have e := allReportsLoop_rows x F zf rows (NewTokenizer body) [] fuel hread hf
  obtain ⟨r, hr, h2⟩ : ∃ r, parseTableRow x fuel (NewTokenizer body) false = Run.ret r ∧
      allReportsLoop x fuel r.2 r.1 [] = Run.ret ([] ++ rows.filterMap reportNumber) :=
    bind_eq_ret _ _ _ e
  rw [hr]
  simp only [bind_ret]
  rw [h2]
  simp only [bind_ret, List.nil_append]
  have e2 : rows.filterMap reportNumber = rows.filterMap patternNumber := by
    congr 1
    exact funext reportNumber_eq
  rw [e2]

/-- C20: on every directory listing page that `getPage` returns,
`parseAllReports` returns, given fuel for twice the tokens of the page: the
rows of the page are read to the end with link resolution off, and the list
is sorted in ascending order and holds, once per row, the numbers that the
pattern `R%d.htm` reads from the first cells of the rows; a row whose first
cell the pattern does not read adds nothing, and the rows after it are
read. -/
theorem parseAllReports_sorted_numbers (H : HTTPClient) (version : String)
    (getFinDataXBRLTag : String → Option String) (cik an : String) (body : List Token)
    (fuel : Nat)
    (hpage : getPage H version
      ("https://www.sec.gov/Archives/edgar/data/" ++ cik ++ "/" ++ an ++ "/") =
      Run.ret (some body))
    (hf : 2 * body.length + 4 ≤ fuel) :
    ∃ (rows : List (List String)) (zf : Tokenizer) (reports : List Int),
      parseTableRows getFinDataXBRLTag (body.length + 3) false (rows.length + 1)
          (NewTokenizer body) =
        Run.ret (rows.map Except.ok ++ [Except.error doneParsing], zf) ∧
      parseAllReports H version getFinDataXBRLTag fuel cik an = Run.ret reports ∧
      reports.Sorted (fun a b => a ≤ b) ∧
      reports.Perm (rows.filterMap patternNumber) := by
  obtain ⟨rows, zf, hlen, hread⟩ := parseTableRows_returns getFinDataXBRLTag false body.length
    (NewTokenizer body) (le_refl _) (by simp) (body.length + 3) (le_refl _)
  have hlen2 : rows.length ≤ body.length := hlen
  exact ⟨rows, zf, _, hread,
    parseAllReports_of_rows H version getFinDataXBRLTag cik an body rows (body.length + 3) zf
      fuel hpage hread (by omega),
    List.sorted_insertionSort _ _, List.perm_insertionSort _ _⟩

/-- C20, witness: the listing `sampleListing`, whose rows name `R4.htm`,
`FilingSummary.xml`, `R2.htm`, `R2.xml` and `R10.htm`, gives 2, 4, 10. -/
theorem parseAllReports_sorted_numbers_witness :
    parseAllReports sampleHTTP "go1.21" (fun _ => none) 120 "320193" "000032019318000145" =
      Run.ret [2, 4, 10] ∧
    ∃ (rows : List (List String)) (zf : Tokenizer) (reports : List Int),
      parseTableRows (fun _ => none) (sampleListing.length + 3) false (rows.length + 1)
          (NewTokenizer sampleListing) =
        Run.ret (rows.map Except.ok ++ [Except.error doneParsing], zf) ∧
      parseAllReports sampleHTTP "go1.21" (fun _ => none) 120 "320193" "000032019318000145" =
        Run.ret reports ∧
      reports.Sorted (fun a b => a ≤ b) ∧
      reports.Perm (rows.filterMap patternNumber) :=
  ⟨by decide,
    parseAllReports_sorted_numbers sampleHTTP "go1.21" (fun _ => none) "320193"
      "000032019318000145" sampleListing 120 rfl (by decide)⟩

/-! ### C8 -/

/-- On a filings list whose first row has plain cells and whose second row
holds a cell with an anchor that is left open, `queryPageParser` does not
return. -/
theorem queryPageParser_open_anchor (x : String → Option String) (getYear : String → Int)
    (thresholdYear : Int) (docType : String)
    (r : List Attribute × List (List Attribute × String)) (ra ta aa : List Attribute)
    (cells : List (List Attribute × String)) (rest : List Token)
    (hta : cellParseFlag ta true = true)
    (hon : ∀ a ∈ aa, a.Key = "onclick" → x a.Val = none)
    (hin : ∀ t ∈ rest, ¬ isAnchorEnd t) (fuel : Nat) :
    queryPageParser x getYear thresholdYear fuel
        (rowTokens r ++ startTag "tr" ra :: (cells.flatMap cellTokens ++
          startTag "td" ta :: startTag "a" aa :: rest)) docType = Run.fuelOut := by
  unfold queryPageParser
  by_cases h0 : parseTableRow x fuel
      (NewTokenizer (rowTokens r ++ startTag "tr" ra :: (cells.flatMap cellTokens ++
        startTag "td" ta :: startTag "a" aa :: rest))) true = Run.fuelOut
  · rw [h0]; rfl
  · have e := parseTableRow_row x true r
      (startTag "tr" ra :: (cells.flatMap cellTokens ++
        startTag "td" ta :: startTag "a" aa :: rest)) errorToken false
      (fuel + (3 * r.2.length + 2)) (by simp [errorToken]) (by omega)
    have e2 := parseTableRow_mono_le x true
      (NewTokenizer (rowTokens r ++ startTag "tr" ra :: (cells.flatMap cellTokens ++
        startTag "td" ta :: startTag "a" aa :: rest))) fuel (fuel + (3 * r.2.length + 2))
      (by omega) h0
    rw [NewTokenizer] at e2
    rw [e2] at e
    rw [NewTokenizer, e]
    simp only [bind_ret]
    cases fuel with
    | zero => rfl
    | succ n =>
      rw [queryPageLoop]
      rw [parseTableRow_open_anchor_at x ra ta aa cells rest (endTag "tr") true (Or.inl rfl)
        hta hon hin n]
      rfl

/-- C8, the failing input: the filings list
`<tr><td>10-Q</td><td>/l</td><td>d</td><td>2015-01-01</td><td>f</td></tr>`
`<tr><td><a href="/y">` has a row of 5 cells of the requested type 10-Q and
ends inside an anchor of its second row.  On it `queryPageParser` returns no
map: it does not return at all, whatever the fuel, `getYear` and the
threshold. -/
theorem queryPageParser_open_anchor_never_returns
    (getFinDataXBRLTag : String → Option String) (getYear : String → Int)
    (thresholdYear : Int) (fuel : Nat) :
    queryPageParser getFinDataXBRLTag getYear thresholdYear fuel
        [startTag "tr" [],
          startTag "td" [], textToken "10-Q", endTag "td",
          startTag "td" [], textToken "/l", endTag "td",
          startTag "td" [], textToken "d", endTag "td",
          startTag "td" [], textToken "2015-01-01", endTag "td",
          startTag "td" [], textToken "f", endTag "td",
          endTag "tr",
          startTag "tr" [], startTag "td" [], startTag "a" [⟨"href", "/y"⟩]]
        "10-Q" = Run.fuelOut :=
  queryPageParser_open_anchor getFinDataXBRLTag getYear thresholdYear "10-Q"
    ([], [([], "10-Q"), ([], "/l"), ([], "d"), ([], "2015-01-01"), ([], "f")]) [] []
    [⟨"href", "/y"⟩] [] [] rfl (by simp) (by simp) fuel

/-! ### The buffered reader -/

theorem readText_mem (delim : Char) (m : List Char) (l : List Char) (h : delim ∈ l) :
    readText (l ++ m) delim = ((readText l delim).1, (readText l delim).2 ++ m) ∧
      (readText l delim).1.2 = false := by
  induction l with
  | nil => simp at h
  | cons c cs ih =>
    by_cases hc : c = delim
    · simp [readText, hc]
    · have hcs : delim ∈ cs := by
        rcases List.mem_cons.mp h with h1 | h1
        · exact absurd h1.symm hc
        · exact h1
      obtain ⟨h1, h2⟩ := ih hcs
      rw [List.cons_append, readText, if_neg hc, h1, readText, if_neg hc]
      exact ⟨rfl, h2⟩

theorem readText_not_mem (delim : Char) (m : List Char) (l : List Char) (h : delim ∉ l) :
    readText (l ++ m) delim =
      ((l ++ (readText m delim).1.1, (readText m delim).1.2), (readText m delim).2) := by
  induction l with
  | nil => rfl
  | cons c cs ih =>
    have hc : c ≠ delim := fun e => h (by rw [e]; exact List.mem_cons_self _ _)
    have hcs : delim ∉ cs := fun e => h (List.mem_cons_of_mem _ e)
    rw [List.cons_append, readText, if_neg hc, ih hcs]
    rfl

theorem readStringLoop_succ (chunk : Nat → List Char → Nat) (delim : Char) (n : Nat)
    (b : BufReader) (full : List Char) :
    BufReader.readStringLoop chunk delim (n + 1) b full =
      if delim ∈ b.buf then
        ((full ++ (readText b.buf delim).1.1, false),
          ⟨(readText b.buf delim).2, b.page, b.eof⟩)
      else if b.eof then ((full ++ b.buf, true), ⟨[], b.page, false⟩)
      else if b.buf.length ≥ defaultBufSize then
        BufReader.readStringLoop chunk delim n ⟨[], b.page, b.eof⟩ (full ++ b.buf)
      else BufReader.readStringLoop chunk delim n (b.fill chunk) full := rfl

/-- The loop of `ReadString` of the buffered reader cuts the bytes that are
left, those of the buffer and then those of the page, as `readText` does. -/
theorem readStringLoop_text (chunk : Nat → List Char → Nat) (delim : Char) (n : Nat) :
    ∀ (b : BufReader) (full : List Char), (b.eof = true → b.page = []) →
      2 * b.page.length + (if b.eof = true then 0 else 1) +
        (if defaultBufSize ≤ b.buf.length then 1 else 0) + 1 ≤ n →
      ∃ b2, BufReader.readStringLoop chunk delim n b full =
          ((full ++ (readText (b.buf ++ b.page) delim).1.1,
            (readText (b.buf ++ b.page) delim).1.2), b2) ∧
        b2.buf ++ b2.page = (readText (b.buf ++ b.page) delim).2 ∧
        (b2.eof = true → b2.page = []) := by
  induction n with
  | zero => intro b full _ hn; omega
  | succ n ih =>
    intro b full hinv hn
    rw [readStringLoop_succ]
    by_cases hmem : delim ∈ b.buf
    · obtain ⟨h1, h2⟩ := readText_mem delim b.page b.buf hmem
      rw [if_pos hmem, h1]
      exact ⟨⟨(readText b.buf delim).2, b.page, b.eof⟩, by simp [h2], rfl, hinv⟩
    · rw [if_neg hmem]
      by_cases heof : b.eof = true
      · have hp := hinv heof
        rw [if_pos heof, hp, readText_not_mem delim [] b.buf hmem]
        exact ⟨⟨[], [], false⟩, by simp [readText], by simp [readText], fun _ => rfl⟩
      · rw [if_neg heof]
        rw [if_neg heof] at hn
        by_cases hfull : b.buf.length ≥ defaultBufSize
        · rw [if_pos hfull]
          rw [if_pos hfull] at hn
          obtain ⟨b2, h1, h2, h3⟩ := ih ⟨[], b.page, b.eof⟩ (full ++ b.buf) hinv
            (by
              have : ¬ defaultBufSize ≤ ([] : List Char).length := by decide
              show 2 * b.page.length + (if b.eof = true then 0 else 1) +
                (if defaultBufSize ≤ ([] : List Char).length then 1 else 0) + 1 ≤ n
              rw [if_neg heof, if_neg this]
              omega)
          refine ⟨b2, ?_, ?_, h3⟩
          · rw [h1, readText_not_mem delim b.page b.buf hmem]
            simp
          · rw [h2, readText_not_mem delim b.page b.buf hmem]
            simp
        · rw [if_neg hfull]
          have hfull2 : ¬ defaultBufSize ≤ b.buf.length := hfull
          rw [if_neg hfull2] at hn
          cases hpage : b.page with
          | nil =>
            have hfill : b.fill chunk = ⟨b.buf, [], true⟩ := by
              unfold BufReader.fill; rw [hpage]
            rw [hfill]
            rw [hpage] at hn
            obtain ⟨b2, h1, h2, h3⟩ := ih ⟨b.buf, [], true⟩ full (fun _ => rfl)
              (by simp only [List.length_nil, if_true, if_neg hfull2]; simp at hn; omega)
            exact ⟨b2, h1, h2, h3⟩
          | cons c cs =>
            obtain ⟨k, hk, hfill⟩ : ∃ k, 1 ≤ k ∧ b.fill chunk =
                ⟨b.buf ++ (c :: cs).take k, (c :: cs).drop k, false⟩ :=
              ⟨_, le_max_left _ _, by unfold BufReader.fill; rw [hpage]⟩
            rw [hfill]
            rw [hpage] at hn
            have hlen : ((c :: cs).drop k).length + 1 ≤ (c :: cs).length := by
              rw [List.length_drop]
              simp only [List.length_cons]
              omega
            obtain ⟨b2, h1, h2, h3⟩ := ih ⟨b.buf ++ (c :: cs).take k, (c :: cs).drop k, false⟩
              full (fun h => by simp at h)
              (by
                simp only [Bool.false_eq_true, if_false]
                split <;> omega)
            have hview : b.buf ++ (c :: cs).take k ++ (c :: cs).drop k = b.buf ++ c :: cs := by
              rw [List.append_assoc, List.take_append_drop]
            simp only [hview] at h1 h2
            exact ⟨b2, h1, h2, h3⟩

/-- The method `ReadString` of the buffered reader returns the line that
`readText` cuts from the bytes that are left, and leaves the others, in the
buffer or to the page. -/
theorem bufReadString_text (chunk : Nat → List Char → Nat) (delim : Char) (b : BufReader)
    (hinv : b.eof = true → b.page = []) :
    (b.ReadString chunk delim).1 = (readText (b.buf ++ b.page) delim).1 ∧
      (b.ReadString chunk delim).2.buf ++ (b.ReadString chunk delim).2.page =
        (readText (b.buf ++ b.page) delim).2 ∧
      ((b.ReadString chunk delim).2.eof = true → (b.ReadString chunk delim).2.page = []) := by
  obtain ⟨b2, h1, h2, h3⟩ := readStringLoop_text chunk delim (2 * b.page.length + 3) b []
    hinv (by split <;> split <;> omega)
  unfold BufReader.ReadString
  rw [h1]
  exact ⟨by simp, h2, h3⟩

/-! ### The manifest read through the buffered reader -/

/-- The inner loop on a reader whose `read` cuts the bytes `view` that are
left as `readText` does runs as on those bytes. -/
theorem filingLinksLoop_sim {ρ : Type} (read : ρ → (List Char × Bool) × ρ)
    (view : ρ → List Char) (inv : ρ → Prop)
    (hsim : ∀ s, inv s → (read s).1 = (readText (view s) '\n').1 ∧
      view (read s).2 = (readText (view s) '\n').2 ∧ inv (read s).2) (count : Nat) :
    ∀ (s : ρ) (links : List (List Char)), inv s →
      ((filingLinksLoop read count s links).bind fun r => Run.ret (r.1, view r.2)) =
        filingLinksLoop (fun r => readText r '\n') count (view s) links := by
  induction count with
  | zero => intro s links _; rfl
  | succ count ih =>
    intro s links hs
    obtain ⟨h1, h2, h3⟩ := hsim s hs
    simp only [filingLinksLoop]
    rw [h1, ← h2]
    split
    · rfl
    · split
      · rfl
      · split
        · rfl
        · split
          · split
            · rfl
            · exact ih _ _ h3
          · split
            · rfl
            · exact ih _ _ h3

/-- The outer loop on such a reader runs as on the bytes that are left. -/
theorem filingPageLoop_sim {ρ : Type} (read : ρ → (List Char × Bool) × ρ)
    (view : ρ → List Char) (inv : ρ → Prop)
    (hsim : ∀ s, inv s → (read s).1 = (readText (view s) '\n').1 ∧
      view (read s).2 = (readText (view s) '\n').2 ∧ inv (read s).2) (n : Nat) :
    ∀ (line : List Char) (e : Bool) (s : ρ), inv s →
      ((filingPageLoop read n line e s).bind fun r => Run.ret (r.1, view r.2)) =
        filingPageLoop (fun r => readText r '\n') n line e (view s) := by
  induction n with
  | zero => intro line e s _; rfl
  | succ n ih =>
    intro line e s hs
    obtain ⟨h1, h2, h3⟩ := hsim s hs
    simp only [filingPageLoop]
    split
    · rfl
    · split
      · split
        · rfl
        · exact filingLinksLoop_sim read view inv hsim _ s [] hs
      · rw [h1, ← h2]
        exact ih _ _ _ h3

/-- What `filingPageParser` does, from what its loops do on the bytes of the
page: the links are the same, and `mapReports` is passed the bytes `left`
that the buffered reader has not read from the page, an end piece of the
bytes after the lines that were returned. -/
theorem filingPageParser_of_text {α : Type} (chunk : Nat → List Char → Nat)
    (mapReports : List Char → List (List Char) → α) (fuel : Nat) (page : List Char)
    (fileType : String) :
    (∀ links rest,
      filingPageLoop (fun r => readText r '\n') fuel (readText page '\n').1.1
        (readText page '\n').1.2 (readText page '\n').2 = Run.ret (links, rest) →
      ∃ buffered left, buffered ++ left = rest ∧
        filingPageParser chunk mapReports fuel page fileType =
          Run.ret (mapReports left links)) ∧
    (∀ m,
      filingPageLoop (fun r => readText r '\n') fuel (readText page '\n').1.1
        (readText page '\n').1.2 (readText page '\n').2 = Run.panic m →
      filingPageParser chunk mapReports fuel page fileType = Run.panic m) := by
  have hsim : ∀ s : BufReader, (s.eof = true → s.page = []) →
      (BufReader.ReadString chunk s '\n').1 = (readText (s.buf ++ s.page) '\n').1 ∧
      (BufReader.ReadString chunk s '\n').2.buf ++ (BufReader.ReadString chunk s '\n').2.page =
        (readText (s.buf ++ s.page) '\n').2 ∧
      ((BufReader.ReadString chunk s '\n').2.eof = true →
        (BufReader.ReadString chunk s '\n').2.page = []) :=
    fun s hs => bufReadString_text chunk '\n' s hs
  obtain ⟨h1, h2, h3⟩ := hsim (NewReader page) (fun h => by simp [NewReader] at h)
  have hview : (NewReader page).buf ++ (NewReader page).page = page := rfl
  rw [hview] at h1 h2
  have e := filingPageLoop_sim (fun r => BufReader.ReadString chunk r '\n')
    (fun s => s.buf ++ s.page) (fun s => s.eof = true → s.page = []) hsim fuel
    ((NewReader page).ReadString chunk '\n').1.1 ((NewReader page).ReadString chunk '\n').1.2
    ((NewReader page).ReadString chunk '\n').2 h3
  simp only [h1, h2] at e
  unfold filingPageParser
  simp only [h1]
  constructor
  · intro links rest hp
    rw [hp] at e
    obtain ⟨r, hr, hr2⟩ := bind_eq_ret _ _ _ e
    simp only [Run.ret.injEq, Prod.mk.injEq] at hr2
    refine ⟨r.2.buf, r.2.page, hr2.2, ?_⟩
    rw [hr]
    simp only [bind_ret, hr2.1]
  · intro m hp
    rw [hp] at e
    cases hg : filingPageLoop (fun r => BufReader.ReadString chunk r '\n') fuel
        (readText page '\n').1.1 (readText page '\n').1.2
        ((NewReader page).ReadString chunk '\n').2 with
    | fuelOut => rw [hg] at e; simp at e
    | fatal m2 => rw [hg] at e; simp at e
    | panic m2 =>
      rw [hg] at e
      simp only [bind_panic, Run.panic.injEq] at e
      rw [e]
      rfl
    | ret a => rw [hg] at e; simp at e

/-- The links that the loops collect on the bytes of a manifest. -/
theorem filingPageLoop_collects (pre : List (List Char)) (before ds after : List Char)
    (entries : List (List Char × List Char × List Char)) (rest : List Char) (fuel : Nat)
    (hpre : ∀ l ∈ pre, '\n' ∉ l ∧ Contains (l ++ ['\n']) "var reports".toList = false)
    (hbefore : '(' ∉ before ∧ '\n' ∉ before) (hafter : '\n' ∉ after)
    (hds : ds ≠ [] ∧ ∀ c ∈ ds, '0' ≤ c ∧ c ≤ '9')
    (hcount : decimalValue ds = entries.length + 1) (hfit : decimalValue ds < 2 ^ 63)
    (hentries : ∀ e ∈ entries, plainEntry e) (hfuel : pre.length + 1 ≤ fuel) :
    filingPageLoop (fun r => readText r '\n') fuel
        (readText (pre.flatMap (fun l => l ++ ['\n']) ++
          (headerLine before ds after ++ (entries.flatMap entryLine ++ rest))) '\n').1.1
        (readText (pre.flatMap (fun l => l ++ ['\n']) ++
          (headerLine before ds after ++ (entries.flatMap entryLine ++ rest))) '\n').1.2
        (readText (pre.flatMap (fun l => l ++ ['\n']) ++
          (headerLine before ds after ++ (entries.flatMap entryLine ++ rest))) '\n').2 =
      Run.ret (entries.map entryLink, rest) := by
  obtain ⟨n, rfl⟩ : ∃ n, fuel = pre.length + (n + 1) := ⟨fuel - pre.length - 1, by omega⟩
  rw [filingPageLoop_skip pre _ (n + 1) hpre,
    filingPageLoop_header before ds after _ n hbefore hafter hds hfit, hcount,
    Nat.add_sub_cancel, filingLinksLoop_entries entries rest [] hentries]
  rfl

set_option maxRecDepth 100000 in
/-- The read-ahead of the buffered reader: on a manifest of three reports
`mapReports` is passed a page without bytes left when the page delivers as
many bytes as the buffer takes, and a page with the line that was not read
left when the page delivers one byte at a time. -/
theorem filingPageParser_reads_ahead :
    filingPageParser (fun space _ => space) (fun left links => (left, links)) 5
        ("<script>\n  var reports = new Array(3);\n".toList ++
          "  reports[0+1] = \"/Archives/R1.xml\";\n".toList ++
          "  reports[1+1] = \"/Archives/R2.htm\";\n".toList ++
          "  reports[2+1] = \"all\";\n".toList) "10-K" =
      Run.ret ([], ["/Archives/R1.htm".toList, "/Archives/R2.htm".toList]) ∧
    filingPageParser (fun _ _ => 1) (fun left links => (left, links)) 5
        ("<script>\n  var reports = new Array(3);\n".toList ++
          "  reports[0+1] = \"/Archives/R1.xml\";\n".toList ++
          "  reports[1+1] = \"/Archives/R2.htm\";\n".toList ++
          "  reports[2+1] = \"all\";\n".toList) "10-K" =
      Run.ret ("  reports[2+1] = \"all\";\n".toList,
        ["/Archives/R1.htm".toList, "/Archives/R2.htm".toList]) := by
  constructor <;> decide

/-! ### C9 -/

/-- C9, as amended: on a page whose first line that contains `var reports` is
`... var reports = new Array(n); ...`, with no `(` before the statement and n
a decimal number that fits a 64-bit integer, followed by n - 1 lines
`lhs = "NAME.EXT";` that each end with a line end, where `lhs` has no `=`,
the name has none of the characters `.`, `;`, `"`, `=`, and the extension is
`xml` or `htm`, `filingPageParser` collects exactly n - 1 links, in line
order: for each line the name with the extension `htm` (an `xml` entry
replaced, an `htm` entry unchanged).  It hands them to `mapReports` together
with the reader `page`, which holds the bytes `left` that the buffered reader
has not read: the bytes `rest` after the lines without the bytes `buffered`
that were read ahead. -/
theorem filingPageParser_collects {α : Type} (chunk : Nat → List Char → Nat)
    (mapReports : List Char → List (List Char) → α)
    (fileType : String) (pre : List (List Char)) (before ds after : List Char)
    (entries : List (List Char × List Char × List Char)) (rest : List Char) (fuel : Nat)
    (hpre : ∀ l ∈ pre, '\n' ∉ l ∧ Contains (l ++ ['\n']) "var reports".toList = false)
    (hbefore : '(' ∉ before ∧ '\n' ∉ before) (hafter : '\n' ∉ after)
    (hds : ds ≠ [] ∧ ∀ c ∈ ds, '0' ≤ c ∧ c ≤ '9')
    (hcount : decimalValue ds = entries.length + 1) (hfit : decimalValue ds < 2 ^ 63)
    (hentries : ∀ e ∈ entries, plainEntry e) (hfuel : pre.length + 1 ≤ fuel) :
    ∃ buffered left, buffered ++ left = rest ∧
      filingPageParser chunk mapReports fuel
          (pre.flatMap (fun l => l ++ ['\n']) ++
            (headerLine before ds after ++ (entries.flatMap entryLine ++ rest))) fileType =
        Run.ret (mapReports left (entries.map entryLink)) :=
  (filingPageParser_of_text chunk mapReports fuel _ fileType).1 _ _
    (filingPageLoop_collects pre before ds after entries rest fuel hpre hbefore hafter hds
      hcount hfit hentries hfuel)

/-- C9, witness: a manifest of three reports whose first two lines name
`/Archives/R1.xml` and `/Archives/R2.htm`, read from a page that delivers as
many bytes as the buffer takes. -/
theorem filingPageParser_collects_witness :
    ∃ buffered left, buffered ++ left = "  reports[2+1] = \"all\";\n".toList ∧
      filingPageParser (fun space _ => space) (fun left links => (left, links)) 5
          (["<script>".toList].flatMap (fun l => l ++ ['\n']) ++
            (headerLine "  ".toList "3".toList [] ++
              ([("  reports[0+1]".toList, "/Archives/R1".toList, "xml".toList),
                ("  reports[1+1]".toList, "/Archives/R2".toList, "htm".toList)].flatMap
                  entryLine ++ "  reports[2+1] = \"all\";\n".toList))) "10-K" =
        Run.ret (left,
          [("  reports[0+1]".toList, "/Archives/R1".toList, "xml".toList),
            ("  reports[1+1]".toList, "/Archives/R2".toList, "htm".toList)].map entryLink) :=
  filingPageParser_collects (fun space _ => space) (fun left links => (left, links)) "10-K"
    ["<script>".toList] "  ".toList "3".toList []
    [("  reports[0+1]".toList, "/Archives/R1".toList, "xml".toList),
      ("  reports[1+1]".toList, "/Archives/R2".toList, "htm".toList)]
    "  reports[2+1] = \"all\";\n".toList 5
    (by decide) (by decide) (by decide) (by decide) (by decide) (by decide) (by decide)
    (by decide)

/-- C9, counterexample: the manifest line `reports[1] = "v1.2/R1.xml";` names
a file that ends in `.xml`, but its name has a dot: the scan takes `2/R1` for
the extension, keeps the name as it is, and panics, so no link list with
`v1.2/R1.htm` is collected. -/
theorem filingPageParser_dotted_name_counterexample :
    ¬ ∀ (chunk : Nat → List Char → Nat)
        (mapReports : List Char → List (List Char) → List (List Char)) (fileType : String)
        (pre : List (List Char)) (before ds after : List Char)
        (entries : List (List Char × List Char × List Char)) (rest : List Char) (fuel : Nat),
        (∀ l ∈ pre, '\n' ∉ l ∧ Contains (l ++ ['\n']) "var reports".toList = false) →
        ('(' ∉ before ∧ '\n' ∉ before) → '\n' ∉ after →
        (ds ≠ [] ∧ ∀ c ∈ ds, '0' ≤ c ∧ c ≤ '9') →
        decimalValue ds = entries.length + 1 → decimalValue ds < 2 ^ 63 →
        (∀ e ∈ entries, ('=' ∉ e.1 ∧ '\n' ∉ e.1) ∧ '\n' ∉ e.2.1 ∧
          (e.2.2 = "xml".toList ∨ e.2.2 = "htm".toList)) →
        pre.length + 1 ≤ fuel →
        ∃ buffered left, buffered ++ left = rest ∧
          filingPageParser chunk mapReports fuel
              (pre.flatMap (fun l => l ++ ['\n']) ++
                (headerLine before ds after ++ (entries.flatMap entryLine ++ rest))) fileType =
            Run.ret (mapReports left (entries.map entryLink)) := by
  intro h
  obtain ⟨buffered, left, _, h1⟩ := h (fun space _ => space) (fun _ links => links) "10-K" []
    [] "2".toList [] [("reports[1]".toList, "v1.2/R1".toList, "xml".toList)] [] 1
    (by decide) (by decide) (by decide) (by decide) (by decide) (by decide) (by decide)
    (by decide)
  have h2 := (filingPageParser_of_text (fun space _ => space) (fun _ links => links) 1
    (([] : List (List Char)).flatMap (fun l => l ++ ['\n']) ++
      (headerLine [] "2".toList [] ++
        ([("reports[1]".toList, "v1.2/R1".toList, "xml".toList)].flatMap entryLine ++ [])))
    "10-K").2 "Dont know this type of report" (by decide)
  rw [h2] at h1
  exact absurd h1 (by simp)

/-! ### C10 -/

/-- C10, the failing input: the manifest
`var reports = new Array(2);` / `reports[1] = "/Archives/htm/R1.pdf";` names a
file whose extension is neither `htm` nor `xml`, and `filingPageParser` does
not panic: the test `strings.Contains(s5, "htm")` finds `htm` in the path, and
the file is accepted into the link list. -/
theorem filingPageParser_accepts_pdf (chunk : Nat → List Char → Nat) :
    filingPageParser chunk (fun _ links => links) 1
        ("var reports = new Array(2);\n".toList ++
          "reports[1] = \"/Archives/htm/R1.pdf\";\n".toList) "10-K" =
      Run.ret ["/Archives/htm/R1.pdf".toList] := by
  obtain ⟨_, _, _, h⟩ := (filingPageParser_of_text chunk (fun _ links => links) 1
    ("var reports = new Array(2);\n".toList ++
      "reports[1] = \"/Archives/htm/R1.pdf\";\n".toList) "10-K").1
    ["/Archives/htm/R1.pdf".toList] [] (by decide)
  exact h

/-! ### Rows of closed cells -/

theorem advance_congr (rest : List Token) (c c2 : Token) (k k2 : Bool) :
    (Tokenizer.mk rest c k).advance = (Tokenizer.mk rest c2 k2).advance := by
  cases rest <;> rfl

theorem advance_of_rest (z : Tokenizer) (c : Token) (k : Bool) :
    z.advance = (Tokenizer.mk z.rest c k).advance := by
  obtain ⟨rest, c0, k0⟩ := z
  exact advance_congr rest c0 c k0 k

/-- On an anchor that is closed inside a cell, `parseHyperLinkTag` returns and
stops inside the cell. -/
theorem parseHyperLinkTag_in_cell (x : String → Option String) (token : Token)
    (ts tail : List Token) (c : Token) (k : Bool) (fuel : Nat)
    (ha : token.Typ = TokenType.StartTagToken)
    (hclosed : ∃ e ∈ ts, isAnchorEnd e) (hf : ts.length + 1 ≤ fuel) :
    ∃ str z2 suf, parseHyperLinkTag x fuel ⟨ts ++ tail, c, k⟩ token = Run.ret (str, z2) ∧
      z2.rest = suf ++ tail ∧ suf <:+ ts := by
  unfold parseHyperLinkTag
  cases hyperLinkAttrs x token.Attr "" "" with
  | inl str => exact ⟨str, _, ts, rfl, rfl, List.suffix_refl _⟩
  | inr p =>
    obtain ⟨pre, e, post, hsplit, hpre, he⟩ := first_anchorEnd ts hclosed
    have hlen : pre.length + 2 ≤ fuel := by
      rw [hsplit] at hf; simp at hf; omega
    have hl := hyperLinkLoop_closed pre e (post ++ tail) c k token fuel hpre he
      (by intro h; have h2 := h.2; rw [ha] at h2; exact absurd h2 (by decide)) hlen
    have hrest : ts ++ tail = pre ++ e :: (post ++ tail) := by rw [hsplit]; simp
    rw [hrest]
    simp only [hl, bind_ret]
    split
    · exact ⟨_, _, post, rfl, rfl, by rw [hsplit]; exact ⟨pre ++ [e], by simp⟩⟩
    · exact ⟨_, _, post, rfl, rfl, by rw [hsplit]; exact ⟨pre ++ [e], by simp⟩⟩

/-- In a closed cell the loop of `parseTableData` returns and stops inside the
cell or at its end tag; with link resolution off the value is the first text
of the cell that is not blank.  With link resolution on the anchors of the
cell are to be closed inside the cell. -/
theorem parseTableDataLoop_in_cell (x : String → Option String) (f : Bool)
    (tail : List Token) (m : Nat) :
    ∀ (inner : List Token), inner.length ≤ m →
      (∀ t ∈ inner, ¬ (t.Data = "td" ∧ t.Typ = TokenType.EndTagToken) ∧
        t.Typ ≠ TokenType.ErrorToken) →
      (f = true → anchorsClosed inner) →
      ∀ (c : Token) (k : Bool) (fuel : Nat), inner.length + 3 ≤ fuel →
      ∃ str z2 mid,
        parseTableDataLoop x f fuel
            (Tokenizer.mk (inner ++ endTag "td" :: tail) c k).advance.2
            (Tokenizer.mk (inner ++ endTag "td" :: tail) c k).advance.1 =
          Run.ret (str, z2) ∧
        z2.rest = mid ++ tail ∧ mid <:+ inner ++ [endTag "td"] ∧
        (f = false → str = cellFirstText (inner ++ [endTag "td"])) := by
  induction m with
  | zero =>
    intro inner hm _ _ c k fuel hf
    have hr : inner = [] := List.length_eq_zero.mp (by omega)
    subst hr
    obtain ⟨n, rfl⟩ : ∃ n, fuel = n + 1 := ⟨fuel - 1, by omega⟩
    rw [parseTableDataLoop_succ]
    exact ⟨"", ⟨tail, endTag "td", true⟩, [], by simp [endTag], rfl, List.nil_suffix,
      fun _ => by simp [cellFirstText, endTag]⟩
  | succ m ih =>
    intro inner hm hwf hcl c k fuel hf
    cases inner with
    | nil =>
      obtain ⟨n, rfl⟩ : ∃ n, fuel = n + 1 := ⟨fuel - 1, by omega⟩
      rw [parseTableDataLoop_succ]
      exact ⟨"", ⟨tail, endTag "td", true⟩, [], by simp [endTag], rfl, List.nil_suffix,
        fun _ => by simp [cellFirstText, endTag]⟩
    | cons t ts =>
      obtain ⟨n, rfl⟩ : ∃ n, fuel = n + 1 := ⟨fuel - 1, by omega⟩
      obtain ⟨ht1, ht2⟩ := hwf t (List.mem_cons_self _ _)
      have hwfts : ∀ t2 ∈ ts, ¬ (t2.Data = "td" ∧ t2.Typ = TokenType.EndTagToken) ∧
          t2.Typ ≠ TokenType.ErrorToken := fun t2 h2 => hwf t2 (List.mem_cons_of_mem _ h2)
      have hts : ts.length ≤ m := by simp at hm; omega
      have hn : ts.length + 3 ≤ n := by simp at hf; omega
      have hnext : ∀ (suf : List Token) (c2 : Token) (k2 : Bool), suf <:+ ts →
          ∃ str z2 mid,
            parseTableDataLoop x f n
                (Tokenizer.mk (suf ++ endTag "td" :: tail) c2 k2).advance.2
                (Tokenizer.mk (suf ++ endTag "td" :: tail) c2 k2).advance.1 =
              Run.ret (str, z2) ∧
            z2.rest = mid ++ tail ∧ mid <:+ (t :: ts) ++ [endTag "td"] ∧
            (f = false → str = cellFirstText (suf ++ [endTag "td"])) := by
        intro suf c2 k2 hs
        have hl := hs.length_le
        obtain ⟨str, z2, mid, h1, h2, h3, h4⟩ := ih suf (by omega)
          (fun t2 h2 => hwfts t2 (hs.subset h2))
          (fun hf2 => anchorsClosed_suffix _ (hcl hf2) suf (hs.trans (List.suffix_cons _ _)))
          c2 k2 n (by omega)
        refine ⟨str, z2, mid, h1, h2, ?_, h4⟩
        obtain ⟨p, hp⟩ := hs
        obtain ⟨q, hq⟩ := h3
        exact ⟨t :: p ++ q, by simp only [List.cons_append, List.append_assoc, hq, ← hp]⟩
      rw [parseTableDataLoop_succ]
      simp only [List.cons_append, advance_cons]
      rw [if_neg ht1, if_neg ht2]
      by_cases h3 : f = true ∧ t.Data = "a" ∧ t.Typ = TokenType.StartTagToken
      · rw [if_pos h3]
        obtain ⟨str, z2, suf, h4, h5, h6⟩ := parseHyperLinkTag_in_cell x t ts
          (endTag "td" :: tail) t true n h3.2.2 ((hcl h3.1).1 ⟨h3.2.1, h3.2.2⟩) (by omega)
        rw [h4]
        simp only [bind_ret]
        have hf3 : ¬ f = false := by rw [h3.1]; decide
        split
        · refine ⟨str, z2, suf ++ [endTag "td"], rfl, by rw [h5]; simp, ?_,
            fun h => absurd h hf3⟩
          obtain ⟨p, hp⟩ := h6
          exact ⟨t :: p, by rw [← hp]; simp⟩
        · rw [advance_of_rest z2 t true, h5]
          obtain ⟨str2, z3, mid, h7, h8, h9, _⟩ := hnext suf t true h6
          exact ⟨str2, z3, mid, h7, h8, h9, fun h => absurd h hf3⟩
      · rw [if_neg h3]
        have hcell : cellFirstText (t :: (ts ++ [endTag "td"])) =
            if t.Typ = TokenType.TextToken ∧ (TrimSpace t.String).length > 0 then
              TrimSpace t.String
            else cellFirstText (ts ++ [endTag "td"]) := by
          rw [cellFirstText, if_neg ht1, if_neg ht2]
        by_cases h4 : t.Typ = TokenType.TextToken ∧ (TrimSpace t.String).length > 0
        · rw [if_pos h4]
          refine ⟨_, _, ts ++ [endTag "td"], rfl, by simp, ⟨[t], by simp⟩, fun _ => ?_⟩
          rw [hcell, if_pos h4]
        · rw [if_neg h4]
          obtain ⟨str2, z3, mid, h7, h8, h9, h10⟩ := hnext ts t true (List.suffix_refl _)
          refine ⟨str2, z3, mid, h7, h8, h9, fun h => ?_⟩
          rw [hcell, if_neg h4]
          exact h10 h

/-- The function `parseTableData` on a closed cell whose start tag has just
been read. -/
theorem parseTableData_in_cell (x : String → Option String) (f : Bool) (attr : List Attribute)
    (inner tail : List Token) (fuel : Nat)
    (hwf : ∀ t ∈ inner, ¬ (t.Data = "td" ∧ t.Typ = TokenType.EndTagToken) ∧
      t.Typ ≠ TokenType.ErrorToken)
    (hcl : f = true → anchorsClosed inner) (hf : inner.length + 4 ≤ fuel) :
    ∃ str z2 mid,
      parseTableData x fuel ⟨inner ++ endTag "td" :: tail, startTag "td" attr, true⟩ f =
        Run.ret (str, z2) ∧
      z2.rest = mid ++ tail ∧ mid <:+ inner ++ [endTag "td"] ∧
      (f = false → str = cellFirstText (inner ++ [endTag "td"])) := by
  obtain ⟨n, rfl⟩ : ∃ n, fuel = n + 1 := ⟨fuel - 1, by omega⟩
  unfold parseTableData
  simp only [token_taken, startTag]
  rw [parseTableDataLoop_succ]
  simp only [ne_eq, not_true_eq_false, false_and, if_false, reduceCtorEq, and_false,
    String.reduceEq]
  exact parseTableDataLoop_in_cell x f tail inner.length inner (le_refl _) hwf hcl _ true n
    (by omega)

/-- The row loop passes over tokens that are no `td` start tag, no `tr` end
tag and not the error token. -/
theorem parseTableRowLoop_skip (x : String → Option String) (b : Bool) (mid : List Token) :
    ∀ (tail : List Token) (retData : List String) (c c2 : Token) (k k2 : Bool) (n : Nat),
      (∀ t ∈ mid, ¬ (t.Data = "tr" ∧ t.Typ = TokenType.EndTagToken) ∧
        t.Typ ≠ TokenType.ErrorToken ∧ ¬ (t.Data = "td" ∧ t.Typ = TokenType.StartTagToken)) →
      parseTableRowLoop x b (mid.length + n) (Tokenizer.mk (mid ++ tail) c k).advance.2
          (Tokenizer.mk (mid ++ tail) c k).advance.1 retData =
        parseTableRowLoop x b n (Tokenizer.mk tail c2 k2).advance.2
          (Tokenizer.mk tail c2 k2).advance.1 retData := by
  induction mid with
  | nil =>
    intro tail retData c c2 k k2 n _
    simp only [List.length_nil, Nat.zero_add, List.nil_append]
    rw [advance_congr tail c c2 k k2]
  | cons t ts ih =>
    intro tail retData c c2 k k2 n h
    obtain ⟨h1, h2, h3⟩ := h t (List.mem_cons_self _ _)
    have e : (t :: ts).length + n = (ts.length + n) + 1 := by simp; omega
    rw [e, parseTableRowLoop_succ]
    simp only [List.cons_append, advance_cons]
    rw [if_neg h1, if_neg h2, if_neg h3]
    exact ih tail retData t c2 true k2 n (fun t2 h2 => h t2 (List.mem_cons_of_mem _ h2))

theorem length_flatMap_closedCell (cell : List Attribute × List Token)
    (cells : List (List Attribute × List Token)) :
    ((cell :: cells).flatMap closedCell).length =
      cell.2.length + 2 + (cells.flatMap closedCell).length := by
  simp [List.flatMap_cons, closedCell]
  omega

/-- The row loop, about to read the first of the closed cells of a row,
returns one value for each cell, the empty ones left out, and stops at the
`tr` end tag; the value of a cell that is read with link resolution off is
the first text of the cell that is not blank. -/
theorem parseTableRowLoop_closed_cells (x : String → Option String) (b : Bool)
    (more : List Token) (cells : List (List Attribute × List Token)) :
    ∀ (retData : List String) (c : Token) (k : Bool) (fuel : Nat),
      (∀ cell ∈ cells, (∀ t ∈ cell.2, innerToken t) ∧
        (isNumericCell cell.1 ∨ anchorsClosed cell.2)) →
      3 * (cells.flatMap closedCell).length + 1 ≤ fuel →
      ∃ vals : List String,
        List.Forall₂ (fun cell v => (b = false ∨ isNumericCell cell.1) →
          v = cellFirstText (cell.2 ++ [endTag "td"])) cells vals ∧
        parseTableRowLoop x b fuel
            (Tokenizer.mk (cells.flatMap closedCell ++ endTag "tr" :: more) c k).advance.2
            (Tokenizer.mk (cells.flatMap closedCell ++ endTag "tr" :: more) c k).advance.1
            retData =
          Run.ret (Except.ok (retData ++ vals.filter (fun s => s.length > 0)),
            ⟨more, endTag "tr", true⟩) := by
  induction cells with
  | nil =>
    intro retData c k fuel _ hf
    obtain ⟨n, rfl⟩ : ∃ n, fuel = n + 1 := ⟨fuel - 1, by simp at hf; omega⟩
    refine ⟨[], List.Forall₂.nil, ?_⟩
    simp [parseTableRowLoop, endTag]
  | cons cell cells ih =>
    intro retData c k fuel hcells hf
    obtain ⟨hwf, hcl⟩ := hcells cell (List.mem_cons_self _ _)
    rw [length_flatMap_closedCell] at hf
    obtain ⟨n, rfl⟩ : ∃ n, fuel = n + 1 := ⟨fuel - 1, by omega⟩
    have hflag : cellParseFlag cell.1 b = true → anchorsClosed cell.2 := by
      intro hfl
      rcases hcl with hnum | hc
      · rw [cellParseFlag_numeric cell.1 hnum b] at hfl
        exact absurd hfl (by decide)
      · exact hc
    obtain ⟨str, z2, mid, h1, h2, h3, h4⟩ := parseTableData_in_cell x (cellParseFlag cell.1 b)
      cell.1 cell.2 (cells.flatMap closedCell ++ endTag "tr" :: more) n
      (fun t ht => ⟨(hwf t ht).1, (hwf t ht).2.2.2⟩) hflag (by omega)
    have hmidlen : mid.length ≤ cell.2.length + 1 := by
      have := h3.length_le
      simpa using this
    have hmid : ∀ t ∈ mid, ¬ (t.Data = "tr" ∧ t.Typ = TokenType.EndTagToken) ∧
        t.Typ ≠ TokenType.ErrorToken ∧
        ¬ (t.Data = "td" ∧ t.Typ = TokenType.StartTagToken) := by
      intro t ht
      have hm := h3.subset ht
      rcases List.mem_append.mp hm with hi | he
      · exact ⟨(hwf t hi).2.2.1, (hwf t hi).2.2.2, (hwf t hi).2.1⟩
      · simp only [List.mem_singleton] at he
        rw [he]
        simp [endTag]
    obtain ⟨n2, rfl⟩ : ∃ n2, n = mid.length + n2 := ⟨n - mid.length, by omega⟩
    obtain ⟨vals, hv, hrow⟩ := ih
      (if str.length > 0 then retData ++ [str] else retData) (endTag "td") true n2
      (fun c2 h2 => hcells c2 (List.mem_cons_of_mem _ h2)) (by omega)
    refine ⟨str :: vals, List.Forall₂.cons ?_ hv, ?_⟩
    · intro hb
      apply h4
      rcases hb with hb | hb
      · rw [hb]; exact cellParseFlag_false cell.1
      · exact cellParseFlag_numeric cell.1 hb b
    · simp only [List.flatMap_cons, closedCell, List.cons_append, List.append_assoc,
        List.singleton_append, List.nil_append, advance_cons]
      rw [parseTableRowLoop_succ]
      simp only [startTag, reduceCtorEq, and_false, if_false, and_self, if_true,
        String.reduceEq, false_and]
      simp only [startTag] at h1
      rw [h1]
      simp only [bind_ret]
      rw [advance_of_rest z2 (endTag "td") true, h2,
        parseTableRowLoop_skip x b mid _ _ (endTag "td") (endTag "td") true true n2 hmid,
        hrow]
      by_cases hl : str.length > 0
      · simp [hl, List.filter_cons]
      · simp [hl, List.filter_cons]

/-- One call of `parseTableRow` in front of a row of closed cells. -/
theorem parseTableRow_closed_cells (x : String → Option String) (b : Bool)
    (ra : List Attribute) (cells : List (List Attribute × List Token)) (more : List Token)
    (c : Token) (k : Bool) (fuel : Nat)
    (hcur : k = true ∨ ¬ (c.Typ = TokenType.StartTagToken ∧ c.Data = "tr"))
    (hcells : ∀ cell ∈ cells, (∀ t ∈ cell.2, innerToken t) ∧
      (isNumericCell cell.1 ∨ anchorsClosed cell.2))
    (hf : 3 * (cells.flatMap closedCell).length + 3 ≤ fuel) :
    ∃ vals : List String,
      List.Forall₂ (fun cell v => (b = false ∨ isNumericCell cell.1) →
        v = cellFirstText (cell.2 ++ [endTag "td"])) cells vals ∧
      parseTableRow x fuel
          ⟨startTag "tr" ra :: (cells.flatMap closedCell ++ endTag "tr" :: more), c, k⟩ b =
        Run.ret (Except.ok (vals.filter (fun s => s.length > 0)),
          ⟨more, endTag "tr", true⟩) := by
  obtain ⟨hz, hz2⟩ := token_not_row
    (startTag "tr" ra :: (cells.flatMap closedCell ++ endTag "tr" :: more)) c k hcur
  obtain ⟨n, rfl⟩ : ∃ n, fuel = n + 2 := ⟨fuel - 2, by omega⟩
  obtain ⟨vals, hv, hrow⟩ := parseTableRowLoop_closed_cells x b more cells []
    (startTag "tr" ra) true (n + 1) hcells (by omega)
  refine ⟨vals, hv, ?_⟩
  unfold parseTableRow
  rw [hz2, seekRowLoop_next ra _ c true _ n hz]
  simp only [bind_ret]
  rw [parseTableRowLoop_succ]
  simp only [startTag, reduceCtorEq, and_false, if_false, String.reduceEq, false_and]
  simp only [startTag] at hrow
  rw [hrow]
  simp

/-! ### C3 -/

theorem forall₂_eq_map {α β : Type} (g : α → β) (l : List α) :
    ∀ (vals : List β), List.Forall₂ (fun a v => v = g a) l vals → vals = l.map g := by
  induction l with
  | nil => intro vals h; cases h; rfl
  | cons a as ih =>
    intro vals h
    cases h with
    | cons h1 h2 => rw [h1, ih _ h2]; rfl

/-- C3, as amended: on a row of closed cells `<td ...>`, inner tokens, `</td>`
(the inner tokens no `td` tag and no `tr` end tag), in which the anchors of
every cell that is not numeric are closed inside the cell, `parseTableRow`
with link resolution requested returns one value for each cell, the empty
ones left out, and the value of each cell whose `class` is `num` or `nump` is
the value that the call with link resolution off returns for it: the first
text token of the cell that is not blank, trimmed (text inside an anchor
included), never a `href` and never a value decoded from an `onclick`. -/
theorem parseTableRow_numeric_cells (getFinDataXBRLTag : String → Option String)
    (ra : List Attribute) (cells : List (List Attribute × List Token)) (more : List Token)
    (c : Token) (k : Bool) (fuel : Nat)
    (hcur : k = true ∨ ¬ (c.Typ = TokenType.StartTagToken ∧ c.Data = "tr"))
    (hcells : ∀ cell ∈ cells, (∀ t ∈ cell.2, innerToken t) ∧
      (isNumericCell cell.1 ∨ anchorsClosed cell.2))
    (hf : 3 * (cells.flatMap closedCell).length + 3 ≤ fuel) :
    ∃ vals : List String,
      List.Forall₂ (fun cell v => isNumericCell cell.1 →
        v = cellFirstText (cell.2 ++ [endTag "td"])) cells vals ∧
      parseTableRow getFinDataXBRLTag fuel
          ⟨startTag "tr" ra :: (cells.flatMap closedCell ++ endTag "tr" :: more), c, k⟩ true =
        Run.ret (Except.ok (vals.filter (fun s => s.length > 0)),
          ⟨more, endTag "tr", true⟩) ∧
      parseTableRow getFinDataXBRLTag fuel
          ⟨startTag "tr" ra :: (cells.flatMap closedCell ++ endTag "tr" :: more), c, k⟩ false =
        Run.ret (Except.ok ((cells.map fun cell =>
            cellFirstText (cell.2 ++ [endTag "td"])).filter (fun s => s.length > 0)),
          ⟨more, endTag "tr", true⟩) := by
  obtain ⟨vals, hv, h1⟩ := parseTableRow_closed_cells getFinDataXBRLTag true ra cells more c k
    fuel hcur hcells hf
  obtain ⟨vals2, hv2, h2⟩ := parseTableRow_closed_cells getFinDataXBRLTag false ra cells more
    c k fuel hcur hcells hf
  have e : vals2 = cells.map fun cell => cellFirstText (cell.2 ++ [endTag "td"]) :=
    forall₂_eq_map _ cells vals2 (hv2.imp fun _ _ h => h (Or.inl rfl))
  rw [e] at h2
  exact ⟨vals, hv.imp fun _ _ h hnum => h (Or.inr hnum), h1, h2⟩

/-- C3, witness: the row `<tr><td class="pl"><a href="#">Revenues</a></td>`
`<td class="nump"><a href="/x"> 12 </a></td><td class="num"> </td></tr>`. -/
theorem parseTableRow_numeric_cells_witness :
    ∃ vals : List String,
      List.Forall₂ (fun cell v => isNumericCell cell.1 →
          v = cellFirstText (cell.2 ++ [endTag "td"]))
        [([⟨"class", "pl"⟩],
            [startTag "a" [⟨"href", "#"⟩], textToken "Revenues", endTag "a"]),
          ([⟨"class", "nump"⟩], [startTag "a" [⟨"href", "/x"⟩], textToken " 12 ", endTag "a"]),
          ([⟨"class", "num"⟩], [textToken " "])] vals ∧
      parseTableRow (fun _ => none) 50
          ⟨startTag "tr" [] ::
            ([([⟨"class", "pl"⟩],
                [startTag "a" [⟨"href", "#"⟩], textToken "Revenues", endTag "a"]),
              ([⟨"class", "nump"⟩],
                [startTag "a" [⟨"href", "/x"⟩], textToken " 12 ", endTag "a"]),
              ([⟨"class", "num"⟩], [textToken " "])].flatMap closedCell ++
              endTag "tr" :: []), errorToken, false⟩ true =
        Run.ret (Except.ok (vals.filter (fun s => s.length > 0)), ⟨[], endTag "tr", true⟩) ∧
      parseTableRow (fun _ => none) 50
          ⟨startTag "tr" [] ::
            ([([⟨"class", "pl"⟩],
                [startTag "a" [⟨"href", "#"⟩], textToken "Revenues", endTag "a"]),
              ([⟨"class", "nump"⟩],
                [startTag "a" [⟨"href", "/x"⟩], textToken " 12 ", endTag "a"]),
              ([⟨"class", "num"⟩], [textToken " "])].flatMap closedCell ++
              endTag "tr" :: []), errorToken, false⟩ false =
        Run.ret (Except.ok ((([([⟨"class", "pl"⟩],
                [startTag "a" [⟨"href", "#"⟩], textToken "Revenues", endTag "a"]),
              ([⟨"class", "nump"⟩],
                [startTag "a" [⟨"href", "/x"⟩], textToken " 12 ", endTag "a"]),
              ([⟨"class", "num"⟩], [textToken " "])] :
                List (List Attribute × List Token)).map fun cell =>
            cellFirstText (cell.2 ++ [endTag "td"])).filter (fun s => s.length > 0)),
          ⟨[], endTag "tr", true⟩) :=
  parseTableRow_numeric_cells (fun _ => none) []
    [([⟨"class", "pl"⟩], [startTag "a" [⟨"href", "#"⟩], textToken "Revenues", endTag "a"]),
      ([⟨"class", "nump"⟩], [startTag "a" [⟨"href", "/x"⟩], textToken " 12 ", endTag "a"]),
      ([⟨"class", "num"⟩], [textToken " "])] [] errorToken false 50 (Or.inr (by decide))
    (by
      intro cell hcell
      simp only [List.mem_cons, List.mem_singleton, List.not_mem_nil, or_false] at hcell
      rcases hcell with rfl | rfl | rfl
      · exact ⟨by decide, Or.inr (by simp [anchorsClosed, isAnchorEnd, startTag, endTag, textToken])⟩
      · exact ⟨by decide, Or.inl ⟨⟨"class", "nump"⟩, by simp, rfl, Or.inr rfl⟩⟩
      · exact ⟨by decide, Or.inl ⟨⟨"class", "num"⟩, by simp, rfl, Or.inl rfl⟩⟩)
    (by decide)

/-- C3, counterexample: in the row `<tr><td><a href="/x">foo</td>`
`<td class="num"><a href="/y">5</a></td></tr>` the anchor of the first cell
is not closed inside the cell.  With link resolution requested the anchor
scan reads on through the `td` start tag of the numeric cell to the `</a>`
in it, and the row comes back empty: the numeric cell does not yield its
first text `5`, which the call with link resolution off returns. -/
theorem parseTableRow_swallowed_cell_counterexample :
    ¬ ∀ (getFinDataXBRLTag : String → Option String) (ra : List Attribute)
        (cells : List (List Attribute × List Token)) (more : List Token) (fuel : Nat),
        (∀ cell ∈ cells, ∀ t ∈ cell.2, innerToken t) →
        3 * (cells.flatMap closedCell).length + 3 ≤ fuel →
        ∃ (vals : List String) (z2 : Tokenizer),
          List.Forall₂ (fun cell v => isNumericCell cell.1 →
            v = cellFirstText (cell.2 ++ [endTag "td"])) cells vals ∧
          parseTableRow getFinDataXBRLTag fuel
              (NewTokenizer (startTag "tr" ra ::
                (cells.flatMap closedCell ++ endTag "tr" :: more))) true =
            Run.ret (Except.ok (vals.filter (fun s => s.length > 0)), z2) := by
  intro h
  obtain ⟨vals, z2, hv, hrow⟩ := h (fun _ => none) []
    [([], [startTag "a" [⟨"href", "/x"⟩], textToken "foo"]),
      ([⟨"class", "num"⟩], [startTag "a" [⟨"href", "/y"⟩], textToken "5", endTag "a"])]
    [] 40 (by decide) (by decide)
  have e : parseTableRow (fun _ => none) 40
      (NewTokenizer (startTag "tr" [] ::
        ([([], [startTag "a" [⟨"href", "/x"⟩], textToken "foo"]),
          ([⟨"class", "num"⟩],
            [startTag "a" [⟨"href", "/y"⟩], textToken "5", endTag "a"])].flatMap closedCell ++
          endTag "tr" :: []))) true =
      Run.ret (Except.ok [], ⟨[], endTag "tr", true⟩) := rfl
  have efalse : parseTableRow (fun _ => none) 40
      (NewTokenizer (startTag "tr" [] ::
        ([([], [startTag "a" [⟨"href", "/x"⟩], textToken "foo"]),
          ([⟨"class", "num"⟩],
            [startTag "a" [⟨"href", "/y"⟩], textToken "5", endTag "a"])].flatMap closedCell ++
          endTag "tr" :: []))) false =
      Run.ret (Except.ok ["foo", "5"], ⟨[], endTag "tr", true⟩) := rfl
  have e2 := e.symm.trans hrow
  simp only [Run.ret.injEq, Prod.mk.injEq, Except.ok.injEq] at e2
  cases hv with
  | cons h1 h2 =>
    cases h2 with
    | cons h3 h4 =>
      cases h4
      have h5 := h3 ⟨⟨"class", "num"⟩, by simp, rfl, Or.inl rfl⟩
      have h6 : cellFirstText ([startTag "a" [⟨"href", "/y"⟩], textToken "5", endTag "a"] ++
          [endTag "td"]) = "5" := by decide
      rw [h6] at h5
      rw [h5] at e2
      have h7 : ∀ l : List String, "5" ∈ l →
          List.filter (fun s => decide (s.length > 0)) l ≠ [] := by
        intro l hl hnil
        have hm : "5" ∈ List.filter (fun s => decide (s.length > 0)) l :=
          List.mem_filter.mpr ⟨hl, by decide⟩
        rw [hnil] at hm
        simp at hm
      exact h7 _ (by simp) e2.1.symm

end Edgar
